import Mathlib

/-!
# Shamir secret sharing over GF(2^b)

A shallow embedding of `src/lib/sssa.js` (class `SSSA`) and proofs about it.

Conventions of the embedding.

* A JavaScript string of `'0'`/`'1'` characters is a `List Bool`; any other string is a
  `List Char`.
* A JavaScript array of numbers is a `List Nat`.  An absent entry (`undefined`) or `NaN`
  is represented by `0`: the only consumer of such entries is `if (y[i])` in `lagrange`,
  which treats `undefined`, `NaN` and `0` alike.
* Dynamically typed arguments that the code inspects with `typeof` are a `JSValue`.
* A `throw` is `Except.error`.
* The bitwise operator `^` acts on 32-bit integers; on field elements below `2 ^ 31` it is
  `Nat.xor`.
* `./galoisField`, `./randomBitGenerator`, `./utils.js` and `is-base64` are not part of the
  sources at hand.  The tables of the field and the base64 helpers are parameters, the
  bit-level helpers are modelled from the specification; every such definition says so.
-/

namespace Shamir

/-! ## Dynamically typed values -/

/-- The JavaScript values that the argument checks of `sssa.js` tell apart.  `num k` is an
integral finite number, `nonInteger` any other number different from `NaN` (a fraction or an
infinity), `other` any truthy value that is neither a string nor a number. -/
inductive JSValue where
  | undefined
  | null
  | bool (b : Bool)
  | str (s : List Char)
  | num (k : Int)
  | nan
  | nonInteger
  | other
  deriving DecidableEq, Repr

namespace JSValue

/-- Truthiness, as used by `||`. -/
def truthy : JSValue → Bool
  | undefined => false
  | null => false
  | bool b => b
  | str s => !s.isEmpty
  | num k => k != 0
  | nan => false
  | nonInteger => true
  | other => true

/-- The test `typeof v === 'number'`. -/
def isNumber : JSValue → Bool
  | num _ => true
  | nan => true
  | nonInteger => true
  | _ => false

/-- The test `typeof v === 'string'`. -/
def isString : JSValue → Bool
  | str _ => true
  | _ => false

/-- The JavaScript expression `a || b`. -/
def orElse (a b : JSValue) : JSValue := if a.truthy then a else b

end JSValue

/-! ## The field engine -/

/-- The object built by `new CharacteristicTwoGaloisField(fieldSize)`: the field size and its
two lookup tables.  How `./galoisField` fills the tables is not part of the sources at hand, so
the tables are parameters; `FieldContract` below states what the specification requires of
them. -/
structure CharacteristicTwoGaloisField where
  fieldSize : Nat
  logs : Nat → Nat
  exps : Nat → Nat

namespace CharacteristicTwoGaloisField

/-- The array read `logs[v]`: the log table is defined on the nonzero field elements and
`undefined` (here `none`) elsewhere. -/
def logsAt (G : CharacteristicTwoGaloisField) (v : Nat) : Option Nat :=
  if 0 < v ∧ v < G.fieldSize then some (G.logs v) else none

/-- The array read `exps[e]` for a JavaScript number `e` (`none` is `NaN`): the exp table is
indexed by exponents modulo `fieldSize - 1`; any other read is `undefined` (here `none`). -/
def expsAt (G : CharacteristicTwoGaloisField) (e : Option Int) : Option Nat :=
  match e with
  | some k => if 0 ≤ k ∧ k < (G.fieldSize : Int) - 1 then some (G.exps k.toNat) else none
  | none => none

/-- Modelled from the spec: `multiply` of `./galoisField` (absent).  Section 4.1: if either
operand is 0 the result is 0, otherwise `exp[(log[a] + log[c]) mod (fieldSize - 1)]`. -/
def multiply (G : CharacteristicTwoGaloisField) (a c : Nat) : Nat :=
  if a = 0 ∨ c = 0 then 0 else G.exps ((G.logs a + G.logs c) % (G.fieldSize - 1))

/-- Modelled from the spec: `plus` of `./galoisField` (absent).  Section 4.1: `add(a, c)` is
`a XOR c`. -/
def plus (_G : CharacteristicTwoGaloisField) (a c : Nat) : Nat := a ^^^ c

end CharacteristicTwoGaloisField

/-- The state of an `SSSA` object: `coeffLength` and the tables of `char2GF`. -/
structure SSSA where
  coeffLength : Nat
  logs : Nat → Nat
  exps : Nat → Nat

namespace SSSA

/-- The field `this.fieldSize = Math.pow(2, coeffLength)`. -/
def fieldSize (S : SSSA) : Nat := 2 ^ S.coeffLength

/-- The field `this.char2GF = new CharacteristicTwoGaloisField(this.fieldSize)`. -/
def char2GF (S : SSSA) : CharacteristicTwoGaloisField :=
  { fieldSize := S.fieldSize, logs := S.logs, exps := S.exps }

/-- What the specification (sections 3, 4.1 and 8) requires of the field engine: the field is
`GF(2^b)` with `1 ≤ b` (and `b ≤ 31`, so that `^` on field elements is exclusive or of natural
numbers), `log` maps the nonzero elements into `[0, fieldSize - 2]`, `exp` maps these exponents
to nonzero elements, `exp[log[x]] = x`, the powers of the primitive element are `fieldSize - 1`
distinct elements, `multiply(a, 1) = a` and `multiply` distributes over `add`. -/
def FieldContract (S : SSSA) : Prop :=
  1 ≤ S.coeffLength ∧ S.coeffLength ≤ 31 ∧
  (∀ v, v < S.fieldSize → 0 < v → S.logs v < S.fieldSize - 1) ∧
  (∀ e, e < S.fieldSize - 1 → 0 < S.exps e ∧ S.exps e < S.fieldSize) ∧
  (∀ v, v < S.fieldSize → 0 < v → S.exps (S.logs v) = v) ∧
  (∀ e, e < S.fieldSize - 1 → S.logs (S.exps e) = e) ∧
  (∀ a, a < S.fieldSize → S.char2GF.multiply a 1 = a) ∧
  (∀ a, a < S.fieldSize → ∀ b, b < S.fieldSize → ∀ c, c < S.fieldSize →
    S.char2GF.multiply a (b ^^^ c) = S.char2GF.multiply a b ^^^ S.char2GF.multiply a c)

instance (S : SSSA) : Decidable S.FieldContract := by
  unfold FieldContract; infer_instance

/-- Method `horner(x, coeffs)`: the loop runs from the last coefficient down to the first. -/
def horner (S : SSSA) (x : Nat) (coeffs : List Nat) : Nat :=
  coeffs.foldr
    (fun coefficient fx =>
      if fx ≠ 0 then S.char2GF.plus (S.char2GF.multiply x fx) coefficient else coefficient)
    0

/-- Method `getPointsOnPolynomialFor(coeffs, numShares)`: `shares[i - 1] = horner(i, coeffs)`
for `i = 1 .. numShares`. -/
def getPointsOnPolynomialFor (S : SSSA) (coeffs : List Nat) (numShares : Nat) : List Nat :=
  (List.range' 1 numShares).map (fun i => S.horner i coeffs)

/-- One execution of the assignment to `product` in the inner loop of `lagrange`:
`(product + logs[0 ^ x[j]] - logs[x[i] ^ x[j]] + fieldSize - 1) % (fieldSize - 1)`, where
`none` is `NaN` (an operand was `undefined`, or the modulus is 0). -/
def lagrangeStep (S : SSSA) (product : Option Int) (xi xj : Nat) : Option Int :=
  match product, S.char2GF.logsAt (0 ^^^ xj), S.char2GF.logsAt (xi ^^^ xj) with
  | some p, some a, some b =>
    if (S.fieldSize : Int) - 1 = 0 then none
    else some (Int.tmod (p + a - b + S.fieldSize - 1) ((S.fieldSize : Int) - 1))
  | _, _, _ => none

/-- The inner loop `for (j = 0; j < len; j++)` of `lagrange` for the term `i`, entered at index
`j` with the rest of `x` still to visit; it leaves `-1` and stops at the first `x[j] === 0` with
`j ≠ i`. -/
def lagrangeProduct (S : SSSA) (i xi : Nat) : Nat → List Nat → Option Int → Option Int
  | _, [], product => product
  | j, xj :: rest, product =>
    if i ≠ j then
      if xj = 0 then some (-1)
      else lagrangeProduct S i xi (j + 1) rest (S.lagrangeStep product xi xj)
    else lagrangeProduct S i xi (j + 1) rest product

/-- The body of the outer loop of `lagrange` for index `i`, from the running `sum`. -/
def lagrangeTerm (S : SSSA) (x y : List Nat) (sum i : Nat) : Nat :=
  if y.getD i 0 ≠ 0 then
    let product := S.lagrangeProduct i (x.getD i 0) 0 x
      ((S.char2GF.logsAt (y.getD i 0)).map Int.ofNat)
    if product = some (-1) then sum else sum ^^^ (S.char2GF.expsAt product).getD 0
  else sum

/-- Method `lagrange(x, y)`. -/
def lagrange (S : SSSA) (x y : List Nat) : Nat :=
  (List.range x.length).foldl (S.lagrangeTerm x y) 0

end SSSA

/-! ## Concrete engines: GF(8), GF(16) and GF(32) -/

/-- The engine for `coeffLength = 3`, with the tables of `GF(8)` for the primitive polynomial
`x^3 + x + 1`: `exps = [1, 2, 4, 3, 6, 7, 5]`. -/
def sssa3 : SSSA :=
  { coeffLength := 3
    logs := fun v => [0, 0, 1, 3, 2, 6, 4, 5].getD v 0
    exps := fun e => [1, 2, 4, 3, 6, 7, 5].getD e 0 }

/-- The engine for `coeffLength = 4`, with the tables of `GF(16)` for the primitive polynomial
`x^4 + x + 1`. -/
def sssa4 : SSSA :=
  { coeffLength := 4
    logs := fun v => [0, 0, 1, 4, 2, 8, 5, 10, 3, 14, 9, 7, 6, 13, 11, 12].getD v 0
    exps := fun e => [1, 2, 4, 8, 3, 6, 12, 11, 5, 10, 7, 14, 15, 13, 9].getD e 0 }

/-- The engine for `coeffLength = 5`, with the tables of `GF(32)` for the primitive polynomial
`x^5 + x^2 + 1`. -/
def sssa5 : SSSA :=
  { coeffLength := 5
    logs := fun v => [0, 0, 1, 18, 2, 5, 19, 11, 3, 29, 6, 27, 20, 8, 12, 23, 4, 10, 30, 17, 7,
      22, 28, 26, 21, 25, 9, 16, 13, 14, 24, 15].getD v 0
    exps := fun e => [1, 2, 4, 8, 16, 5, 10, 20, 13, 26, 17, 7, 14, 28, 29, 31, 27, 19, 3, 6,
      12, 24, 21, 15, 30, 25, 23, 11, 22, 9, 18].getD e 0 }

/-! ## Numbers as strings -/

/-- The digits of `n` in the given base, most significant first, none for `n = 0`; the first
argument bounds the number of digits. -/
def digitsAux (base : Nat) : Nat → Nat → List Nat
  | 0, _ => []
  | fuel + 1, n => if n = 0 then [] else digitsAux base fuel (n / base) ++ [n % base]

/-- The digits of `n.toString(base)`, most significant first: `0` is the single digit `0`. -/
def toDigits (base n : Nat) : List Nat :=
  if n = 0 then [0] else digitsAux base n n

/-- The string `n.toString(2)`. -/
def toBinary (n : Nat) : List Bool := (toDigits 2 n).map (fun d => decide (d = 1))

/-- The value `parseInt(bits, 2)` of a string of binary digits (`NaN`, here 0, for the empty
string). -/
def parseBinary (bits : List Bool) : Nat := bits.foldl (fun acc b => 2 * acc + b.toNat) 0

/-- The sixteen hexadecimal digits, as `toString(16)` writes them. -/
def hexAlphabet : List Char :=
  ['0', '1', '2', '3', '4', '5', '6', '7', '8', '9', 'a', 'b', 'c', 'd', 'e', 'f']

/-- The hexadecimal digit of a value below 16. -/
def hexChar (d : Nat) : Char := hexAlphabet.getD d '0'

/-- The string `n.toString(16)`. -/
def toHex (n : Nat) : List Char := (toDigits 16 n).map hexChar

/-- The value of a character of the class `[a-fA-F0-9]`, `none` for any other character. -/
def hexValue (c : Char) : Option Nat :=
  if '0'.toNat ≤ c.toNat ∧ c.toNat ≤ '9'.toNat then some (c.toNat - '0'.toNat)
  else if 'a'.toNat ≤ c.toNat ∧ c.toNat ≤ 'f'.toNat then some (c.toNat - 'a'.toNat + 10)
  else if 'A'.toNat ≤ c.toNat ∧ c.toNat ≤ 'F'.toNat then some (c.toNat - 'A'.toNat + 10)
  else none

/-- The character class `[a-fA-F0-9]`. -/
def isHexChar (c : Char) : Bool := (hexValue c).isSome

/-- The character class `[0-9]`. -/
def isDecimalChar (c : Char) : Bool := decide ('0'.toNat ≤ c.toNat ∧ c.toNat ≤ '9'.toNat)

/-- The call `parseInt(s)`, with no radix, on a string of characters of `[a-fA-F0-9]`: the
longest prefix of decimal digits read in base ten, `NaN` (here `none`) when that prefix is
empty.  (On such strings there is no white space, sign or `0x` prefix to skip.) -/
def parseInt (s : List Char) : Option Nat :=
  let digits := s.takeWhile isDecimalChar
  if digits.isEmpty then none
  else some (digits.foldl (fun acc c => 10 * acc + (c.toNat - '0'.toNat)) 0)

/-! ## The helpers of `./utils.js` -/

/-- The helpers `base64ToBits` and `bitsToBase64` of `./utils.js` and the predicate `isBase64`
of the package `is-base64`.  They are external collaborators (specification, sections 1 and 6)
and absent from the sources at hand, so they are parameters. -/
structure Base64Helpers where
  isBase64 : List Char → Bool
  base64ToBits : List Char → List Bool
  bitsToBase64 : List Bool → List Char

/-- Modelled from the spec: `padLeft` of `./utils.js` (absent).  Sections 4.3 and 4.4: a number
is rendered as a fixed-width string, that is, its digits are preceded by as many zero digits as
the width requires. -/
def padLeft {α : Type} (zero : α) (str : List α) (width : Nat) : List α :=
  List.replicate (width - str.length) zero ++ str

/-- Modelled from the spec: `markPadding` of `./utils.js` (absent).  Section 4.3: a single marker
bit of value 1 is put ahead of the bit sequence. -/
def markPadding (bits : List Bool) : List Bool := true :: bits

/-- The expression `s.indexOf('1')`: the position of the first 1, or `-1`. -/
def indexOfOne (s : List Bool) : Int :=
  if true ∈ s then (s.indexOf true : Nat) else -1

/-- The expression `s.slice(s.indexOf('1') + 1)`, as written in `combineSecret`. -/
def sliceAfterFirstOne (s : List Bool) : List Bool := s.drop (indexOfOne s + 1).toNat

/-- Modelled from the spec: `removePadding` of `./utils.js` (absent).  Sections 4.3 and 4.4: the
marker bit (the first 1 from the head) is dropped with everything before it, which is what
`combineSecret` does in place. -/
def removePadding (bits : List Bool) : List Bool := sliceAfterFirstOne bits

/-- Groups of `width` bits read from the tail of the sequence toward the head, each as an
unsigned integer; the group at the head may be shorter.  The first argument bounds the number
of groups. -/
def groupsFromTail (width : Nat) : Nat → List Bool → List Nat
  | 0, _ => []
  | fuel + 1, bits =>
    if bits.length ≤ width then [parseBinary bits]
    else parseBinary (bits.drop (bits.length - width)) ::
      groupsFromTail width fuel (bits.take (bits.length - width))

/-- Modelled from the spec: `splitBitsToIntArray` of `./utils.js` (absent).  Section 4.3:
`padLength` zero bits are added to the marked sequence, and the result is partitioned into
groups of `chunkWidth` bits, each read as an unsigned integer, from the tail of the sequence
toward the head (the first chunk is the tail).  The section places the added bits both "at the
tail" and in the "last-created chunk", which is the chunk at the head; the model follows the
second: the zero bits stand ahead of the marker bit, like the padding that `markPadding` marks
and `removePadding` removes in `sssa.js`, and this is the placement for which `join`, which
drops the marker and what precedes it, is the inverse that the section requires.
`publicShareToPoints` calls the helper without `padLength`, which is the call with
`padLength = 0`. -/
def splitBitsToIntArray (bits : List Bool) (chunkWidth padLength : Nat) : List Nat :=
  let padded := List.replicate padLength false ++ bits
  groupsFromTail chunkWidth padded.length padded

/-- Modelled from the spec: `convertIntArrayToBits` of `./utils.js` (absent).  Section 4.3: each
chunk is rendered as a fixed-width binary string and the strings are concatenated in the
tail-to-head order of `split`: the first chunk is the tail. -/
def convertIntArrayToBits (chunks : List Nat) (chunkWidth : Nat) : List Bool :=
  chunks.foldl (fun acc chunk => padLeft false (toBinary chunk) chunkWidth ++ acc) []

/-- Modelled from the spec: `bin2hex` of `./utils.js` (absent).  Section 4.4: the bit string is
hex-encoded, four bits to a digit, the digit at the head standing for the bits that remain. -/
def bin2hex (bits : List Bool) : List Char :=
  ((groupsFromTail 4 bits.length bits).map hexChar).reverse

/-- Modelled from the spec: `hex2bin` of `./utils.js` (absent).  Section 4.4: the hex string is
decoded, each digit to its four bits. -/
def hex2bin (hex : List Char) : List Bool :=
  hex.foldr (fun c acc => padLeft false (toBinary ((hexValue c).getD 0)) 4 ++ acc) []

/-! ## The share codec and the orchestrator -/

/-- The places where `sssa.js` throws. -/
inductive Error where
  | secretNotString
  | invalidShareCount
  | shareCountTooLarge
  | invalidThreshold
  | thresholdTooLarge
  | invalidPadLength
  | notBase64
  | sharesToBinInput
  | shareIdOutOfRange
  | invalidShareId
  | invalidShareData
  | typeError
  deriving DecidableEq, Repr

deriving instance DecidableEq for Except

namespace SSSA

/-- Method `splitSecret(secret, padLength)`. -/
def splitSecret (S : SSSA) (U : Base64Helpers) (secret : List Char) (padLength : Nat) :
    List Nat :=
  let secretInBits := markPadding (U.base64ToBits secret)
  splitBitsToIntArray secretInBits S.coeffLength padLength

/-- Method `combineSecret(secretChunks)`. -/
def combineSecret (S : SSSA) (U : Base64Helpers) (secretChunks : List Nat) : List Char :=
  let result := convertIntArrayToBits secretChunks S.coeffLength
  U.bitsToBase64 (sliceAfterFirstOne result)

/-- Modelled from the spec: `generateCoefficients` of `./randomBitGenerator` (absent).
Section 6: the result is a sequence of `threshold` field elements whose element 0 is the chunk
value; elements `1 .. threshold - 1` are drawn from the random source.  `source k` is the number
the source yields for element `k + 1`, taken as a field element of `coeffLength` bits. -/
def generateCoefficients (source : Nat → Nat) (secretChunk threshold coeffLength : Nat) :
    List Nat :=
  secretChunk :: (List.range (threshold - 1)).map (fun k => source k % 2 ^ coeffLength)

/-- Method `getPointsFromChunks(secretChunks, numShares, threshold)`; `random i` is the random
source during the call of `generateCoefficients` for chunk `i`. -/
def getPointsFromChunks (S : SSSA) (random : Nat → Nat → Nat) (secretChunks : List Nat)
    (numShares threshold : Nat) : List (List Nat) :=
  secretChunks.enum.map (fun p =>
    let polynomial := generateCoefficients (random p.1) p.2 threshold S.coeffLength
    S.getPointsOnPolynomialFor polynomial numShares)

/-- Method `getChunksFromPoints(points)`; `points[0].length` throws when `points` is empty. -/
def getChunksFromPoints (S : SSSA) (points : List (List Nat)) : Except Error (List Nat) :=
  match points with
  | [] => .error .typeError
  | first :: _ =>
    let x := (List.range first.length).map (fun x => x + 1)
    .ok (points.map (fun row => S.lagrange x row))

/-- The statements `y[j] = y[j] || []; y[j].push(v)` of `createCrossSection`. -/
def pushAt (y : List (List Nat)) (j v : Nat) : List (List Nat) :=
  if j < y.length then y.set j (y.getD j [] ++ [v]) else y ++ [[v]]

/-- The inner loop of `createCrossSection` over `subShares`, entered at index `j`. -/
def pushRow : Nat → List Nat → List (List Nat) → List (List Nat)
  | _, [], y => y
  | j, v :: rest, y => pushRow (j + 1) rest (pushAt y j v)

/-- Method `createCrossSection(allPoints)`. -/
def createCrossSection (allPoints : List (List Nat)) : List (List Nat) :=
  allPoints.foldl (fun y subShares => pushRow 0 subShares y) []

/-- An array whose last entries were never assigned is shorter: trailing holes are dropped. -/
def trimHoles {α : Type} (a : List (Option α)) : List (Option α) :=
  (a.reverse.dropWhile (fun e => e.isNone)).reverse

/-- Method `sharesToBin(crossSection)`.  The guard reads `crossSection[0].length` when
`crossSection` is empty, which throws; `output[i]` stays a hole (`none`) when row `i` is
empty. -/
def sharesToBin (S : SSSA) (crossSection : List (List Nat)) :
    Except Error (List (Option (List Bool))) :=
  if crossSection.isEmpty then .error .typeError
  else
    .ok (trimHoles (crossSection.map (fun row =>
      row.foldl
        (fun (output : Option (List Bool)) v =>
          some (padLeft false (toBinary v) S.coeffLength ++ output.getD []))
        none)))

/-- The number of characters of the id in a share string: `max.toString(16).length` for
`max = fieldSize - 1`. -/
def idLen (S : SSSA) : Nat := (toHex (S.fieldSize - 1)).length

/-- Method `constructPublicShareString(id, data)`.  `id.toString(16)` is evaluated before the
check and throws for `undefined` and `null`. -/
def constructPublicShareString (S : SSSA) (id : JSValue) (data : List Char) :
    Except Error (List Char) :=
  let idMax : Int := (S.fieldSize : Int) - 1
  match id with
  | .undefined => .error .typeError
  | .null => .error .typeError
  | .num k =>
    if k < 1 ∨ k > idMax then .error .shareIdOutOfRange
    else .ok (padLeft '0' (toHex k.toNat) S.idLen ++ data)
  | _ => .error .shareIdOutOfRange

/-- The loop of `binarySharesToPublicShareString` from index `i`, with the entries of `shares`
still to visit.  For a hole in `shares` the absent helper `markPadding` would receive
`undefined`, about which the specification says nothing; the model reports it as a type
error. -/
def binarySharesLoop (S : SSSA) : Nat → List (Option (List Bool)) →
    Except Error (List (List Char))
  | _, [] => .ok []
  | i, share :: rest =>
    match share with
    | none => .error .typeError
    | some bits =>
      match S.constructPublicShareString (.num (i + 1)) (bin2hex (markPadding bits)) with
      | .error e => .error e
      | .ok str =>
        match binarySharesLoop S (i + 1) rest with
        | .error e => .error e
        | .ok strs => .ok (str :: strs)

/-- Method `binarySharesToPublicShareString(shares)`. -/
def binarySharesToPublicShareString (S : SSSA) (shares : List (Option (List Bool))) :
    Except Error (List (List Char)) :=
  S.binarySharesLoop 0 shares

/-- The match of `'^([a-fA-F0-9]{idLen})([a-fA-F0-9]+)$'` against `share`: the two groups, or
`none` when there is no match. -/
def shareComponents (S : SSSA) (share : List Char) : Option (List Char × List Char) :=
  if share.all isHexChar ∧ S.idLen + 1 ≤ share.length then
    some (share.take S.idLen, share.drop S.idLen)
  else none

/-- Method `deconstructPublicShareString(share)`: the parsed `id` and the `data`. -/
def deconstructPublicShareString (S : SSSA) (share : List Char) :
    Except Error (Nat × List Char) :=
  let max := S.fieldSize - 1
  let components := S.shareComponents share
  -- `id` stays `undefined` without a match, and is `NaN` when `parseInt` finds no digit
  let id : Option Nat := components.bind (fun c => parseInt c.1)
  match id with
  | none => .error .invalidShareId
  | some id =>
    if id < 1 ∨ id > max then .error .invalidShareId
    else
      match components with
      | some c => if c.2.isEmpty then .error .invalidShareData else .ok (id, c.2)
      | none => .error .invalidShareData

/-- The statement `y[j][k] = v` on one row, which fills the row with holes (here 0) up to
position `k` when it is shorter. -/
def setAt (row : List Nat) (k v : Nat) : List Nat :=
  if k < row.length then row.set k v else row ++ List.replicate (k - row.length) 0 ++ [v]

/-- The statements `y[j] = y[j] || []; y[j][k] = v` of `publicShareToPoints`. -/
def assignAt (y : List (List Nat)) (j k v : Nat) : List (List Nat) :=
  if j < y.length then y.set j (setAt (y.getD j []) k v) else y ++ [setAt [] k v]

/-- The inner loop of `publicShareToPoints` over `splitShare`, entered at index `j`, for the
column `k`. -/
def assignColumn (k : Nat) : Nat → List Nat → List (List Nat) → List (List Nat)
  | _, [], y => y
  | j, v :: rest, y => assignColumn k (j + 1) rest (assignAt y j k v)

/-- The loop of `publicShareToPoints` over the shares still to visit, from the arrays `x` and
`y` built so far. -/
def publicShareToPointsLoop (S : SSSA) :
    List (List Char) → List Nat → List (List Nat) → Except Error (List (List Nat))
  | [], _, y => .ok y
  | s :: rest, x, y =>
    match S.deconstructPublicShareString s with
    | .error e => .error e
    | .ok share =>
      if share.1 ∈ x then publicShareToPointsLoop S rest x y
      else
        let x := x ++ [share.1]
        let binData := removePadding (hex2bin share.2)
        let splitShare := splitBitsToIntArray binData S.coeffLength 0
        publicShareToPointsLoop S rest x (assignColumn (x.length - 1) 0 splitShare y)

/-- Method `publicShareToPoints(shares)`. -/
def publicShareToPoints (S : SSSA) (shares : List (List Char)) :
    Except Error (List (List Nat)) :=
  S.publicShareToPointsLoop shares [] []

/-- Method `combine(shares)`. -/
def combine (S : SSSA) (U : Base64Helpers) (shares : List (List Char)) :
    Except Error (List Char) :=
  match S.publicShareToPoints shares with
  | .error e => .error e
  | .ok points =>
    match S.getChunksFromPoints points with
    | .error e => .error e
    | .ok secretChunks => .ok (S.combineSecret U secretChunks)

/-- Method `verifyInput(secret, numShares, threshold, padLength)`. -/
def verifyInput (S : SSSA) (U : Base64Helpers) (secret numShares threshold padLength : JSValue) :
    Except Error Unit :=
  match secret with
  | .str s =>
    match numShares with
    | .num n =>
      if n < 2 then .error .invalidShareCount
      else if n > (S.fieldSize : Int) - 1 then .error .shareCountTooLarge
      else
        match threshold with
        | .num t =>
          if t < 2 then .error .invalidThreshold
          else if t > n then .error .thresholdTooLarge
          else
            match padLength with
            | .num p =>
              if p < 0 ∨ p > 1024 then .error .invalidPadLength
              else if !U.isBase64 s then .error .notBase64
              else .ok ()
            | _ => .error .invalidPadLength
        | _ => .error .invalidThreshold
    | _ => .error .invalidShareCount
  | _ => .error .secretNotString

/-- The last three steps of `generateShares`: from the points of all chunks to the public
share strings. -/
def publicSharesOfPoints (S : SSSA) (pointsFromChunks : List (List Nat)) :
    Except Error (List (List Char)) :=
  let crossSection := createCrossSection pointsFromChunks
  match S.sharesToBin crossSection with
  | .error e => .error e
  | .ok shares => S.binarySharesToPublicShareString shares

/-- The steps of `generateShares` that follow `verifyInput`, for a given pad length. -/
def generateSharesFrom (S : SSSA) (U : Base64Helpers) (random : Nat → Nat → Nat)
    (secret : List Char) (numShares threshold padLength : Nat) :
    Except Error (List (List Char)) :=
  let secretChunks := S.splitSecret U secret padLength
  let pointsFromChunks := S.getPointsFromChunks random secretChunks numShares threshold
  S.publicSharesOfPoints pointsFromChunks

/-- Method `generateShares(secret, numShares, threshold, padLength)`. -/
def generateShares (S : SSSA) (U : Base64Helpers) (random : Nat → Nat → Nat)
    (secret numShares threshold padLength : JSValue) : Except Error (List (List Char)) :=
  let padLength := padLength.orElse (.num 128)
  match S.verifyInput U secret numShares threshold padLength with
  | .error e => .error e
  | .ok () =>
    match secret, numShares, threshold, padLength with
    | .str s, .num n, .num t, .num p => S.generateSharesFrom U random s n.toNat t.toNat p.toNat
    | _, _, _, _ => .error .typeError

end SSSA

/-! ## A concrete instance of the base64 helpers -/

/-- The alphabet of standard base64. -/
def base64Alphabet : List Char :=
  ['A', 'B', 'C', 'D', 'E', 'F', 'G', 'H', 'I', 'J', 'K', 'L', 'M', 'N', 'O', 'P', 'Q', 'R',
   'S', 'T', 'U', 'V', 'W', 'X', 'Y', 'Z', 'a', 'b', 'c', 'd', 'e', 'f', 'g', 'h', 'i', 'j',
   'k', 'l', 'm', 'n', 'o', 'p', 'q', 'r', 's', 't', 'u', 'v', 'w', 'x', 'y', 'z', '0', '1',
   '2', '3', '4', '5', '6', '7', '8', '9', '+', '/']

/-- Consecutive groups of `k` elements from the head, the last one possibly shorter; the second
argument bounds the number of groups. -/
def groupsOf {α : Type} (k : Nat) : Nat → List α → List (List α)
  | 0, _ => []
  | fuel + 1, l => if l.isEmpty then [] else l.take k :: groupsOf k fuel (l.drop k)

/-- Standard base64 decoding to bits: six bits for each character before the `=` padding, cut
to whole bytes. -/
def stdBase64ToBits (s : List Char) : List Bool :=
  let sextets := (s.takeWhile (fun c => c ≠ '=')).map (fun c => base64Alphabet.indexOf c)
  let bits := sextets.foldr (fun v acc => padLeft false (toBinary v) 6 ++ acc) []
  bits.take (bits.length / 8 * 8)

/-- Standard base64 encoding of a bit string: six bits to a character, the last group filled
with zero bits, and `=` up to a multiple of four characters. -/
def stdBitsToBase64 (bits : List Bool) : List Char :=
  let chars := (groupsOf 6 bits.length bits).map (fun g =>
    base64Alphabet.getD (parseBinary (g ++ List.replicate (6 - g.length) false)) 'A')
  chars ++ List.replicate ((4 - chars.length % 4) % 4) '='

/-- Syntactic validity of standard base64: a multiple of four characters of the alphabet, the
last one or two of which may be `=`. -/
def stdIsBase64 (s : List Char) : Bool :=
  let body := s.takeWhile (fun c => c ≠ '=')
  let pad := s.dropWhile (fun c => c ≠ '=')
  s.length % 4 == 0 && body.all (fun c => base64Alphabet.contains c) &&
    pad.all (fun c => c == '=') && pad.length ≤ 2 && !body.isEmpty

/-- The helpers instantiated with standard base64. -/
def stdBase64 : Base64Helpers :=
  { isBase64 := stdIsBase64, base64ToBits := stdBase64ToBits, bitsToBase64 := stdBitsToBase64 }

/-- A sample random source for the concrete evaluations. -/
def sampleRandom : Nat → Nat → Nat := fun i k => 3 + i + 2 * k

/-! ## Definitions used in the statements and proofs -/

open SSSA

/-- A field `F` with a map `φ` from the natural numbers is a model of the engine when, on the
elements below `fieldSize`, `φ` is injective and turns `^` into the sum and `multiply` into the
product of `F`. -/
structure FieldModel (S : SSSA) {F : Type} [Field F] (φ : Nat → F) : Prop where
  map_zero : φ 0 = 0
  map_one : φ 1 = 1
  map_xor : ∀ a b, a < S.fieldSize → b < S.fieldSize → φ (a ^^^ b) = φ a + φ b
  map_mul : ∀ a b, a < S.fieldSize → b < S.fieldSize →
    φ (S.char2GF.multiply a b) = φ a * φ b
  injOn : ∀ a b, a < S.fieldSize → b < S.fieldSize → φ a = φ b → a = b

/-- The `width` low bits of `v`, most significant first. -/
def bitsOf : Nat → Nat → List Bool
  | 0, _ => []
  | width + 1, v => bitsOf width (v / 2) ++ [decide (v % 2 = 1)]

/-- The transpose of a matrix whose rows have `m` entries. -/
def transpose (m : Nat) (rows : List (List Nat)) : List (List Nat) :=
  (List.range m).map (fun j => rows.map (fun row => row.getD j 0))

/-- The strings that `binarySharesToPublicShareString` builds from index `i` on. -/
def expectedStrings (S : SSSA) (i : Nat) (l : List (List Bool)) : List (List Char) :=
  (l.enumFrom i).map
    (fun p => padLeft '0' (toHex (p.1 + 1)) S.idLen ++ bin2hex (markPadding p.2))

/-- The inverse of a nonzero element, read from the tables. -/
def inverse (S : SSSA) (a : Nat) : Nat :=
  if a = 0 then 0 else S.exps ((S.fieldSize - 1 - S.logs a) % (S.fieldSize - 1))

/-- The factor of the term `i` of `lagrange` that position `k` contributes. -/
def lagrangeFactor {F : Type} [Field F] (φ : Nat → F) (x : List Nat) (i k : Nat) : F :=
  if k = i then 1 else φ (x.getD k 0) / (φ (x.getD i 0) + φ (x.getD k 0))

/-- The value of term `i` of the Lagrange sum in the field. -/
def lagrangeSummand {F : Type} [Field F] (φ : Nat → F) (x y : List Nat) (i : Nat) : F :=
  φ (y.getD i 0) * ∏ k ∈ Finset.range x.length, lagrangeFactor φ x i k

/-- A tuple of `k` field elements. -/
def IsTuple (S : SSSA) (k : Nat) (c : List Nat) : Prop :=
  c.length = k ∧ ∀ e ∈ c, e < S.fieldSize

/-- The values held by the participants `xs` for one chunk `s` when the random coefficients
are `c`: `horner(x, [s, c_1, ..., c_k])` for each `x`. -/
def shareValues (S : SSSA) (xs : List Nat) (s : Nat) (c : List Nat) : List Nat :=
  xs.map (fun x => S.horner x (s :: c))

/-- The fold of `horner` as the specification words it (section 4.2), from the highest
coefficient down with `acc := multiply(x, acc) XOR c` performed at every step. -/
def hornerEveryStep (S : SSSA) (x : Nat) (coeffs : List Nat) : Nat :=
  coeffs.foldr (fun c acc => S.char2GF.multiply x acc ^^^ c) 0

/-- The power `x^i` in the field. -/
def power (S : SSSA) (x : Nat) : Nat → Nat
  | 0 => 1
  | i + 1 => S.char2GF.multiply x (power S x i)

/-- The XOR over the positions `i, i + 1, ...` of `coeffs[k] * x^k`, for the coefficients from
position `i` on. -/
def polynomialValueFrom (S : SSSA) (x : Nat) : Nat → List Nat → Nat
  | _, [] => 0
  | i, c :: rest => S.char2GF.multiply c (power S x i) ^^^ polynomialValueFrom S x (i + 1) rest

/-- The field polynomial value: the XOR over `i` of `coeffs[i] * x^i`. -/
def polynomialValue (S : SSSA) (x : Nat) (coeffs : List Nat) : Nat :=
  polynomialValueFrom S x 0 coeffs

/-- Division in the field: `a / b` is `a` times the inverse of `b`. -/
def divide (S : SSSA) (a b : Nat) : Nat := S.char2GF.multiply a (inverse S b)

/-- The product over the positions `j' ≥ j`, `j' ≠ i`, of `x[j'] / (x[i] XOR x[j'])`, for the
entries of `x` from position `j` on. -/
def basisProductFrom (S : SSSA) (i xi : Nat) : Nat → List Nat → Nat
  | _, [] => 1
  | j, xj :: rest =>
    if j = i then basisProductFrom S i xi (j + 1) rest
    else S.char2GF.multiply (divide S xj (xi ^^^ xj)) (basisProductFrom S i xi (j + 1) rest)

/-- Lagrange interpolation at zero as the specification writes it (section 4.2): the XOR over
`i` of `y[i] * prod_{j ≠ i} x[j] / (x[i] XOR x[j])`. -/
def lagrangeAtZero (S : SSSA) (x y : List Nat) : Nat :=
  (List.range x.length).foldl
    (fun sum i =>
      sum ^^^ S.char2GF.multiply (y.getD i 0) (basisProductFrom S i (x.getD i 0) 0 x))
    0

/-- What `lagrange` does with the tables and with `product`: a read of `logs`, an assignment
to `product` (`product = logs[y[i]]` or `product = -1`), an update of `product` in the inner
loop with the value of the sum before `%` and the value assigned, and a read of `exps`. -/
inductive LagrangeEvent where
  | readLogs (index : Nat)
  | assign (product : Option Int)
  | update (beforeModulo product : Option Int)
  | readExps (index : Option Int)
  deriving DecidableEq, Repr

/-- The events of one execution of the update of `product` in the inner loop of `lagrange`:
the reads `logs[0 ^ x[j]]` and `logs[x[i] ^ x[j]]`, then the update. -/
def lagrangeStepEvents (S : SSSA) (product : Option Int) (xi xj : Nat) : List LagrangeEvent :=
  let beforeModulo : Option Int :=
    match product, S.char2GF.logsAt (0 ^^^ xj), S.char2GF.logsAt (xi ^^^ xj) with
    | some p, some a, some b => some (p + a - b + S.fieldSize - 1)
    | _, _, _ => none
  [.readLogs (0 ^^^ xj), .readLogs (xi ^^^ xj),
    .update beforeModulo (S.lagrangeStep product xi xj)]

/-- The events of the inner loop of `lagrange` for the term `i`, entered at index `j`. -/
def lagrangeProductEvents (S : SSSA) (i xi : Nat) :
    Nat → List Nat → Option Int → List LagrangeEvent
  | _, [], _ => []
  | j, xj :: rest, product =>
    if i ≠ j then
      if xj = 0 then [.assign (some (-1))]
      else lagrangeStepEvents S product xi xj ++
        lagrangeProductEvents S i xi (j + 1) rest (S.lagrangeStep product xi xj)
    else lagrangeProductEvents S i xi (j + 1) rest product

/-- The events of the body of the outer loop of `lagrange` for index `i`. -/
def lagrangeTermEvents (S : SSSA) (x y : List Nat) (i : Nat) : List LagrangeEvent :=
  if y.getD i 0 ≠ 0 then
    let start := (S.char2GF.logsAt (y.getD i 0)).map Int.ofNat
    let product := S.lagrangeProduct i (x.getD i 0) 0 x start
    [.readLogs (y.getD i 0), .assign start] ++
      lagrangeProductEvents S i (x.getD i 0) 0 x start ++
      (if product = some (-1) then [] else [.readExps product])
  else []

/-- The events of `lagrange(x, y)`, in the order of execution. -/
def lagrangeEvents (S : SSSA) (x y : List Nat) : List LagrangeEvent :=
  (List.range x.length).flatMap (lagrangeTermEvents S x y)

/-- An exponent in `[0, fieldSize - 2]`. -/
def IsExponent (S : SSSA) (e : Option Int) : Prop :=
  ∃ v : Int, e = some v ∧ 0 ≤ v ∧ v ≤ (S.fieldSize : Int) - 2

/-- An event stays in range when it does not read `logs[0]`, leaves `product` an integer in
`[0, fieldSize - 2]` (computed from a sum that is not negative before `%`), or reads `exps` at
an index in `[0, fieldSize - 2]`. -/
def LagrangeEvent.InRange (S : SSSA) : LagrangeEvent → Prop
  | .readLogs index => index ≠ 0
  | .assign product => IsExponent S product
  | .update beforeModulo product =>
    (∃ b : Int, beforeModulo = some b ∧ 0 ≤ b) ∧ IsExponent S product
  | .readExps index => IsExponent S index

/-! ## Theorems -/

theorem sssa3_fieldContract : sssa3.FieldContract := by decide

set_option maxRecDepth 100000 in
theorem sssa4_fieldContract : sssa4.FieldContract := by decide

/-! ### Numbers as strings -/

theorem bitsOf_length : ∀ (width v : Nat), (bitsOf width v).length = width
  | 0, _ => rfl
  | width + 1, v => by simp [bitsOf, bitsOf_length width]

theorem bitsOf_zero : ∀ width : Nat, bitsOf width 0 = List.replicate width false
  | 0 => rfl
  | width + 1 => by
    simp only [bitsOf, Nat.zero_div, bitsOf_zero width, Nat.zero_mod]
    rw [List.replicate_succ']
    simp

theorem parseBinary_append_singleton (g : List Bool) (b : Bool) :
    parseBinary (g ++ [b]) = 2 * parseBinary g + b.toNat := by
  simp [parseBinary, List.foldl_append]

theorem parseBinary_lt (g : List Bool) : parseBinary g < 2 ^ g.length := by
  induction g using List.reverseRecOn with
  | nil => simp [parseBinary]
  | append_singleton g b ih =>
    rw [parseBinary_append_singleton, List.length_append, List.length_singleton, pow_succ]
    have : b.toNat ≤ 1 := by cases b <;> simp
    omega

theorem parseBinary_bitsOf : ∀ (width v : Nat), parseBinary (bitsOf width v) = v % 2 ^ width
  | 0, v => by simp [bitsOf, parseBinary, Nat.mod_one]
  | width + 1, v => by
    rw [bitsOf, parseBinary_append_singleton, parseBinary_bitsOf width (v / 2), pow_succ]
    have h2 : (decide (v % 2 = 1)).toNat = v % 2 := by
      rcases Nat.mod_two_eq_zero_or_one v with h | h <;> simp [h]
    rw [h2, Nat.mul_comm (2 ^ width) 2, Nat.mod_mul]
    omega

theorem bitsOf_parseBinary (k : Nat) (g : List Bool) :
    bitsOf (k + g.length) (parseBinary g) = List.replicate k false ++ g := by
  induction g using List.reverseRecOn with
  | nil => simp [parseBinary, bitsOf_zero]
  | append_singleton g b ih =>
    rw [parseBinary_append_singleton, List.length_append, List.length_singleton, ← Nat.add_assoc,
      bitsOf]
    have h1 : (2 * parseBinary g + b.toNat) / 2 = parseBinary g := by
      cases b <;> simp; omega
    have h2 : decide ((2 * parseBinary g + b.toNat) % 2 = 1) = b := by
      cases b <;> simp; omega
    rw [h1, h2, ih, List.append_assoc]

theorem digitsAux_zero (base fuel : Nat) : digitsAux base fuel 0 = [] := by
  cases fuel <;> simp [digitsAux]

theorem padLeft_digitsAux_two : ∀ (width v fuel : Nat), v < 2 ^ width → v ≤ fuel →
    List.replicate (width - (digitsAux 2 fuel v).length) false ++
      (digitsAux 2 fuel v).map (fun d => decide (d = 1)) = bitsOf width v
  | 0, v, fuel, hv, _ => by
    have : v = 0 := by simpa using hv
    subst this
    simp [digitsAux_zero, bitsOf]
  | width + 1, v, fuel, hv, hf => by
    by_cases hv0 : v = 0
    · subst hv0
      simp [digitsAux_zero, bitsOf_zero]
    · obtain ⟨fuel, rfl⟩ : ∃ f, fuel = f + 1 := ⟨fuel - 1, by omega⟩
      have ih := padLeft_digitsAux_two width (v / 2) fuel
        (by rw [pow_succ] at hv; omega) (by omega)
      simp only [digitsAux, hv0, if_false, List.length_append, List.length_singleton,
        List.map_append, List.map_cons, List.map_nil, bitsOf]
      rw [← ih, Nat.add_sub_add_right, List.append_assoc]

/-- A chunk below `2 ^ width` rendered in binary and padded to `width` digits is the string of
its `width` low bits. -/
theorem padLeft_toBinary (width v : Nat) (hw : 1 ≤ width) (hv : v < 2 ^ width) :
    padLeft false (toBinary v) width = bitsOf width v := by
  unfold padLeft toBinary toDigits
  by_cases hv0 : v = 0
  · subst hv0
    obtain ⟨w, rfl⟩ : ∃ w, width = w + 1 := ⟨width - 1, by omega⟩
    simp [bitsOf_zero, List.replicate_succ']
  · simp only [hv0, if_false, List.length_map]
    exact padLeft_digitsAux_two width v v hv (le_refl v)

theorem padLeft_toBinary_parseBinary (width : Nat) (g : List Bool) (hw : 1 ≤ width)
    (hg : g.length ≤ width) :
    padLeft false (toBinary (parseBinary g)) width =
      List.replicate (width - g.length) false ++ g := by
  rw [padLeft_toBinary width _ hw
    (lt_of_lt_of_le (parseBinary_lt g) (Nat.pow_le_pow_right (by norm_num) hg))]
  have := bitsOf_parseBinary (width - g.length) g
  rwa [Nat.sub_add_cancel hg] at this

/-! ### Chunking and framing -/

theorem convertIntArrayToBits_cons (c : Nat) (cs : List Nat) (width : Nat) :
    convertIntArrayToBits (c :: cs) width =
      convertIntArrayToBits cs width ++ padLeft false (toBinary c) width := by
  have key : ∀ (l : List Nat) (acc : List Bool),
      l.foldl (fun acc chunk => padLeft false (toBinary chunk) width ++ acc) acc =
        l.foldl (fun acc chunk => padLeft false (toBinary chunk) width ++ acc) [] ++ acc := by
    intro l
    induction l with
    | nil => intro acc; rfl
    | cons d ds ih =>
      intro acc
      simp only [List.foldl_cons]
      rw [ih (padLeft false (toBinary d) width ++ acc), ih (padLeft false (toBinary d) width ++ [])]
      simp
  unfold convertIntArrayToBits
  rw [List.foldl_cons, key]
  simp

theorem convertIntArrayToBits_length (width : Nat) (hw : 1 ≤ width) :
    ∀ vals : List Nat, (∀ v ∈ vals, v < 2 ^ width) →
      (convertIntArrayToBits vals width).length = width * vals.length
  | [], _ => by simp [convertIntArrayToBits]
  | v :: vs, h => by
    rw [convertIntArrayToBits_cons, List.length_append,
      convertIntArrayToBits_length width hw vs (fun u hu => h u (List.mem_cons_of_mem v hu)),
      padLeft_toBinary width v hw (h v (List.mem_cons_self v vs)), bitsOf_length,
      List.length_cons, Nat.mul_succ]

/-- Joining the groups read from the tail gives the sequence back, behind some zero bits. -/
theorem convertIntArrayToBits_groupsFromTail (width : Nat) (hw : 1 ≤ width) :
    ∀ (fuel : Nat) (s : List Bool), s.length ≤ fuel →
      ∃ k, convertIntArrayToBits (groupsFromTail width fuel s) width =
        List.replicate k false ++ s
  | 0, s, hs => by
    have : s = [] := List.length_eq_zero.mp (Nat.le_zero.mp hs)
    subst this
    exact ⟨0, rfl⟩
  | fuel + 1, s, hs => by
    unfold groupsFromTail
    by_cases hle : s.length ≤ width
    · refine ⟨width - s.length, ?_⟩
      rw [if_pos hle, convertIntArrayToBits_cons]
      simp only [convertIntArrayToBits, List.foldl_nil, List.nil_append]
      exact padLeft_toBinary_parseBinary width s hw hle
    · obtain ⟨k, hk⟩ := convertIntArrayToBits_groupsFromTail width hw fuel
        (s.take (s.length - width)) (by rw [List.length_take]; omega)
      refine ⟨k, ?_⟩
      rw [if_neg hle, convertIntArrayToBits_cons, hk,
        padLeft_toBinary_parseBinary width _ hw (by rw [List.length_drop]; omega),
        List.length_drop]
      have : width - (s.length - (s.length - width)) = 0 := by omega
      rw [this, List.replicate_zero, List.nil_append, List.append_assoc, List.take_append_drop]

/-- Reading the groups from the tail of joined chunks gives the chunks back. -/
theorem groupsFromTail_convertIntArrayToBits (width : Nat) (hw : 1 ≤ width) :
    ∀ (vals : List Nat) (fuel : Nat), vals ≠ [] → (∀ v ∈ vals, v < 2 ^ width) →
      width * vals.length ≤ fuel →
      groupsFromTail width fuel (convertIntArrayToBits vals width) = vals
  | [], _, h, _, _ => absurd rfl h
  | v :: vs, fuel, _, hv, hf => by
    have hvs : ∀ u ∈ vs, u < 2 ^ width := fun u hu => hv u (List.mem_cons_of_mem v hu)
    have hv0 : v < 2 ^ width := hv v (List.mem_cons_self v vs)
    have hlen := convertIntArrayToBits_length width hw vs hvs
    obtain ⟨fuel, rfl⟩ : ∃ f, fuel = f + 1 := ⟨fuel - 1, by
      rw [List.length_cons, Nat.mul_succ] at hf; omega⟩
    rw [convertIntArrayToBits_cons, padLeft_toBinary width v hw hv0]
    unfold groupsFromTail
    rw [List.length_append, bitsOf_length, hlen]
    by_cases hnil : vs = []
    · subst hnil
      simp only [List.length_nil, Nat.mul_zero, Nat.zero_add, le_refl, if_true,
        convertIntArrayToBits, List.foldl_nil, List.nil_append]
      rw [parseBinary_bitsOf, Nat.mod_eq_of_lt hv0]
    · have hpos : 0 < vs.length := List.length_pos.mpr hnil
      have hmul : width ≤ width * vs.length := Nat.le_mul_of_pos_right width hpos
      rw [if_neg (by omega), Nat.add_sub_cancel]
      rw [List.drop_left' hlen, List.take_left' hlen, parseBinary_bitsOf, Nat.mod_eq_of_lt hv0,
        groupsFromTail_convertIntArrayToBits width hw vs fuel hnil hvs (by
          rw [List.length_cons, Nat.mul_succ] at hf; omega)]

theorem groupsFromTail_lt (width : Nat) :
    ∀ (fuel : Nat) (s : List Bool), ∀ v ∈ groupsFromTail width fuel s, v < 2 ^ width
  | 0, _, v, hv => by simp [groupsFromTail] at hv
  | fuel + 1, s, v, hv => by
    unfold groupsFromTail at hv
    by_cases hle : s.length ≤ width
    · rw [if_pos hle, List.mem_singleton] at hv
      subst hv
      exact lt_of_lt_of_le (parseBinary_lt s) (Nat.pow_le_pow_right (by norm_num) hle)
    · rw [if_neg hle, List.mem_cons] at hv
      rcases hv with rfl | hv
      · refine lt_of_lt_of_le (parseBinary_lt _) (Nat.pow_le_pow_right (by norm_num) ?_)
        rw [List.length_drop]; omega
      · exact groupsFromTail_lt width fuel _ v hv

theorem sliceAfterFirstOne_marker (k : Nat) (s : List Bool) :
    sliceAfterFirstOne (List.replicate k false ++ true :: s) = s := by
  have hmem : true ∈ List.replicate k false ++ true :: s := by simp
  have hidx : (List.replicate k false ++ true :: s).indexOf true = k := by
    induction k with
    | zero => simp
    | succ k ih => simp [List.replicate_succ, List.indexOf_cons, ih]
  unfold sliceAfterFirstOne indexOfOne
  rw [if_pos hmem, hidx]
  have : ((k : Int) + 1).toNat = k + 1 := by omega
  rw [this]
  clear hmem hidx this
  induction k with
  | zero => rfl
  | succ k ih => simpa [List.replicate_succ] using ih

theorem hexValue_hexChar (d : Nat) (hd : d < 16) : hexValue (hexChar d) = some d := by
  interval_cases d <;> decide

theorem hex2bin_bin2hex_groups :
    ∀ l : List Nat, (∀ d ∈ l, d < 16) →
      hex2bin ((l.map hexChar).reverse) = convertIntArrayToBits l 4
  | [], _ => rfl
  | d :: ds, h => by
    rw [List.map_cons, List.reverse_cons, convertIntArrayToBits_cons,
      ← hex2bin_bin2hex_groups ds (fun u hu => h u (List.mem_cons_of_mem d hu))]
    unfold hex2bin
    rw [List.foldr_append]
    simp only [List.foldr_cons, List.foldr_nil, hexValue_hexChar d (h d (List.mem_cons_self d ds)),
      Option.getD_some, List.append_nil]
    generalize (List.map hexChar ds).reverse = t
    induction t with
    | nil => simp
    | cons c t ih => simp only [List.foldr_cons, ih, List.append_assoc]

/-- Hex-decoding a hex-encoded bit string gives the bit string back, behind some zero bits. -/
theorem hex2bin_bin2hex (s : List Bool) :
    ∃ k, hex2bin (bin2hex s) = List.replicate k false ++ s := by
  unfold bin2hex
  rw [hex2bin_bin2hex_groups _ (fun d hd => by
    have := groupsFromTail_lt 4 s.length s d hd
    simpa using this)]
  exact convertIntArrayToBits_groupsFromTail 4 (by norm_num) s.length s (le_refl _)

/-- C9: for a secret that the base64 helpers convert to bits and back unchanged (a byte-aligned
base64 secret) and any pad length, `combineSecret (splitSecret secret padLength)` is the
secret. -/
theorem combineSecret_splitSecret (S : SSSA) (U : Base64Helpers) (secret : List Char)
    (padLength : Nat) (hw : 1 ≤ S.coeffLength)
    (hsecret : U.bitsToBase64 (U.base64ToBits secret) = secret) :
    S.combineSecret U (S.splitSecret U secret padLength) = secret := by
  unfold SSSA.combineSecret SSSA.splitSecret splitBitsToIntArray markPadding
  obtain ⟨k, hk⟩ := convertIntArrayToBits_groupsFromTail S.coeffLength hw
    (List.replicate padLength false ++ true :: U.base64ToBits secret).length
    (List.replicate padLength false ++ true :: U.base64ToBits secret) (le_refl _)
  simp only [hk]
  rw [← List.append_assoc, ← List.replicate_add, sliceAfterFirstOne_marker, hsecret]

theorem combineSecret_splitSecret_witness :
    sssa3.combineSecret stdBase64 (sssa3.splitSecret stdBase64 ['Q', 'Q', '=', '='] 5) =
      ['Q', 'Q', '=', '='] :=
  combineSecret_splitSecret sssa3 stdBase64 ['Q', 'Q', '=', '='] 5 (by decide) (by decide)

/-! ### The cross section -/

theorem pushRow_new : ∀ (row : List Nat) (k : Nat) (y : List (List Nat)), y.length = k →
    pushRow k row y = y ++ row.map (fun v => [v])
  | [], _, y, _ => by simp [pushRow]
  | v :: vs, k, y, hk => by
    have hstep : pushAt y k v = y ++ [[v]] := by simp [pushAt, hk]
    rw [pushRow, hstep, pushRow_new vs (k + 1) (y ++ [[v]]) (by simp [hk])]
    simp

theorem pushRow_old : ∀ (row : List Nat) (k : Nat) (y1 y2 : List (List Nat)),
    y1.length = k → y2.length = row.length →
    pushRow k row (y1 ++ y2) = y1 ++ List.zipWith (fun col v => col ++ [v]) y2 row
  | [], _, y1, y2, _, h2 => by
    have : y2 = [] := List.length_eq_zero.mp h2
    simp [this, pushRow]
  | v :: vs, k, y1, y2, h1, h2 => by
    obtain ⟨c, cs, rfl⟩ : ∃ c cs, y2 = c :: cs := by
      cases y2 with
      | nil => simp at h2
      | cons c cs => exact ⟨c, cs, rfl⟩
    have hlt : k < (y1 ++ c :: cs).length := by simp [h1]
    have hget : (y1 ++ c :: cs).getD k [] = c := by
      rw [List.getD_eq_getElem _ _ hlt, List.getElem_append_right (by omega)]
      simp [h1]
    have hset : (y1 ++ c :: cs).set k (c ++ [v]) = (y1 ++ [c ++ [v]]) ++ cs := by
      rw [List.set_append_right _ _ (by omega)]
      simp [h1]
    have hstep : pushAt (y1 ++ c :: cs) k v = (y1 ++ [c ++ [v]]) ++ cs := by
      rw [pushAt, if_pos hlt, hget, hset]
    rw [pushRow, hstep,
      pushRow_old vs (k + 1) (y1 ++ [c ++ [v]]) cs (by simp [h1]) (by simpa using h2)]
    simp

theorem transpose_snoc (m : Nat) (rows : List (List Nat)) (row : List Nat)
    (hrow : row.length = m) :
    List.zipWith (fun col v => col ++ [v]) (transpose m rows) row = transpose m (rows ++ [row]) := by
  apply List.ext_getElem
  · simp [transpose, hrow]
  · intro j h1 h2
    simp only [transpose, List.length_map, List.length_range] at h2
    have hj : j < row.length := hrow ▸ h2
    simp [transpose, List.getElem?_eq_getElem hj]

theorem createCrossSection_foldl (m : Nat) :
    ∀ (rows done : List (List Nat)), (∀ row ∈ rows, row.length = m) →
      rows.foldl (fun y subShares => pushRow 0 subShares y) (transpose m done) =
        transpose m (done ++ rows)
  | [], done, _ => by simp
  | row :: rows, done, h => by
    have hrow : row.length = m := h row (List.mem_cons_self row rows)
    have := pushRow_old row 0 [] (transpose m done) rfl (by simp [transpose, hrow])
    simp only [List.nil_append] at this
    rw [List.foldl_cons, this, transpose_snoc m done row hrow,
      createCrossSection_foldl m rows (done ++ [row])
        (fun r hr => h r (List.mem_cons_of_mem row hr))]
    simp

/-- On a matrix with at least one row, all rows of `m` entries, `createCrossSection` is the
transpose. -/
theorem createCrossSection_eq_transpose (m : Nat) (allPoints : List (List Nat))
    (hne : allPoints ≠ []) (hrect : ∀ row ∈ allPoints, row.length = m) :
    createCrossSection allPoints = transpose m allPoints := by
  obtain ⟨row, rows, rfl⟩ : ∃ row rows, allPoints = row :: rows := by
    cases allPoints with
    | nil => exact absurd rfl hne
    | cons row rows => exact ⟨row, rows, rfl⟩
  have hrow : row.length = m := hrect row (List.mem_cons_self row rows)
  have hbase : row.map (fun v => [v]) = transpose m [row] := by
    apply List.ext_getElem
    · simp [transpose, hrow]
    · intro j h1 h2
      simp only [List.length_map] at h1
      simp [transpose, List.getElem?_eq_getElem h1]
  unfold createCrossSection
  rw [List.foldl_cons, pushRow_new row 0 [] rfl, List.nil_append, hbase,
    createCrossSection_foldl m rows [row] (fun r hr => hrect r (List.mem_cons_of_mem row hr))]
  simp

/-! ### Share data framing -/

theorem digitsAux_length_mono (base : Nat) (hb : 2 ≤ base) :
    ∀ (f n f' m : Nat), n ≤ m → n ≤ f → m ≤ f' →
      (digitsAux base f n).length ≤ (digitsAux base f' m).length
  | 0, n, f', m, _, hn, _ => by
    have : n = 0 := Nat.le_zero.mp hn
    simp [this, digitsAux_zero]
  | f + 1, n, f', m, hnm, hn, hm => by
    by_cases hn0 : n = 0
    · simp [hn0, digitsAux_zero]
    · obtain ⟨f', rfl⟩ : ∃ g, f' = g + 1 := ⟨f' - 1, by omega⟩
      have hm0 : m ≠ 0 := by omega
      have h1 : n / base ≤ n / 2 := Nat.div_le_div_left hb (by norm_num)
      have h2 : m / base ≤ m / 2 := Nat.div_le_div_left hb (by norm_num)
      have ih := digitsAux_length_mono base hb f (n / base) f' (m / base)
        (Nat.div_le_div_right hnm) (by omega) (by omega)
      simp only [digitsAux, hn0, hm0, if_false, List.length_append, List.length_singleton]
      omega

theorem toHex_length_le (n m : Nat) (hnm : n ≤ m) : (toHex n).length ≤ (toHex m).length := by
  unfold toHex toDigits
  simp only [List.length_map]
  by_cases hn : n = 0
  · by_cases hm : m = 0
    · simp [hn, hm]
    · obtain ⟨k, rfl⟩ : ∃ k, m = k + 1 := ⟨m - 1, by omega⟩
      simp [hn, digitsAux]
  · have hm : m ≠ 0 := by omega
    simp only [hn, hm, if_false]
    exact digitsAux_length_mono 16 (by norm_num) n n m m hnm (le_refl n) (le_refl m)

/-- The id of a share string has exactly `idLen` characters for every id up to
`fieldSize - 1`. -/
theorem padLeft_toHex_length (S : SSSA) (id : Nat) (hid : id ≤ S.fieldSize - 1) :
    (padLeft '0' (toHex id) S.idLen).length = S.idLen := by
  have := toHex_length_le id (S.fieldSize - 1) hid
  unfold SSSA.idLen padLeft
  rw [List.length_append, List.length_replicate]
  omega

theorem fieldSize_pos (S : SSSA) : 1 ≤ S.fieldSize := Nat.one_le_two_pow

theorem binarySharesLoop_some (S : SSSA) :
    ∀ (l : List (List Bool)) (i : Nat),
      S.binarySharesLoop i (l.map some) =
        if i + l.length ≤ S.fieldSize - 1 ∨ l = [] then .ok (expectedStrings S i l)
        else .error .shareIdOutOfRange
  | [], i => by simp [SSSA.binarySharesLoop, expectedStrings]
  | bits :: rest, i => by
    have hpos := fieldSize_pos S
    have ih := binarySharesLoop_some S rest (i + 1)
    simp only [List.map_cons, SSSA.binarySharesLoop, SSSA.constructPublicShareString]
    by_cases hi : i + 1 ≤ S.fieldSize - 1
    · have hcond : ¬((i : Int) + 1 < 1 ∨ (i : Int) + 1 > (S.fieldSize : Int) - 1) := by omega
      have htoNat : ((i : Int) + 1).toNat = i + 1 := by omega
      rw [if_neg hcond, htoNat]
      simp only [ih]
      by_cases hrest : i + 1 + rest.length ≤ S.fieldSize - 1 ∨ rest = []
      · have hall : i + (bits :: rest).length ≤ S.fieldSize - 1 ∨ bits :: rest = [] := by
          rcases hrest with h | h
          · left; simp only [List.length_cons]; omega
          · left; simp [h]; omega
        rw [if_pos hrest, if_pos hall]
        simp [expectedStrings, List.enumFrom_cons]
      · have hall : ¬(i + (bits :: rest).length ≤ S.fieldSize - 1 ∨ bits :: rest = []) := by
          simp only [List.length_cons, not_or] at hrest ⊢
          exact ⟨by omega, by simp⟩
        rw [if_neg hrest, if_neg hall]
    · have hcond : (i : Int) + 1 < 1 ∨ (i : Int) + 1 > (S.fieldSize : Int) - 1 := by omega
      have hall : ¬(i + (bits :: rest).length ≤ S.fieldSize - 1 ∨ bits :: rest = []) := by
        simp only [List.length_cons, not_or]
        exact ⟨by omega, by simp⟩
      rw [if_pos hcond, if_neg hall]

theorem sharesToBin_row_some (width : Nat) :
    ∀ (vs : List Nat) (acc : List Bool),
      vs.foldl (fun (output : Option (List Bool)) v =>
          some (padLeft false (toBinary v) width ++ output.getD [])) (some acc) =
        some (vs.foldl (fun acc chunk => padLeft false (toBinary chunk) width ++ acc) acc)
  | [], _ => rfl
  | v :: vs, acc => by
    simp only [List.foldl_cons, Option.getD_some]
    exact sharesToBin_row_some width vs _

theorem sharesToBin_row (width : Nat) (row : List Nat) (hrow : row ≠ []) :
    row.foldl (fun (output : Option (List Bool)) v =>
        some (padLeft false (toBinary v) width ++ output.getD [])) none =
      some (convertIntArrayToBits row width) := by
  cases row with
  | nil => exact absurd rfl hrow
  | cons v vs =>
    simp only [List.foldl_cons, Option.getD_none, convertIntArrayToBits]
    exact sharesToBin_row_some width vs _

theorem trimHoles_map_some {α : Type} (l : List α) : trimHoles (l.map some) = l.map some := by
  have key : ∀ t : List α, (t.map some).dropWhile (fun e => e.isNone) = t.map some := by
    intro t
    cases t with
    | nil => rfl
    | cons a t => simp [List.dropWhile_cons]
  unfold trimHoles
  rw [← List.map_reverse, key, List.map_reverse, List.reverse_reverse]

/-- The shares in binary of a matrix with at least one row and at least one column. -/
theorem sharesToBin_transpose (S : SSSA) (m : Nat) (allPoints : List (List Nat))
    (hne : allPoints ≠ []) (hm : 1 ≤ m) :
    S.sharesToBin (transpose m allPoints) =
      .ok (((transpose m allPoints).map
        (fun col => convertIntArrayToBits col S.coeffLength)).map some) := by
  have hcols : ∀ col ∈ transpose m allPoints, col ≠ [] := by
    intro col hcol
    simp only [transpose, List.mem_map, List.mem_range] at hcol
    obtain ⟨j, _, rfl⟩ := hcol
    simpa using hne
  have hnonempty : (transpose m allPoints).isEmpty = false := by
    obtain ⟨k, rfl⟩ : ∃ k, m = k + 1 := ⟨m - 1, by omega⟩
    simp [transpose, List.range_succ_eq_map]
  unfold SSSA.sharesToBin
  rw [hnonempty]
  simp only [Bool.false_eq_true, if_false]
  congr 1
  rw [← trimHoles_map_some, List.map_map]
  congr 1
  apply List.map_congr_left
  intro col hcol
  exact sharesToBin_row S.coeffLength col (hcols col hcol)

theorem publicSharesOfPoints_eq (S : SSSA) (m : Nat) (allPoints : List (List Nat))
    (hne : allPoints ≠ []) (hrect : ∀ row ∈ allPoints, row.length = m) (hm : 1 ≤ m) :
    S.publicSharesOfPoints allPoints =
      if m ≤ S.fieldSize - 1 then
        .ok (expectedStrings S 0 ((transpose m allPoints).map
          (fun col => convertIntArrayToBits col S.coeffLength)))
      else .error .shareIdOutOfRange := by
  unfold SSSA.publicSharesOfPoints
  simp only [createCrossSection_eq_transpose m allPoints hne hrect,
    sharesToBin_transpose S m allPoints hne hm, SSSA.binarySharesToPublicShareString,
    binarySharesLoop_some]
  have hlen : ((transpose m allPoints).map
      (fun col => convertIntArrayToBits col S.coeffLength)).length = m := by
    simp [transpose]
  have hnil : (transpose m allPoints).map
      (fun col => convertIntArrayToBits col S.coeffLength) ≠ [] := by
    intro h
    rw [h] at hlen
    simp at hlen
    omega
  simp only [hlen, Nat.zero_add, hnil, or_false]

/-- Reading back the data part of the string built for one participant. -/
theorem decode_expectedString (S : SSSA) (hw : 1 ≤ S.coeffLength) (id : Nat)
    (hid : id ≤ S.fieldSize - 1) (col : List Nat) (hcol : col ≠ [])
    (hrange : ∀ v ∈ col, v < S.fieldSize) :
    splitBitsToIntArray
        (removePadding (hex2bin ((padLeft '0' (toHex id) S.idLen ++
          bin2hex (markPadding (convertIntArrayToBits col S.coeffLength))).drop S.idLen)))
        S.coeffLength 0 = col := by
  rw [List.drop_left' (padLeft_toHex_length S id hid)]
  obtain ⟨k, hk⟩ := hex2bin_bin2hex (markPadding (convertIntArrayToBits col S.coeffLength))
  rw [hk]
  unfold removePadding markPadding splitBitsToIntArray
  rw [sliceAfterFirstOne_marker]
  simp only [List.replicate_zero, List.nil_append]
  exact groupsFromTail_convertIntArrayToBits S.coeffLength hw col _ hcol hrange
    (le_of_eq (convertIntArrayToBits_length S.coeffLength hw col hrange).symm)

/-- C10: for a matrix `allPoints` with at least one row (chunk), all rows of `m` entries below
`fieldSize`, whenever the public share strings are built, there are `m` of them and the data
part of the string of participant `p` (what follows the `idLen` characters of the id),
hex-decoded, stripped of the marker padding and split into `coeffLength`-bit integers, is
column `p` of `allPoints` in chunk order; and the strings are built whenever the participant
ids `1 .. m` are valid ids (`1 ≤ m ≤ fieldSize - 1`). -/
theorem share_data_framing (S : SSSA) (allPoints : List (List Nat)) (m : Nat)
    (hw : 1 ≤ S.coeffLength) (hne : allPoints ≠ [])
    (hrect : ∀ row ∈ allPoints, row.length = m)
    (hrange : ∀ row ∈ allPoints, ∀ v ∈ row, v < S.fieldSize) :
    (∀ strs, S.publicSharesOfPoints allPoints = .ok strs →
      strs.length = m ∧
      ∀ p, p < m →
        splitBitsToIntArray (removePadding (hex2bin ((strs.getD p []).drop S.idLen)))
          S.coeffLength 0 = allPoints.map (fun row => row.getD p 0)) ∧
    (1 ≤ m → m ≤ S.fieldSize - 1 → ∃ strs, S.publicSharesOfPoints allPoints = .ok strs) := by
  constructor
  · intro strs hstrs
    by_cases hm : 1 ≤ m
    · rw [publicSharesOfPoints_eq S m allPoints hne hrect hm] at hstrs
      by_cases hmax : m ≤ S.fieldSize - 1
      · rw [if_pos hmax] at hstrs
        injection hstrs with hstrs
        subst hstrs
        refine ⟨by simp [expectedStrings, transpose], fun p hp => ?_⟩
        have hp' : p < (expectedStrings S 0 ((transpose m allPoints).map
            (fun col => convertIntArrayToBits col S.coeffLength))).length := by
          simp [expectedStrings, transpose, hp]
        rw [List.getD_eq_getElem _ _ hp']
        simp only [expectedStrings, transpose, List.getElem_map, List.getElem_enumFrom,
          List.getElem_range, Nat.zero_add]
        refine decode_expectedString S hw (p + 1) (by omega) _ (by simpa using hne) ?_
        intro v hv
        simp only [List.mem_map] at hv
        obtain ⟨row, hrow, rfl⟩ := hv
        have hlen : p < row.length := by rw [hrect row hrow]; exact hp
        rw [List.getD_eq_getElem _ _ hlen]
        exact hrange row hrow _ (List.getElem_mem _)
      · rw [if_neg hmax] at hstrs
        exact absurd hstrs (by simp)
    · have hm0 : m = 0 := by omega
      subst hm0
      rw [SSSA.publicSharesOfPoints, createCrossSection_eq_transpose 0 allPoints hne hrect]
        at hstrs
      simp [transpose, SSSA.sharesToBin] at hstrs
  · intro hm hmax
    rw [publicSharesOfPoints_eq S m allPoints hne hrect hm, if_pos hmax]
    exact ⟨_, rfl⟩

theorem share_data_framing_witness :
    (∀ strs, sssa3.publicSharesOfPoints [[1, 2, 3], [4, 5, 6]] = .ok strs →
      strs.length = 3 ∧
      ∀ p, p < 3 →
        splitBitsToIntArray (removePadding (hex2bin ((strs.getD p []).drop sssa3.idLen)))
          sssa3.coeffLength 0 = [[1, 2, 3], [4, 5, 6]].map (fun row => row.getD p 0)) ∧
    (1 ≤ 3 → 3 ≤ sssa3.fieldSize - 1 →
      ∃ strs, sssa3.publicSharesOfPoints [[1, 2, 3], [4, 5, 6]] = .ok strs) :=
  share_data_framing sssa3 [[1, 2, 3], [4, 5, 6]] 3 (by decide) (by decide) (by decide)
    (by decide)

/-! ### The field engine -/

theorem multiply_eq (S : SSSA) (a c : Nat) :
    S.char2GF.multiply a c =
      if a = 0 ∨ c = 0 then 0 else S.exps ((S.logs a + S.logs c) % (S.fieldSize - 1)) := rfl

theorem fieldSize_ge_two (S : SSSA) (h : S.FieldContract) : 2 ≤ S.fieldSize := by
  obtain ⟨hb, _⟩ := h
  unfold SSSA.fieldSize
  calc 2 = 2 ^ 1 := rfl
    _ ≤ 2 ^ S.coeffLength := Nat.pow_le_pow_right (by norm_num) hb

theorem multiply_zero_left (S : SSSA) (c : Nat) : S.char2GF.multiply 0 c = 0 := by
  simp [multiply_eq]

theorem multiply_zero_right (S : SSSA) (a : Nat) : S.char2GF.multiply a 0 = 0 := by
  simp [multiply_eq]

theorem multiply_comm (S : SSSA) (a c : Nat) :
    S.char2GF.multiply a c = S.char2GF.multiply c a := by
  simp only [multiply_eq, or_comm, Nat.add_comm]

theorem multiply_exps (S : SSSA) (h : S.FieldContract) (e1 e2 : Nat)
    (h1 : e1 < S.fieldSize - 1) (h2 : e2 < S.fieldSize - 1) :
    S.char2GF.multiply (S.exps e1) (S.exps e2) = S.exps ((e1 + e2) % (S.fieldSize - 1)) := by
  obtain ⟨_, _, _, hexps, _, hle, _, _⟩ := h
  have p1 := (hexps e1 h1).1
  have p2 := (hexps e2 h2).1
  rw [multiply_eq, if_neg (by omega), hle e1 h1, hle e2 h2]

theorem multiply_pos (S : SSSA) (h : S.FieldContract) (a c : Nat) (ha0 : 0 < a) (hc0 : 0 < c) :
    0 < S.char2GF.multiply a c ∧ S.char2GF.multiply a c < S.fieldSize := by
  have hn := fieldSize_ge_two S h
  obtain ⟨_, _, _, hexps, _, _, _, _⟩ := h
  rw [multiply_eq, if_neg (by omega)]
  exact hexps _ (Nat.mod_lt _ (by omega))

theorem multiply_lt (S : SSSA) (h : S.FieldContract) (a c : Nat) (_ha : a < S.fieldSize)
    (_hc : c < S.fieldSize) : S.char2GF.multiply a c < S.fieldSize := by
  have hn := fieldSize_ge_two S h
  by_cases h0 : a = 0 ∨ c = 0
  · rw [multiply_eq, if_pos h0]; omega
  · exact (multiply_pos S h a c (by omega) (by omega)).2

theorem multiply_eq_zero (S : SSSA) (h : S.FieldContract) (a c : Nat) (_ha : a < S.fieldSize)
    (_hc : c < S.fieldSize) : S.char2GF.multiply a c = 0 ↔ a = 0 ∨ c = 0 := by
  constructor
  · intro hz
    by_contra hne
    have := (multiply_pos S h a c (by omega) (by omega)).1
    omega
  · intro h0
    rw [multiply_eq, if_pos h0]

theorem multiply_assoc (S : SSSA) (h : S.FieldContract) (a b c : Nat) (ha : a < S.fieldSize)
    (hb : b < S.fieldSize) (hc : c < S.fieldSize) :
    S.char2GF.multiply (S.char2GF.multiply a b) c =
      S.char2GF.multiply a (S.char2GF.multiply b c) := by
  have hn := fieldSize_ge_two S h
  by_cases ha0 : a = 0
  · simp [ha0, multiply_zero_left]
  by_cases hb0 : b = 0
  · simp [hb0, multiply_zero_left, multiply_zero_right]
  by_cases hc0 : c = 0
  · simp [hc0, multiply_zero_right]
  have hh := h
  obtain ⟨_, _, hlogs, hexps, hel, hle, _, _⟩ := hh
  have la := hlogs a ha (by omega)
  have lb := hlogs b hb (by omega)
  have lc := hlogs c hc (by omega)
  have ea := hel a ha (by omega)
  have eb := hel b hb (by omega)
  have ec := hel c hc (by omega)
  have hm : 0 < S.fieldSize - 1 := by omega
  have hab : S.char2GF.multiply a b = S.exps ((S.logs a + S.logs b) % (S.fieldSize - 1)) := by
    rw [multiply_eq, if_neg (by omega)]
  have hbc : S.char2GF.multiply b c = S.exps ((S.logs b + S.logs c) % (S.fieldSize - 1)) := by
    rw [multiply_eq, if_neg (by omega)]
  rw [hab, hbc]
  calc S.char2GF.multiply (S.exps ((S.logs a + S.logs b) % (S.fieldSize - 1))) c
      = S.char2GF.multiply (S.exps ((S.logs a + S.logs b) % (S.fieldSize - 1)))
          (S.exps (S.logs c)) := by rw [ec]
    _ = S.exps (((S.logs a + S.logs b) % (S.fieldSize - 1) + S.logs c) % (S.fieldSize - 1)) :=
        multiply_exps S h _ _ (Nat.mod_lt _ hm) lc
    _ = S.exps ((S.logs a + (S.logs b + S.logs c) % (S.fieldSize - 1)) % (S.fieldSize - 1)) := by
        rw [Nat.mod_add_mod, Nat.add_mod_mod, Nat.add_assoc]
    _ = S.char2GF.multiply (S.exps (S.logs a))
          (S.exps ((S.logs b + S.logs c) % (S.fieldSize - 1))) :=
        (multiply_exps S h _ _ la (Nat.mod_lt _ hm)).symm
    _ = S.char2GF.multiply a (S.exps ((S.logs b + S.logs c) % (S.fieldSize - 1))) := by rw [ea]

theorem logs_one (S : SSSA) (h : S.FieldContract) : S.logs 1 = 0 := by
  have hn := fieldSize_ge_two S h
  have hh := h
  obtain ⟨_, _, hlogs, hexps, hel, hle, hone, _⟩ := hh
  have l1 := hlogs 1 (by omega) (by omega)
  have e1 := hel 1 (by omega) (by omega)
  have hmul := hone 1 (by omega)
  rw [multiply_eq, if_neg (by omega)] at hmul
  have hlog := congrArg S.logs hmul
  rw [hle _ (Nat.mod_lt _ (by omega))] at hlog
  by_cases hlt : S.logs 1 + S.logs 1 < S.fieldSize - 1
  · rw [Nat.mod_eq_of_lt hlt] at hlog; omega
  · rw [Nat.mod_eq_sub_mod (by omega), Nat.mod_eq_of_lt (by omega)] at hlog; omega

theorem exps_zero (S : SSSA) (h : S.FieldContract) : S.exps 0 = 1 := by
  have hn := fieldSize_ge_two S h
  have hh := h
  obtain ⟨_, _, _, _, hel, _, _, _⟩ := hh
  have := hel 1 (by omega) (by omega)
  rwa [logs_one S h] at this

theorem inverse_lt (S : SSSA) (h : S.FieldContract) (a : Nat) : inverse S a < S.fieldSize := by
  have hn := fieldSize_ge_two S h
  obtain ⟨_, _, _, hexps, _, _, _, _⟩ := h
  unfold inverse
  split_ifs
  · omega
  · exact (hexps _ (Nat.mod_lt _ (by omega))).2

theorem multiply_inverse (S : SSSA) (h : S.FieldContract) (a : Nat) (ha : a < S.fieldSize)
    (ha0 : a ≠ 0) : S.char2GF.multiply a (inverse S a) = 1 := by
  have hn := fieldSize_ge_two S h
  have hh := h
  obtain ⟨_, _, hlogs, hexps, hel, hle, _, _⟩ := hh
  have la := hlogs a ha (by omega)
  have hm : 0 < S.fieldSize - 1 := by omega
  unfold inverse
  rw [if_neg ha0]
  nth_rewrite 1 [← hel a ha (by omega)]
  rw [multiply_exps S h _ _ la (Nat.mod_lt _ hm), Nat.add_mod_mod]
  have : S.logs a + (S.fieldSize - 1 - S.logs a) = S.fieldSize - 1 := by omega
  rw [this, Nat.mod_self, exps_zero S h]

theorem exists_fieldModel (S : SSSA) (h : S.FieldContract) :
    ∃ (F : Type) (inst : Field F) (φ : Nat → F), @FieldModel S F inst φ := by
  have hn := fieldSize_ge_two S h
  have hxor : ∀ a b : Nat, a < S.fieldSize → b < S.fieldSize → a ^^^ b < S.fieldSize :=
    fun a b ha hb => Nat.xor_lt_two_pow ha hb
  have hone : ∀ a, a < S.fieldSize → S.char2GF.multiply a 1 = a := h.2.2.2.2.2.2.1
  have hdist := h.2.2.2.2.2.2.2
  let F : Type := {x : Nat // x < S.fieldSize}
  letI iAdd : Add F := ⟨fun a b => ⟨a.1 ^^^ b.1, hxor a.1 b.1 a.2 b.2⟩⟩
  letI iMul : Mul F := ⟨fun a b => ⟨S.char2GF.multiply a.1 b.1, multiply_lt S h a.1 b.1 a.2 b.2⟩⟩
  letI iNeg : Neg F := ⟨fun a => a⟩
  letI iInv : Inv F := ⟨fun a => ⟨inverse S a.1, inverse_lt S h a.1⟩⟩
  letI iZero : Zero F := ⟨⟨0, by omega⟩⟩
  letI iOne : One F := ⟨⟨1, by omega⟩⟩
  let inst : Field F := Field.ofMinimalAxioms F
    (fun a b c => Subtype.ext (Nat.xor_assoc a.1 b.1 c.1))
    (fun a => Subtype.ext (Nat.zero_xor a.1))
    (fun a => Subtype.ext (Nat.xor_self a.1))
    (fun a b c => Subtype.ext (multiply_assoc S h a.1 b.1 c.1 a.2 b.2 c.2))
    (fun a b => Subtype.ext (multiply_comm S a.1 b.1))
    (fun a => Subtype.ext ((multiply_comm S 1 a.1).trans (hone a.1 a.2)))
    (fun a ha => Subtype.ext (multiply_inverse S h a.1 a.2 (fun h0 => ha (Subtype.ext h0))))
    (Subtype.ext (show inverse S 0 = 0 from if_pos rfl))
    (fun a b c => Subtype.ext (hdist a.1 a.2 b.1 b.2 c.1 c.2))
    ⟨⟨0, by omega⟩, ⟨1, by omega⟩, fun hne => absurd (congrArg Subtype.val hne) (by simp)⟩
  refine ⟨F, inst, fun x => if hx : x < S.fieldSize then ⟨x, hx⟩ else ⟨0, by omega⟩, ?_⟩
  refine ⟨?_, ?_, ?_, ?_, ?_⟩
  · simp only [show 0 < S.fieldSize by omega, dite_true]; rfl
  · simp only [show 1 < S.fieldSize by omega, dite_true]; rfl
  · intro a b ha hb
    simp only [ha, hb, hxor a b ha hb, dite_true]; rfl
  · intro a b ha hb
    simp only [ha, hb, multiply_lt S h a b ha hb, dite_true]; rfl
  · intro a b ha hb hab
    simp only [ha, hb, dite_true] at hab
    exact congrArg Subtype.val hab

theorem FieldModel.add_self {S : SSSA} {F : Type} [Field F] {φ : Nat → F}
    (hφ : FieldModel S φ) (h : S.FieldContract) (a : F) : a + a = 0 := by
  have hn := fieldSize_ge_two S h
  have h2 : (1 : F) + 1 = 0 := by
    have := hφ.map_xor 1 1 (by omega) (by omega)
    rw [Nat.xor_self, hφ.map_zero, hφ.map_one] at this
    exact this.symm
  calc a + a = a * (1 + 1) := by ring
    _ = 0 := by rw [h2, mul_zero]

theorem FieldModel.neg_eq {S : SSSA} {F : Type} [Field F] {φ : Nat → F}
    (hφ : FieldModel S φ) (h : S.FieldContract) (a : F) : -a = a :=
  neg_eq_of_add_eq_zero_left (hφ.add_self h a)

theorem FieldModel.sub_eq {S : SSSA} {F : Type} [Field F] {φ : Nat → F}
    (hφ : FieldModel S φ) (h : S.FieldContract) (a b : F) : a - b = a + b := by
  rw [sub_eq_add_neg, hφ.neg_eq h]

theorem FieldModel.map_ne_zero {S : SSSA} {F : Type} [Field F] {φ : Nat → F}
    (hφ : FieldModel S φ) (h : S.FieldContract) (a : Nat) (ha : a < S.fieldSize) (ha0 : a ≠ 0) :
    φ a ≠ 0 := by
  have hn := fieldSize_ge_two S h
  intro hz
  exact ha0 (hφ.injOn a 0 ha (by omega) (hz.trans hφ.map_zero.symm))

/-- One update of the exponent in `lagrange` multiplies the power it stands for by
`x[j] / (x[i] ^ x[j])`. -/
theorem lagrangeStep_spec (S : SSSA) (h : S.FieldContract) (p xi xj : Nat)
    (hp : p < S.fieldSize - 1) (hxi : xi < S.fieldSize) (hxj : xj < S.fieldSize)
    (hxj0 : xj ≠ 0) (hne : xi ≠ xj) :
    ∃ q, q < S.fieldSize - 1 ∧ S.lagrangeStep (some (p : Int)) xi xj = some (q : Int) ∧
      S.char2GF.multiply (S.exps q) (xi ^^^ xj) = S.char2GF.multiply (S.exps p) xj := by
  have hn := fieldSize_ge_two S h
  have hh := h
  obtain ⟨_, _, hlogs, hexps, hel, hle, _, _⟩ := hh
  have hx : xi ^^^ xj < S.fieldSize := Nat.xor_lt_two_pow hxi hxj
  have hx0 : xi ^^^ xj ≠ 0 := Nat.xor_ne_zero.mpr hne
  have la := hlogs xj hxj (by omega)
  have lb := hlogs (xi ^^^ xj) hx (by omega)
  have hm : 0 < S.fieldSize - 1 := by omega
  refine ⟨(p + S.logs xj + (S.fieldSize - 1 - S.logs (xi ^^^ xj))) % (S.fieldSize - 1),
    Nat.mod_lt _ hm, ?_, ?_⟩
  · have h1 : S.char2GF.logsAt (0 ^^^ xj) = some (S.logs xj) := by
      simp only [CharacteristicTwoGaloisField.logsAt, Nat.zero_xor, SSSA.char2GF]
      rw [if_pos ⟨by omega, hxj⟩]
    have h2 : S.char2GF.logsAt (xi ^^^ xj) = some (S.logs (xi ^^^ xj)) := by
      simp only [CharacteristicTwoGaloisField.logsAt, SSSA.char2GF]
      rw [if_pos ⟨by omega, hx⟩]
    have h3 : ¬((S.fieldSize : Int) - 1 = 0) := by omega
    simp only [SSSA.lagrangeStep, h1, h2, if_neg h3]
    congr 1
    have e1 : ((p : Int) + (S.logs xj : Int) - (S.logs (xi ^^^ xj) : Int) + (S.fieldSize : Int) - 1) =
        ((p + S.logs xj + (S.fieldSize - 1 - S.logs (xi ^^^ xj)) : Nat) : Int) := by omega
    have e2 : ((S.fieldSize : Int) - 1) = ((S.fieldSize - 1 : Nat) : Int) := by omega
    rw [e1, e2, Int.tmod_eq_emod (Int.ofNat_nonneg _) (Int.ofNat_nonneg _)]
    norm_cast
  · have eb := hel (xi ^^^ xj) hx (by omega)
    have ea := hel xj hxj (by omega)
    calc S.char2GF.multiply (S.exps _) (xi ^^^ xj)
        = S.char2GF.multiply (S.exps ((p + S.logs xj + (S.fieldSize - 1 - S.logs (xi ^^^ xj))) %
            (S.fieldSize - 1))) (S.exps (S.logs (xi ^^^ xj))) := by rw [eb]
      _ = S.exps (((p + S.logs xj + (S.fieldSize - 1 - S.logs (xi ^^^ xj))) %
            (S.fieldSize - 1) + S.logs (xi ^^^ xj)) % (S.fieldSize - 1)) :=
          multiply_exps S h _ _ (Nat.mod_lt _ hm) lb
      _ = S.exps ((p + S.logs xj) % (S.fieldSize - 1)) := by
          rw [Nat.mod_add_mod]
          have : p + S.logs xj + (S.fieldSize - 1 - S.logs (xi ^^^ xj)) + S.logs (xi ^^^ xj) =
              p + S.logs xj + (S.fieldSize - 1) := by omega
          rw [this, Nat.add_mod_right]
      _ = S.char2GF.multiply (S.exps p) (S.exps (S.logs xj)) :=
          (multiply_exps S h _ _ hp la).symm
      _ = S.char2GF.multiply (S.exps p) xj := by rw [ea]


theorem lagrangeProduct_spec (S : SSSA) (h : S.FieldContract) {F : Type} [Field F]
    {φ : Nat → F} (hφ : FieldModel S φ) (x : List Nat) (i : Nat) (hi : i < x.length)
    (hx : ∀ e ∈ x, e < S.fieldSize ∧ e ≠ 0) (hnd : x.Nodup) :
    ∀ (rest : List Nat) (j p : Nat), x.drop j = rest → p < S.fieldSize - 1 →
      ∃ q, q < S.fieldSize - 1 ∧
        S.lagrangeProduct i (x.getD i 0) j rest (some (p : Int)) = some (q : Int) ∧
        φ (S.exps q) = φ (S.exps p) * ∏ k ∈ Finset.Ico j x.length, lagrangeFactor φ x i k
  | [], j, p, hdrop, hp => by
    have hj : x.length ≤ j := List.drop_eq_nil_iff.mp hdrop
    refine ⟨p, hp, rfl, ?_⟩
    rw [Finset.Ico_eq_empty (by omega), Finset.prod_empty, mul_one]
  | xj :: rest, j, p, hdrop, hp => by
    have hj : j < x.length := by
      by_contra hge
      rw [List.drop_eq_nil_iff.mpr (by omega)] at hdrop
      exact List.noConfusion hdrop
    rw [List.drop_eq_getElem_cons hj] at hdrop
    injection hdrop with hxj hrest
    have hexps := h.2.2.2.1
    rw [Finset.prod_eq_prod_Ico_succ_bot hj]
    by_cases hij : i = j
    · obtain ⟨q, hq, hrun, hval⟩ := lagrangeProduct_spec S h hφ x i hi hx hnd rest (j + 1) p
        hrest hp
      refine ⟨q, hq, ?_, ?_⟩
      · rw [SSSA.lagrangeProduct, if_neg (by simpa using hij)]
        exact hrun
      · rw [hval, lagrangeFactor, if_pos hij.symm, one_mul]
    · have hxi : x.getD i 0 = x[i] := List.getD_eq_getElem _ _ hi
      have hmem : xj ∈ x := hxj ▸ List.getElem_mem hj
      have hmemi : x[i] ∈ x := List.getElem_mem hi
      have hne : x[i] ≠ xj := by
        rw [← hxj]
        intro heq
        exact hij ((hnd.getElem_inj_iff).mp heq)
      obtain ⟨q1, hq1, hstep, hmul⟩ := lagrangeStep_spec S h p x[i] xj hp (hx _ hmemi).1
        (hx _ hmem).1 (hx _ hmem).2 hne
      obtain ⟨q, hq, hrun, hval⟩ := lagrangeProduct_spec S h hφ x i hi hx hnd rest (j + 1) q1
        hrest hq1
      have hxor : x[i] ^^^ xj < S.fieldSize := Nat.xor_lt_two_pow (hx _ hmemi).1 (hx _ hmem).1
      have hsum : φ x[i] + φ xj ≠ 0 := by
        rw [← hφ.map_xor _ _ (hx _ hmemi).1 (hx _ hmem).1]
        exact hφ.map_ne_zero h _ hxor (Nat.xor_ne_zero.mpr hne)
      have hφmul := congrArg φ hmul
      rw [hφ.map_mul _ _ (hexps q1 hq1).2 hxor, hφ.map_mul _ _ (hexps p hp).2 (hx _ hmem).1,
        hφ.map_xor _ _ (hx _ hmemi).1 (hx _ hmem).1] at hφmul
      refine ⟨q, hq, ?_, ?_⟩
      · rw [SSSA.lagrangeProduct, if_pos hij, if_neg (hx _ hmem).2, hxi, hstep]
        rw [hxi] at hrun
        exact hrun
      · rw [hval, lagrangeFactor, if_neg (Ne.symm hij), List.getD_eq_getElem _ _ hj, hxj, hxi,
          ← mul_assoc]
        congr 1
        rw [mul_div_assoc', ← hφmul, mul_div_assoc, div_self hsum, mul_one]

theorem lagrangeTerm_spec (S : SSSA) (h : S.FieldContract) {F : Type} [Field F]
    {φ : Nat → F} (hφ : FieldModel S φ) (x y : List Nat)
    (hx : ∀ e ∈ x, e < S.fieldSize ∧ e ≠ 0) (hnd : x.Nodup) (hy : ∀ e ∈ y, e < S.fieldSize)
    (sum i : Nat) (hsum : sum < S.fieldSize) (hi : i < x.length) :
    S.lagrangeTerm x y sum i < S.fieldSize ∧
      φ (S.lagrangeTerm x y sum i) = φ sum + lagrangeSummand φ x y i := by
  have hn := fieldSize_ge_two S h
  unfold SSSA.lagrangeTerm lagrangeSummand
  by_cases hy0 : y.getD i 0 = 0
  · rw [if_neg (by simpa using hy0), hy0, hφ.map_zero, zero_mul, add_zero]
    exact ⟨hsum, rfl⟩
  · have hyi : y.getD i 0 < S.fieldSize := by
      by_cases hlt : i < y.length
      · rw [List.getD_eq_getElem _ _ hlt]; exact hy _ (List.getElem_mem hlt)
      · rw [List.getD_eq_default _ _ (by omega)]; omega
    have hh := h
    obtain ⟨_, _, hlogs, hexps, hel, _, _, _⟩ := hh
    have hl := hlogs _ hyi (by omega)
    have hlog : (S.char2GF.logsAt (y.getD i 0)).map Int.ofNat =
        some ((S.logs (y.getD i 0) : Nat) : Int) := by
      simp only [CharacteristicTwoGaloisField.logsAt, SSSA.char2GF]
      rw [if_pos ⟨by omega, hyi⟩]
      rfl
    obtain ⟨q, hq, hrun, hval⟩ := lagrangeProduct_spec S h hφ x i hi hx hnd x 0 _ rfl hl
    rw [if_pos hy0]
    simp only [hlog, hrun]
    have hneg : ¬((some (q : Int) : Option Int) = some (-1)) := by
      intro heq
      injection heq with heq
      omega
    have hread : S.char2GF.expsAt (some (q : Int)) = some (S.exps q) := by
      simp only [CharacteristicTwoGaloisField.expsAt, SSSA.char2GF]
      rw [if_pos ⟨by omega, by omega⟩]
      simp
    rw [if_neg hneg, hread, Option.getD_some]
    refine ⟨Nat.xor_lt_two_pow hsum (hexps q hq).2, ?_⟩
    rw [hφ.map_xor _ _ hsum (hexps q hq).2, hval, hel _ hyi (by omega), Finset.range_eq_Ico]

/-- The value of `lagrange` in the field, for pairwise distinct nonzero `x`. -/
theorem lagrange_spec (S : SSSA) (h : S.FieldContract) {F : Type} [Field F]
    {φ : Nat → F} (hφ : FieldModel S φ) (x y : List Nat)
    (hx : ∀ e ∈ x, e < S.fieldSize ∧ e ≠ 0) (hnd : x.Nodup) (hy : ∀ e ∈ y, e < S.fieldSize) :
    S.lagrange x y < S.fieldSize ∧
      φ (S.lagrange x y) = ∑ i ∈ Finset.range x.length, lagrangeSummand φ x y i := by
  have hn := fieldSize_ge_two S h
  have key : ∀ k, k ≤ x.length →
      (List.range k).foldl (S.lagrangeTerm x y) 0 < S.fieldSize ∧
        φ ((List.range k).foldl (S.lagrangeTerm x y) 0) =
          ∑ i ∈ Finset.range k, lagrangeSummand φ x y i := by
    intro k
    induction k with
    | zero =>
      intro _
      simp only [List.range_zero, List.foldl_nil, Finset.range_zero, Finset.sum_empty]
      exact ⟨by omega, hφ.map_zero⟩
    | succ k ih =>
      intro hk
      obtain ⟨h1, h2⟩ := ih (by omega)
      obtain ⟨h3, h4⟩ := lagrangeTerm_spec S h hφ x y hx hnd hy _ k h1 (by omega)
      rw [List.range_succ, List.foldl_append, List.foldl_cons, List.foldl_nil,
        Finset.sum_range_succ]
      exact ⟨h3, by rw [h4, h2]⟩
  exact key x.length (le_refl _)


open Polynomial in
/-- The values of `horner` are the values of a polynomial whose coefficients are the entries of
`coeffs`. -/
theorem horner_spec (S : SSSA) (h : S.FieldContract) {F : Type} [Field F]
    {φ : Nat → F} (hφ : FieldModel S φ) :
    ∀ (coeffs : List Nat), (∀ c ∈ coeffs, c < S.fieldSize) →
      ∃ p : Polynomial F, (∀ i, p.coeff i = φ (coeffs.getD i 0)) ∧
        ∀ x, x < S.fieldSize →
          S.horner x coeffs < S.fieldSize ∧ φ (S.horner x coeffs) = p.eval (φ x)
  | [], _ => by
    have hn := fieldSize_ge_two S h
    refine ⟨0, fun i => by simp [hφ.map_zero], fun x _ => ⟨?_, ?_⟩⟩
    · simp only [SSSA.horner, List.foldr_nil]; omega
    · simp [SSSA.horner, hφ.map_zero]
  | c :: cs, hcs => by
    obtain ⟨p, hcoeff, hval⟩ := horner_spec S h hφ cs
      (fun e he => hcs e (List.mem_cons_of_mem c he))
    have hc : c < S.fieldSize := hcs c (List.mem_cons_self c cs)
    refine ⟨C (φ c) + X * p, fun i => ?_, fun x hx => ?_⟩
    · cases i with
      | zero => simp
      | succ i => simp [hcoeff i]
    · obtain ⟨hlt, hev⟩ := hval x hx
      have hstep : S.horner x (c :: cs) =
          if S.horner x cs ≠ 0 then S.char2GF.multiply x (S.horner x cs) ^^^ c else c := rfl
      rw [hstep]
      by_cases h0 : S.horner x cs = 0
      · rw [if_neg (by simpa using h0)]
        rw [h0, hφ.map_zero] at hev
        refine ⟨hc, ?_⟩
        simp [← hev]
      · rw [if_pos h0]
        have hm := multiply_lt S h x (S.horner x cs) hx hlt
        refine ⟨Nat.xor_lt_two_pow hm hc, ?_⟩
        rw [hφ.map_xor _ _ hm hc, hφ.map_mul _ _ hx hlt, hev]
        simp [add_comm]

open Polynomial in
/-- Lagrange interpolation at zero in a field of characteristic two. -/
theorem eval_zero_eq_sum {F : Type} [Field F] (hchar : ∀ a : F, a + a = 0) (v : ℕ → F)
    (len : Nat) (hinj : Set.InjOn v (Finset.range len : Finset ℕ)) (p : Polynomial F)
    (hdeg : p.degree < (len : WithBot ℕ)) :
    p.eval 0 = ∑ i ∈ Finset.range len, p.eval (v i) *
      ∏ k ∈ Finset.range len, (if k = i then 1 else v k / (v i + v k)) := by
  have hneg : ∀ a : F, -a = a := fun a => neg_eq_of_add_eq_zero_left (hchar a)
  have hp := Lagrange.eq_interpolate (s := Finset.range len) (v := v) (f := p) hinj
    (by rwa [Finset.card_range])
  have hev := congrArg (Polynomial.eval 0) hp
  rw [Lagrange.interpolate_apply, Polynomial.eval_finset_sum] at hev
  rw [hev]
  apply Finset.sum_congr rfl
  intro i _
  rw [Polynomial.eval_mul, Polynomial.eval_C]
  congr 1
  rw [Lagrange.basis, Polynomial.eval_prod,
    ← Finset.prod_erase (Finset.range len) (a := i) (by simp)]
  apply Finset.prod_congr rfl
  intro k hk
  rw [if_neg (Finset.ne_of_mem_erase hk)]
  simp only [Lagrange.basisDivisor, Polynomial.eval_mul, Polynomial.eval_C, Polynomial.eval_sub,
    Polynomial.eval_X, zero_sub, hneg, sub_eq_add_neg, Polynomial.eval_add, Polynomial.eval_neg,
    zero_add]
  rw [div_eq_mul_inv, mul_comm]


/-- Horner evaluation at the points `1 .. k` followed by `lagrange` on these points gives the
constant coefficient back, for every polynomial with at most `k` coefficients. -/
theorem lagrange_horner (S : SSSA) (h : S.FieldContract) (coeffs : List Nat) (k : Nat)
    (hcoeffs : ∀ c ∈ coeffs, c < S.fieldSize) (hlen : coeffs.length ≤ k)
    (hk : k ≤ S.fieldSize - 1) :
    S.lagrange (List.range' 1 k) ((List.range' 1 k).map (fun i => S.horner i coeffs)) =
      coeffs.getD 0 0 := by
  have hn := fieldSize_ge_two S h
  obtain ⟨F, inst, φ, hφ⟩ := exists_fieldModel S h
  obtain ⟨p, hcoeff, hval⟩ := horner_spec S h hφ coeffs hcoeffs
  have hx : ∀ e ∈ List.range' 1 k, e < S.fieldSize ∧ e ≠ 0 := by
    intro e he
    rw [List.mem_range'_1] at he
    omega
  have hy : ∀ e ∈ (List.range' 1 k).map (fun i => S.horner i coeffs), e < S.fieldSize := by
    intro e he
    rw [List.mem_map] at he
    obtain ⟨i, hi, rfl⟩ := he
    exact (hval i (hx i hi).1).1
  obtain ⟨hlt, hsum⟩ := lagrange_spec S h hφ (List.range' 1 k) _ hx (List.nodup_range' 1 k) hy
  have hc0 : coeffs.getD 0 0 < S.fieldSize := by
    cases coeffs with
    | nil => simp; omega
    | cons c cs => simpa using hcoeffs c (List.mem_cons_self c cs)
  apply hφ.injOn _ _ hlt hc0
  have hgetx : ∀ i, i < k → (List.range' 1 k).getD i 0 = 1 + i := by
    intro i hi
    rw [List.getD_eq_getElem _ _ (by simpa using hi), List.getElem_range'_1]
  have hgety : ∀ i, i < k →
      ((List.range' 1 k).map (fun i => S.horner i coeffs)).getD i 0 =
        S.horner (1 + i) coeffs := by
    intro i hi
    rw [List.getD_eq_getElem _ _ (by simpa using hi), List.getElem_map, List.getElem_range'_1]
  have hdeg : p.degree < (k : WithBot ℕ) := by
    rw [Polynomial.degree_lt_iff_coeff_zero]
    intro i hi
    rw [hcoeff i, List.getD_eq_default _ _ (by omega), hφ.map_zero]
  have hinj : Set.InjOn (fun i => φ (1 + i)) (Finset.range k : Finset ℕ) := by
    intro a ha b hb hab
    simp only [Finset.coe_range, Set.mem_Iio] at ha hb
    have := hφ.injOn (1 + a) (1 + b) (by omega) (by omega) hab
    omega
  have hzero := eval_zero_eq_sum (hφ.add_self h) (fun i => φ (1 + i)) k hinj p hdeg
  rw [hsum, ← hcoeff 0, Polynomial.coeff_zero_eq_eval_zero, hzero, List.length_range']
  apply Finset.sum_congr rfl
  intro i hi
  rw [Finset.mem_range] at hi
  unfold lagrangeSummand
  rw [hgety i hi, (hval (1 + i) (by omega)).2, List.length_range']
  congr 1
  apply Finset.prod_congr rfl
  intro j hj
  rw [Finset.mem_range] at hj
  unfold lagrangeFactor
  rw [hgetx i hi, hgetx j hj]


theorem isTuple_finite (S : SSSA) (k : Nat) : {c | IsTuple S k c}.Finite := by
  have hfin : {l : List (Fin S.fieldSize) | l.length = k}.Finite := List.finite_length_eq _ k
  refine (hfin.image (List.map Fin.val)).subset ?_
  intro c hc
  obtain ⟨hlen, hlt⟩ := hc
  refine ⟨c.pmap (fun e he => (⟨e, he⟩ : Fin S.fieldSize)) hlt, ?_, ?_⟩
  · simp [hlen]
  · rw [List.map_pmap]
    simp

theorem shareValues_injOn (S : SSSA) (h : S.FieldContract) (xs : List Nat) (hnd : xs.Nodup)
    (hrange : ∀ x ∈ xs, 1 ≤ x ∧ x ≤ S.fieldSize - 1) (s : Nat) (hs : s < S.fieldSize) :
    Set.InjOn (shareValues S xs s) {c | IsTuple S xs.length c} := by
  have hn := fieldSize_ge_two S h
  obtain ⟨F, inst, φ, hφ⟩ := exists_fieldModel S h
  intro c hc c' hc' heq
  obtain ⟨hlen, hlt⟩ := hc
  obtain ⟨hlen', hlt'⟩ := hc'
  have hsc : ∀ e ∈ s :: c, e < S.fieldSize := by
    intro e he
    rcases List.mem_cons.mp he with rfl | he
    · exact hs
    · exact hlt e he
  have hsc' : ∀ e ∈ s :: c', e < S.fieldSize := by
    intro e he
    rcases List.mem_cons.mp he with rfl | he
    · exact hs
    · exact hlt' e he
  obtain ⟨p, hcoeff, hval⟩ := horner_spec S h hφ (s :: c) hsc
  obtain ⟨p', hcoeff', hval'⟩ := horner_spec S h hφ (s :: c') hsc'
  have hdeg : ∀ (q : Polynomial F) (d : List Nat), d.length = xs.length →
      (∀ i, q.coeff i = φ ((s :: d).getD i 0)) →
      q.degree < ((Finset.range (xs.length + 1)).card : WithBot ℕ) := by
    intro q d hd hq
    rw [Finset.card_range, Polynomial.degree_lt_iff_coeff_zero]
    intro i hi
    rw [hq i, List.getD_eq_default _ _ (by simp [hd]; omega), hφ.map_zero]
  let v : ℕ → F := fun i => if i = 0 then 0 else φ (xs.getD (i - 1) 0)
  have hvpos : ∀ i, i < xs.length → xs.getD i 0 < S.fieldSize ∧ xs.getD i 0 ≠ 0 := by
    intro i hi
    rw [List.getD_eq_getElem _ _ hi]
    have := hrange _ (List.getElem_mem hi)
    omega
  have hinj : Set.InjOn v (Finset.range (xs.length + 1) : Finset ℕ) := by
    intro a ha b hb hab
    simp only [Finset.coe_range, Set.mem_Iio] at ha hb
    by_cases ha0 : a = 0 <;> by_cases hb0 : b = 0
    · omega
    · simp only [v, ha0, hb0, if_true, if_false] at hab
      exact absurd hab.symm (hφ.map_ne_zero h _ (hvpos (b - 1) (by omega)).1
        (hvpos (b - 1) (by omega)).2)
    · simp only [v, ha0, hb0, if_true, if_false] at hab
      exact absurd hab (hφ.map_ne_zero h _ (hvpos (a - 1) (by omega)).1
        (hvpos (a - 1) (by omega)).2)
    · simp only [v, ha0, hb0, if_false] at hab
      have hx := hφ.injOn _ _ (hvpos (a - 1) (by omega)).1 (hvpos (b - 1) (by omega)).1 hab
      rw [List.getD_eq_getElem xs 0 (show a - 1 < xs.length by omega),
        List.getD_eq_getElem xs 0 (show b - 1 < xs.length by omega)] at hx
      have := (hnd.getElem_inj_iff).mp hx
      omega
  have hpp : p = p' := by
    refine Polynomial.eq_of_degrees_lt_of_eval_index_eq (Finset.range (xs.length + 1)) hinj
      (hdeg p c hlen hcoeff) (hdeg p' c' hlen' hcoeff') ?_
    intro i hi
    rw [Finset.mem_range] at hi
    by_cases hi0 : i = 0
    · simp only [v, hi0, if_true]
      rw [← Polynomial.coeff_zero_eq_eval_zero, ← Polynomial.coeff_zero_eq_eval_zero, hcoeff 0,
        hcoeff' 0]
      rfl
    · simp only [v, hi0, if_false]
      have hxi := (hvpos (i - 1) (by omega)).1
      rw [← (hval _ hxi).2, ← (hval' _ hxi).2]
      have hil : i - 1 < xs.length := by omega
      have := congrArg (fun l => l.getD (i - 1) 0) heq
      simp only [shareValues] at this
      rw [List.getD_eq_getElem (xs.map (fun x => S.horner x (s :: c))) 0 (by simpa using hil),
        List.getD_eq_getElem (xs.map (fun x => S.horner x (s :: c'))) 0 (by simpa using hil),
        List.getElem_map, List.getElem_map] at this
      rw [List.getD_eq_getElem xs 0 hil, this]
  apply List.ext_getElem (by rw [hlen, hlen'])
  intro i h1 h2
  have e1 := hcoeff (i + 1)
  have e2 := hcoeff' (i + 1)
  rw [hpp, e2] at e1
  simp only [List.getD_cons_succ] at e1
  rw [List.getD_eq_getElem _ _ h1, List.getD_eq_getElem _ _ h2] at e1
  exact (hφ.injOn _ _ (hlt _ (List.getElem_mem h1)) (hlt' _ (List.getElem_mem h2)) e1.symm)

theorem shareValues_mapsTo (S : SSSA) (h : S.FieldContract) (xs : List Nat)
    (hrange : ∀ x ∈ xs, 1 ≤ x ∧ x ≤ S.fieldSize - 1) (s : Nat) (hs : s < S.fieldSize) :
    Set.MapsTo (shareValues S xs s) {c | IsTuple S xs.length c} {c | IsTuple S xs.length c} := by
  have hn := fieldSize_ge_two S h
  obtain ⟨F, inst, φ, hφ⟩ := exists_fieldModel S h
  intro c hc
  obtain ⟨_, hlt⟩ := hc
  have hsc : ∀ e ∈ s :: c, e < S.fieldSize := by
    intro e he
    rcases List.mem_cons.mp he with rfl | he
    · exact hs
    · exact hlt e he
  obtain ⟨p, _, hval⟩ := horner_spec S h hφ (s :: c) hsc
  refine ⟨by simp [shareValues], ?_⟩
  intro e he
  simp only [shareValues, List.mem_map] at he
  obtain ⟨x, hx, rfl⟩ := he
  exact (hval x (by have := hrange x hx; omega)).1

theorem shareValues_bijOn (S : SSSA) (h : S.FieldContract) (xs : List Nat) (hnd : xs.Nodup)
    (hrange : ∀ x ∈ xs, 1 ≤ x ∧ x ≤ S.fieldSize - 1) (s : Nat) (hs : s < S.fieldSize) :
    Set.BijOn (shareValues S xs s) {c | IsTuple S xs.length c} {c | IsTuple S xs.length c} :=
  ((isTuple_finite S xs.length).injOn_iff_bijOn_of_mapsTo
    (shareValues_mapsTo S h xs hrange s hs)).mp (shareValues_injOn S h xs hnd hrange s hs)

theorem ncard_fiber_of_bijOn {α : Type} (f : α → α) (T : Set α) (hf : Set.BijOn f T T)
    (v : α) (hv : v ∈ T) : {c | c ∈ T ∧ f c = v}.ncard = 1 := by
  obtain ⟨c, hc, hcv⟩ := hf.surjOn hv
  rw [Set.ncard_eq_one]
  refine ⟨c, Set.eq_singleton_iff_unique_mem.mpr ⟨⟨hc, hcv⟩, ?_⟩⟩
  rintro d ⟨hd, hdv⟩
  exact hf.injOn hd hc (hdv.trans hcv.symm)

/-! ### Horner and Lagrange -/

/-- C2: for `1 ≤ t ≤ fieldSize - 1` and a list `c` of `t` field elements, `lagrange` on the
points `1 .. t` and the values `horner(1, c), ..., horner(t, c)` is `c[0]`. -/
theorem horner_lagrange_consistency (S : SSSA) (h : S.FieldContract) (t : Nat) (c : List Nat)
    (ht1 : 1 ≤ t) (ht : t ≤ S.fieldSize - 1) (hlen : c.length = t)
    (hc : ∀ e ∈ c, e < S.fieldSize) :
    c.head? =
      some (S.lagrange (List.range' 1 t) ((List.range' 1 t).map (fun i => S.horner i c))) := by
  rw [lagrange_horner S h c t hc (le_of_eq hlen) ht]
  cases c with
  | nil => simp at hlen; omega
  | cons a l => simp

theorem horner_lagrange_consistency_witness :
    [5, 3].head? =
      some (sssa3.lagrange (List.range' 1 2)
        ((List.range' 1 2).map (fun i => sssa3.horner i [5, 3]))) :=
  horner_lagrange_consistency sssa3 sssa3_fieldContract 2 [5, 3] (by decide) (by decide)
    (by decide) (by decide)

/-- C3: for every threshold `t` (in particular `t ≥ 2`), `t - 1` pairwise distinct participant
ids in `1 .. fieldSize - 1` and a chunk value `s`, the map from the random coefficients `(c_1, ..., c_{t-1})` to the share
values `horner(x_i, [s, c_1, ..., c_{t-1}])` is a bijection on the `(t-1)`-tuples of field
elements; hence every tuple of observed values arises from as many coefficient tuples under a
chunk value `s` as under any other chunk value `s'`. -/
theorem threshold_secrecy (S : SSSA) (h : S.FieldContract) (t : Nat)
    (xs : List Nat) (hlen : xs.length = t - 1) (hnd : xs.Nodup)
    (hrange : ∀ x ∈ xs, 1 ≤ x ∧ x ≤ S.fieldSize - 1) (s : Nat) (hs : s < S.fieldSize) :
    Set.BijOn (shareValues S xs s) {c | IsTuple S (t - 1) c} {v | IsTuple S (t - 1) v} ∧
    ∀ s', s' < S.fieldSize → ∀ v : List Nat,
      {c | IsTuple S (t - 1) c ∧ shareValues S xs s c = v}.ncard =
        {c | IsTuple S (t - 1) c ∧ shareValues S xs s' c = v}.ncard := by
  rw [← hlen]
  have hbij := shareValues_bijOn S h xs hnd hrange s hs
  refine ⟨hbij, fun s' hs' v => ?_⟩
  have hbij' := shareValues_bijOn S h xs hnd hrange s' hs'
  by_cases hv : IsTuple S xs.length v
  · exact (ncard_fiber_of_bijOn _ _ hbij v hv).trans (ncard_fiber_of_bijOn _ _ hbij' v hv).symm
  · have e1 : {c | IsTuple S xs.length c ∧ shareValues S xs s c = v} = ∅ := by
      ext c
      simp only [Set.mem_setOf_eq, Set.mem_empty_iff_false, iff_false, not_and]
      intro hc hcv
      exact hv (hcv ▸ hbij.mapsTo hc)
    have e2 : {c | IsTuple S xs.length c ∧ shareValues S xs s' c = v} = ∅ := by
      ext c
      simp only [Set.mem_setOf_eq, Set.mem_empty_iff_false, iff_false, not_and]
      intro hc hcv
      exact hv (hcv ▸ hbij'.mapsTo hc)
    rw [e1, e2]

theorem threshold_secrecy_witness :
    Set.BijOn (shareValues sssa3 [3] 5) {c | IsTuple sssa3 (2 - 1) c}
      {v | IsTuple sssa3 (2 - 1) v} ∧
    ∀ s', s' < sssa3.fieldSize → ∀ v : List Nat,
      {c | IsTuple sssa3 (2 - 1) c ∧ shareValues sssa3 [3] 5 c = v}.ncard =
        {c | IsTuple sssa3 (2 - 1) c ∧ shareValues sssa3 [3] s' c = v}.ncard :=
  threshold_secrecy sssa3 sssa3_fieldContract 2 [3] (by decide) (by decide) (by decide) 5
    (by decide)

/-! ### Argument checks -/

/-- C6: `verifyInput` returns without throwing exactly when the secret is a string accepted by
`isBase64`, `numShares` is an integer in `[2, fieldSize - 1]`, `threshold` is an integer in
`[2, numShares]` and `padLength` is an integer in `[0, 1024]`; in particular it throws whenever
`threshold > numShares`. -/
theorem verifyInput_ok_iff (S : SSSA) (U : Base64Helpers)
    (secret numShares threshold padLength : JSValue) :
    (S.verifyInput U secret numShares threshold padLength = .ok () ↔
      ∃ (s : List Char) (n t p : Int),
        secret = .str s ∧ numShares = .num n ∧ threshold = .num t ∧ padLength = .num p ∧
        U.isBase64 s = true ∧ 2 ≤ n ∧ n ≤ (S.fieldSize : Int) - 1 ∧ 2 ≤ t ∧ t ≤ n ∧
        0 ≤ p ∧ p ≤ 1024) ∧
    (∀ n t : Int, n < t → S.verifyInput U secret (.num n) (.num t) padLength ≠ .ok ()) := by
  refine ⟨⟨fun h => ?_, ?_⟩, fun n t hnt h => ?_⟩
  · cases secret <;> cases numShares <;> cases threshold <;> cases padLength <;>
      simp only [SSSA.verifyInput] at h <;> (try split_ifs at h) <;> (try contradiction)
    rename_i s n t p h1 h2 h3 h4 h5 h6
    refine ⟨s, n, t, p, rfl, rfl, rfl, rfl, ?_, ?_, ?_, ?_, ?_, ?_, ?_⟩
    · simpa using h6
    all_goals omega
  · rintro ⟨s, n, t, p, rfl, rfl, rfl, rfl, hs, h1, h2, h3, h4, h5, h6⟩
    simp only [SSSA.verifyInput]
    rw [if_neg (by omega), if_neg (by omega), if_neg (by omega), if_neg (by omega),
      if_neg (by omega), if_neg (by simp [hs])]
  · cases secret <;> cases padLength <;> simp only [SSSA.verifyInput] at h <;>
      (try split_ifs at h) <;> (try contradiction)

/-! ### Share strings -/

/-- C5: at field size 16 the share string built for id 10 is `a1`, and reading it back throws
the share-id error: `parseInt` is called without a radix and finds no decimal digit in `a`. -/
theorem deconstruct_construct_id_ten :
    sssa4.constructPublicShareString (.num 10) ['1'] = .ok ['a', '1'] ∧
    sssa4.deconstructPublicShareString ['a', '1'] = .error .invalidShareId := by
  decide

set_option maxRecDepth 1000000 in
/-- C7: a pad length of 0 is replaced by 128 before it is checked or used, for every engine
and every secret; for the one-byte secret `QQ==` the strings returned differ from those that
chunking with pad length 0 gives. -/
theorem generateShares_padLength_zero :
    (∀ (S : SSSA) (U : Base64Helpers) (random : Nat → Nat → Nat)
      (secret numShares threshold : JSValue),
      S.generateShares U random secret numShares threshold (.num 0) =
        S.generateShares U random secret numShares threshold (.num 128)) ∧
    sssa3.generateShares stdBase64 sampleRandom (.str ['Q', 'Q', '=', '=']) (.num 3) (.num 2)
        (.num 0) ≠
      sssa3.generateSharesFrom stdBase64 sampleRandom ['Q', 'Q', '=', '='] 3 2 0 := by
  refine ⟨fun S U random secret numShares threshold => rfl, ?_⟩
  decide

theorem publicShareToPointsLoop_skip (S : SSSA) (d : List Char) (id : Nat) (data : List Char)
    (hd : S.deconstructPublicShareString d = .ok (id, data)) (l3 : List (List Char)) :
    ∀ (l2 : List (List Char)) (x : List Nat) (y : List (List Nat)), id ∈ x →
      S.publicShareToPointsLoop (l2 ++ d :: l3) x y = S.publicShareToPointsLoop (l2 ++ l3) x y
  | [], x, y, hx => by
    simp only [List.nil_append, SSSA.publicShareToPointsLoop, hd, hx, if_true]
  | t :: l2, x, y, hx => by
    simp only [List.cons_append, SSSA.publicShareToPointsLoop]
    cases S.deconstructPublicShareString t with
    | error e => rfl
    | ok share =>
      simp only
      by_cases hmem : share.1 ∈ x
      · simp only [hmem, if_true]
        exact publicShareToPointsLoop_skip S d id data hd l3 l2 x y hx
      · simp only [hmem, if_false]
        exact publicShareToPointsLoop_skip S d id data hd l3 l2 _ _
          (List.mem_append_left _ hx)

theorem publicShareToPointsLoop_duplicate (S : SSSA) (s d : List Char) (id : Nat)
    (data data' : List Char) (hs : S.deconstructPublicShareString s = .ok (id, data))
    (hd : S.deconstructPublicShareString d = .ok (id, data')) (l2 l3 : List (List Char)) :
    ∀ (l1 : List (List Char)) (x : List Nat) (y : List (List Nat)),
      S.publicShareToPointsLoop (l1 ++ s :: (l2 ++ d :: l3)) x y =
        S.publicShareToPointsLoop (l1 ++ s :: (l2 ++ l3)) x y
  | [], x, y => by
    simp only [List.nil_append, SSSA.publicShareToPointsLoop, hs]
    by_cases hmem : id ∈ x
    · simp only [hmem, if_true]
      exact publicShareToPointsLoop_skip S d id data' hd l3 l2 x y hmem
    · simp only [hmem, if_false]
      exact publicShareToPointsLoop_skip S d id data' hd l3 l2 _ _
        (List.mem_append_right _ (List.mem_singleton_self id))
  | t :: l1, x, y => by
    simp only [List.cons_append, SSSA.publicShareToPointsLoop]
    cases S.deconstructPublicShareString t with
    | error e => rfl
    | ok share =>
      simp only
      by_cases hmem : share.1 ∈ x
      · simp only [hmem, if_true]
        exact publicShareToPointsLoop_duplicate S s d id data data' hs hd l2 l3 l1 x y
      · simp only [hmem, if_false]
        exact publicShareToPointsLoop_duplicate S s d id data data' hs hd l2 l3 l1 _ _

theorem publicShareToPointsLoop_ok (S : SSSA) :
    ∀ (l : List (List Char)) (x : List Nat) (y : List (List Nat)),
      (∀ t ∈ l, ∃ r, S.deconstructPublicShareString t = .ok r) →
      ∃ points, S.publicShareToPointsLoop l x y = .ok points
  | [], x, y, _ => ⟨y, rfl⟩
  | t :: l, x, y, h => by
    obtain ⟨r, hr⟩ := h t (List.mem_cons_self t l)
    have hl : ∀ u ∈ l, ∃ r, S.deconstructPublicShareString u = .ok r :=
      fun u hu => h u (List.mem_cons_of_mem t hu)
    simp only [SSSA.publicShareToPointsLoop, hr]
    by_cases hmem : r.1 ∈ x
    · simp only [hmem, if_true]
      exact publicShareToPointsLoop_ok S l x y hl
    · simp only [hmem, if_false]
      exact publicShareToPointsLoop_ok S l _ _ hl

/-- C8: a further valid share string whose id equals the id of a share `s` that precedes it
changes neither the result of `publicShareToPoints` nor that of `combine`; and on a list of
valid share strings with such a duplicate `publicShareToPoints` returns without throwing. -/
theorem duplicate_share_ignored (S : SSSA) (U : Base64Helpers) (l1 l2 l3 : List (List Char))
    (s d : List Char) (id : Nat) (data data' : List Char)
    (hs : S.deconstructPublicShareString s = .ok (id, data))
    (hd : S.deconstructPublicShareString d = .ok (id, data')) :
    S.publicShareToPoints (l1 ++ s :: (l2 ++ d :: l3)) =
        S.publicShareToPoints (l1 ++ s :: (l2 ++ l3)) ∧
    S.combine U (l1 ++ s :: (l2 ++ d :: l3)) = S.combine U (l1 ++ s :: (l2 ++ l3)) ∧
    ((∀ t ∈ l1 ++ s :: (l2 ++ l3), ∃ r, S.deconstructPublicShareString t = .ok r) →
      ∃ points, S.publicShareToPoints (l1 ++ s :: (l2 ++ d :: l3)) = .ok points) := by
  have h := publicShareToPointsLoop_duplicate S s d id data data' hs hd l2 l3 l1 [] []
  refine ⟨h, ?_, fun hall => ?_⟩
  · simp only [SSSA.combine, SSSA.publicShareToPoints, h]
  · rw [SSSA.publicShareToPoints, h]
    exact publicShareToPointsLoop_ok S _ [] [] hall

theorem duplicate_share_ignored_witness :
    sssa3.publicShareToPoints
        ([] ++ ['1', '1', 'c', '2', '2'] :: ([['2', '1', 'f', '1', 'f']] ++
          ['1', '1', '2', '7', 'c'] :: [['3', '1', '2', '7', 'c']])) =
      sssa3.publicShareToPoints
        ([] ++ ['1', '1', 'c', '2', '2'] :: ([['2', '1', 'f', '1', 'f']] ++
          [['3', '1', '2', '7', 'c']])) :=
  (duplicate_share_ignored sssa3 stdBase64 [] [['2', '1', 'f', '1', 'f']]
    [['3', '1', '2', '7', 'c']] ['1', '1', 'c', '2', '2'] ['1', '1', '2', '7', 'c'] 1
    ['1', 'c', '2', '2'] ['1', '2', '7', 'c'] (by decide) (by decide)).1

/-! ### Reconstruction from a subset of the shares -/

set_option maxRecDepth 100000 in
/-- C1: with `coeffLength = 3`, the shares of the one-byte secret `QQ==` for 3 participants
and threshold 2 are `11c22`, `21f1f` and `3127c`; `combine` of the second and third of them
returns `fs==`, not the secret. -/
theorem combine_of_later_shares :
    sssa3.generateShares stdBase64 sampleRandom (.str ['Q', 'Q', '=', '=']) (.num 3) (.num 2)
        (.num 1) =
      .ok [['1', '1', 'c', '2', '2'], ['2', '1', 'f', '1', 'f'], ['3', '1', '2', '7', 'c']] ∧
    sssa3.combine stdBase64 [['2', '1', 'f', '1', 'f'], ['3', '1', '2', '7', 'c']] =
      .ok ['f', 's', '=', '='] ∧
    sssa3.combine stdBase64 [['2', '1', 'f', '1', 'f'], ['3', '1', '2', '7', 'c']] ≠
      .ok ['Q', 'Q', '=', '='] := by
  decide

set_option maxRecDepth 100000 in
/-- C4: `getChunksFromPoints` interpolates every row over the x-coordinates `1, 2, ...`, the
positions of the columns, whatever ids the shares carried.  With `coeffLength = 3`, for the
share strings `21f1f` and `3127c` (ids 2 and 3) the chunks that `combine` recovers are
`lagrange([1, 2], ...)` of the chunk values, which differ from `lagrange([2, 3], ...)`, the
interpolation over the parsed ids. -/
theorem getChunksFromPoints_ignores_ids :
    (∀ (S : SSSA) (first : List Nat) (rest : List (List Nat)),
      S.getChunksFromPoints (first :: rest) =
        .ok ((first :: rest).map
          (fun row => S.lagrange ((List.range first.length).map (fun x => x + 1)) row))) ∧
    sssa3.publicShareToPoints [['2', '1', 'f', '1', 'f'], ['3', '1', '2', '7', 'c']] =
      .ok [[7, 4], [3, 7], [4, 1], [7, 1]] ∧
    sssa3.getChunksFromPoints [[7, 4], [3, 7], [4, 1], [7, 1]] =
      .ok ([[7, 4], [3, 7], [4, 1], [7, 1]].map (fun row => sssa3.lagrange [1, 2] row)) ∧
    [[7, 4], [3, 7], [4, 1], [7, 1]].map (fun row => sssa3.lagrange [1, 2] row) = [6, 6, 7, 5] ∧
    [[7, 4], [3, 7], [4, 1], [7, 1]].map (fun row => sssa3.lagrange [2, 3] row) = [1, 0, 5, 0] := by
  refine ⟨fun S first rest => rfl, ?_⟩
  decide

/-! ### Reading a share string -/

theorem shareComponents_some (S : SSSA) (share : List Char) (c : List Char × List Char)
    (hc : S.shareComponents share = some c) :
    (share.all isHexChar = true ∧ S.idLen + 1 ≤ share.length) ∧
      c = (share.take S.idLen, share.drop S.idLen) := by
  unfold SSSA.shareComponents at hc
  split_ifs at hc with h
  exact ⟨h, (Option.some.inj hc).symm⟩

/-- C20: for every string, `deconstructPublicShareString` either returns the id and the data
or throws the share-id error; it never reaches the final throw, and a string that the regular
expression does not match ends in the share-id error. -/
theorem deconstruct_single_failure (S : SSSA) (share : List Char) :
    ((∃ id data, S.deconstructPublicShareString share = .ok (id, data)) ∨
        S.deconstructPublicShareString share = .error .invalidShareId) ∧
      S.deconstructPublicShareString share ≠ .error .invalidShareData ∧
      (S.shareComponents share = none →
        S.deconstructPublicShareString share = .error .invalidShareId) := by
  unfold SSSA.deconstructPublicShareString
  cases hc : S.shareComponents share with
  | none => simp
  | some c =>
    obtain ⟨⟨_, hlen⟩, rfl⟩ := shareComponents_some S share c hc
    have hdata : (share.drop S.idLen).isEmpty = false := by
      cases hd : share.drop S.idLen with
      | nil =>
        have := congrArg List.length hd
        rw [List.length_drop] at this
        simp at this
        omega
      | cons a l => rfl
    simp only [Option.bind_some, hdata]
    split
    · simp
    · split_ifs <;> first | contradiction | simp

/-! ### The cross section is the transpose -/

/-- C15: for an input of `n ≥ 1` rows of `m ≥ 1` entries each, the result of
`createCrossSection` has `m` rows of `n` entries each, and entry `i` of row `j` is entry `j`
of row `i` of the input. -/
theorem createCrossSection_transposition (allPoints : List (List Nat)) (n m : Nat)
    (hn : 1 ≤ n) (hm : 1 ≤ m) (hlen : allPoints.length = n)
    (hrect : ∀ row ∈ allPoints, row.length = m) :
    (createCrossSection allPoints).length = m ∧
      ∀ j, j < m →
        ((createCrossSection allPoints).getD j []).length = n ∧
        ∀ i, i < n →
          ((createCrossSection allPoints).getD j []).getD i 0 =
            (allPoints.getD i []).getD j 0 := by
  have hne : allPoints ≠ [] := by
    intro h
    rw [h] at hlen
    simp at hlen
    omega
  rw [createCrossSection_eq_transpose m allPoints hne hrect]
  have hm' := hm
  refine ⟨by simp [transpose], fun j hj => ?_⟩
  have hjl : j < (transpose m allPoints).length := by simpa [transpose] using hj
  rw [List.getD_eq_getElem _ _ hjl]
  simp only [transpose, List.getElem_map, List.getElem_range, List.length_map]
  refine ⟨hlen, fun i hi => ?_⟩
  have hil : i < allPoints.length := by omega
  rw [List.getD_eq_getElem _ _ (by simpa using hil), List.getElem_map,
    List.getD_eq_getElem _ _ hil]

theorem createCrossSection_transposition_witness :
    (createCrossSection [[1, 2, 3], [4, 5, 6]]).length = 3 ∧
      ∀ j, j < 3 →
        ((createCrossSection [[1, 2, 3], [4, 5, 6]]).getD j []).length = 2 ∧
        ∀ i, i < 2 →
          ((createCrossSection [[1, 2, 3], [4, 5, 6]]).getD j []).getD i 0 =
            (([[1, 2, 3], [4, 5, 6]] : List (List Nat)).getD i []).getD j 0 :=
  createCrossSection_transposition [[1, 2, 3], [4, 5, 6]] 2 3 (by decide) (by decide)
    (by decide) (by decide)

/-! ### Building a share string -/

/-- C13: for every integer id in `[1, fieldSize - 1]` and every data string,
`constructPublicShareString` returns the id in hex behind as many zeros as bring it to exactly
`idLen` characters, followed by the data unchanged, where `idLen` is the number of hex digits
of `fieldSize - 1`; the length is `idLen` plus the length of the data; `idLen` is 2 for field
size 256 and 4 for field size 65536; and for every id that is not an integer in
`[1, fieldSize - 1]` it throws. -/
theorem constructPublicShareString_spec (S : SSSA) (data : List Char) :
    (∀ k : Int, 1 ≤ k → k ≤ (S.fieldSize : Int) - 1 →
      S.constructPublicShareString (.num k) data =
        .ok (List.replicate (S.idLen - (toHex k.toNat).length) '0' ++ toHex k.toNat ++ data) ∧
      (List.replicate (S.idLen - (toHex k.toNat).length) '0' ++ toHex k.toNat).length =
        S.idLen ∧
      (List.replicate (S.idLen - (toHex k.toNat).length) '0' ++ toHex k.toNat ++ data).length =
        S.idLen + data.length) ∧
    S.idLen = (toHex (S.fieldSize - 1)).length ∧
    (S.coeffLength = 8 → S.fieldSize = 256 ∧ S.idLen = 2) ∧
    (S.coeffLength = 16 → S.fieldSize = 65536 ∧ S.idLen = 4) ∧
    (∀ id : JSValue, (∀ k : Int, id = .num k → k < 1 ∨ (S.fieldSize : Int) - 1 < k) →
      ∃ e, S.constructPublicShareString id data = .error e) := by
  refine ⟨fun k h1 h2 => ?_, rfl, fun h8 => ?_, fun h16 => ?_, fun id hid => ?_⟩
  · have hpos := fieldSize_pos S
    have hlen := padLeft_toHex_length S k.toNat (by omega)
    unfold padLeft at hlen
    refine ⟨?_, hlen, ?_⟩
    · simp only [SSSA.constructPublicShareString]
      rw [if_neg (by omega)]
      rfl
    · rw [List.length_append, hlen]
  · have hfs : S.fieldSize = 256 := by rw [SSSA.fieldSize, h8]; rfl
    refine ⟨hfs, ?_⟩
    rw [SSSA.idLen, hfs]
    decide
  · have hfs : S.fieldSize = 65536 := by rw [SSSA.fieldSize, h16]; rfl
    refine ⟨hfs, ?_⟩
    rw [SSSA.idLen, hfs]
    decide
  · cases id with
    | num k =>
      refine ⟨.shareIdOutOfRange, ?_⟩
      simp only [SSSA.constructPublicShareString]
      rw [if_pos (by have := hid k rfl; omega)]
    | undefined => exact ⟨_, rfl⟩
    | null => exact ⟨_, rfl⟩
    | bool b => exact ⟨_, rfl⟩
    | str s => exact ⟨_, rfl⟩
    | nan => exact ⟨_, rfl⟩
    | nonInteger => exact ⟨_, rfl⟩
    | other => exact ⟨_, rfl⟩

/-! ### The shares that `generateShares` returns -/

theorem verifyInput_accepts (S : SSSA) (U : Base64Helpers)
    (secret numShares threshold padLength : JSValue)
    (h : S.verifyInput U secret numShares threshold padLength = .ok ()) :
    ∃ (s : List Char) (n t p : Int),
      secret = .str s ∧ numShares = .num n ∧ threshold = .num t ∧ padLength = .num p ∧
      U.isBase64 s = true ∧ 2 ≤ n ∧ n ≤ (S.fieldSize : Int) - 1 ∧ 2 ≤ t ∧ t ≤ n ∧
      0 ≤ p ∧ p ≤ 1024 := by
  cases secret <;> cases numShares <;> cases threshold <;> cases padLength <;>
    simp only [SSSA.verifyInput] at h <;> (try split_ifs at h) <;> (try contradiction)
  rename_i s n t p h1 h2 h3 h4 h5 h6
  refine ⟨s, n, t, p, rfl, rfl, rfl, rfl, ?_, ?_, ?_, ?_, ?_, ?_, ?_⟩
  · simpa using h6
  all_goals omega

theorem verifyInput_of_valid (S : SSSA) (U : Base64Helpers) (s : List Char) (n t p : Int)
    (hs : U.isBase64 s = true) (h1 : 2 ≤ n) (h2 : n ≤ (S.fieldSize : Int) - 1) (h3 : 2 ≤ t)
    (h4 : t ≤ n) (h5 : 0 ≤ p) (h6 : p ≤ 1024) :
    S.verifyInput U (.str s) (.num n) (.num t) (.num p) = .ok () := by
  simp only [SSSA.verifyInput]
  rw [if_neg (by omega), if_neg (by omega), if_neg (by omega), if_neg (by omega),
    if_neg (by omega), if_neg (by simp [hs])]

/-- After `padLength || 128` an accepted pad length is still accepted: it is the pad length
itself, or 128 in place of 0. -/
theorem orElse_padLength (p : Int) :
    (JSValue.num p).orElse (.num 128) = .num (if p = 0 then 128 else p) := by
  by_cases hp : p = 0
  · subst hp; rfl
  · simp [JSValue.orElse, JSValue.truthy, hp]

/-- What `generateShares` computes on arguments that `verifyInput` accepts. -/
theorem generateShares_of_valid (S : SSSA) (U : Base64Helpers) (random : Nat → Nat → Nat)
    (s : List Char) (n t p : Int)
    (hs : U.isBase64 s = true) (h1 : 2 ≤ n) (h2 : n ≤ (S.fieldSize : Int) - 1) (h3 : 2 ≤ t)
    (h4 : t ≤ n) (h5 : 0 ≤ p) (h6 : p ≤ 1024) :
    S.generateShares U random (.str s) (.num n) (.num t) (.num p) =
      S.generateSharesFrom U random s n.toNat t.toNat (if p = 0 then 128 else p).toNat := by
  unfold SSSA.generateShares
  simp only [orElse_padLength]
  rw [verifyInput_of_valid S U s n t _ hs h1 h2 h3 h4 (by split_ifs <;> omega)
    (by split_ifs <;> omega)]

theorem groupsFromTail_ne_nil (width : Nat) (bits : List Bool) (fuel : Nat) (hf : 1 ≤ fuel) :
    groupsFromTail width fuel bits ≠ [] := by
  obtain ⟨f, rfl⟩ : ∃ f, fuel = f + 1 := ⟨fuel - 1, by omega⟩
  unfold groupsFromTail
  split_ifs <;> simp

theorem splitSecret_ne_nil (S : SSSA) (U : Base64Helpers) (secret : List Char)
    (padLength : Nat) : S.splitSecret U secret padLength ≠ [] := by
  unfold SSSA.splitSecret splitBitsToIntArray markPadding
  exact groupsFromTail_ne_nil _ _ _ (by simp; omega)

theorem getPointsFromChunks_rows (S : SSSA) (random : Nat → Nat → Nat) (chunks : List Nat)
    (numShares threshold : Nat) :
    (S.getPointsFromChunks random chunks numShares threshold).length = chunks.length ∧
      ∀ row ∈ S.getPointsFromChunks random chunks numShares threshold,
        row.length = numShares := by
  unfold SSSA.getPointsFromChunks
  refine ⟨by simp, fun row hrow => ?_⟩
  rw [List.mem_map] at hrow
  obtain ⟨p, _, rfl⟩ := hrow
  simp [SSSA.getPointsOnPolynomialFor]

/-- The strings that `generateSharesFrom` returns for a valid number of shares. -/
theorem generateSharesFrom_eq (S : SSSA) (U : Base64Helpers) (random : Nat → Nat → Nat)
    (secret : List Char) (numShares threshold padLength : Nat) (h1 : 1 ≤ numShares)
    (h2 : numShares ≤ S.fieldSize - 1) :
    S.generateSharesFrom U random secret numShares threshold padLength =
      .ok (expectedStrings S 0 ((transpose numShares
        (S.getPointsFromChunks random (S.splitSecret U secret padLength) numShares
          threshold)).map (fun col => convertIntArrayToBits col S.coeffLength))) := by
  unfold SSSA.generateSharesFrom
  have hrows := getPointsFromChunks_rows S random (S.splitSecret U secret padLength) numShares
    threshold
  have hne : S.getPointsFromChunks random (S.splitSecret U secret padLength) numShares
      threshold ≠ [] := by
    intro h
    have := hrows.1
    rw [h] at this
    exact splitSecret_ne_nil S U secret padLength (List.length_eq_zero.mp this.symm)
  simp only [publicSharesOfPoints_eq S numShares _ hne hrows.2 h1, if_pos h2]

theorem expectedStrings_length (S : SSSA) (i : Nat) (l : List (List Bool)) :
    (expectedStrings S i l).length = l.length := by
  simp [expectedStrings]

theorem expectedStrings_getD (S : SSSA) (l : List (List Bool)) (p : Nat) (hp : p < l.length) :
    (expectedStrings S 0 l).getD p [] =
      padLeft '0' (toHex (p + 1)) S.idLen ++ bin2hex (markPadding (l.getD p [])) := by
  rw [List.getD_eq_getElem _ _ (by simpa [expectedStrings] using hp),
    List.getD_eq_getElem _ _ hp]
  simp [expectedStrings, List.getElem_enumFrom]

/-- C12: for arguments that `verifyInput` accepts and any random source, `generateShares`
returns exactly `numShares` strings, and the string at position `i` begins with the `idLen`
characters of the hex encoding of `i + 1` padded with zeros. -/
theorem generateShares_count_and_ids (S : SSSA) (U : Base64Helpers)
    (random : Nat → Nat → Nat) (secret numShares threshold padLength : JSValue)
    (hvalid : S.verifyInput U secret numShares threshold padLength = .ok ()) :
    ∃ (n : Nat) (shares : List (List Char)),
      numShares = .num n ∧
      S.generateShares U random secret numShares threshold padLength = .ok shares ∧
      shares.length = n ∧
      ∀ i, i < n →
        (shares.getD i []).take S.idLen = padLeft '0' (toHex (i + 1)) S.idLen ∧
        (padLeft '0' (toHex (i + 1)) S.idLen).length = S.idLen := by
  obtain ⟨s, n, t, p, rfl, rfl, rfl, rfl, hs, h1, h2, h3, h4, h5, h6⟩ :=
    verifyInput_accepts S U _ _ _ _ hvalid
  have hpos := fieldSize_pos S
  have hgen := generateShares_of_valid S U random s n t p hs h1 h2 h3 h4 h5 h6
  rw [generateSharesFrom_eq S U random s n.toNat t.toNat _ (by omega) (by omega)] at hgen
  refine ⟨n.toNat, _, by rw [Int.toNat_of_nonneg (by omega)], hgen, ?_, ?_⟩
  · simp [expectedStrings_length, transpose]
  · intro i hi
    have hw := padLeft_toHex_length S (i + 1) (by omega)
    refine ⟨?_, hw⟩
    rw [expectedStrings_getD S _ i (by simpa [transpose] using hi), List.take_left' hw]

theorem generateShares_count_and_ids_witness :
    ∃ (n : Nat) (shares : List (List Char)),
      JSValue.num 3 = .num n ∧
      sssa3.generateShares stdBase64 sampleRandom (.str ['Q', 'Q', '=', '=']) (.num 3) (.num 2)
        (.num 1) = .ok shares ∧
      shares.length = n ∧
      ∀ i, i < n →
        (shares.getD i []).take sssa3.idLen = padLeft '0' (toHex (i + 1)) sssa3.idLen ∧
        (padLeft '0' (toHex (i + 1)) sssa3.idLen).length = sssa3.idLen :=
  generateShares_count_and_ids sssa3 stdBase64 sampleRandom (.str ['Q', 'Q', '=', '='])
    (.num 3) (.num 2) (.num 1) (by decide)

/-! ### Horner evaluation -/

theorem horner_cons (S : SSSA) (x c : Nat) (cs : List Nat) :
    S.horner x (c :: cs) =
      if S.horner x cs ≠ 0 then S.char2GF.multiply x (S.horner x cs) ^^^ c else c := rfl

/-- Skipping the multiplication when the accumulator is 0 changes nothing. -/
theorem horner_eq_hornerEveryStep (S : SSSA) (x : Nat) :
    ∀ coeffs : List Nat, S.horner x coeffs = hornerEveryStep S x coeffs
  | [] => rfl
  | c :: cs => by
    have ih := horner_eq_hornerEveryStep S x cs
    have hstep : hornerEveryStep S x (c :: cs) =
        S.char2GF.multiply x (hornerEveryStep S x cs) ^^^ c := rfl
    rw [horner_cons, hstep, ← ih]
    by_cases h0 : S.horner x cs = 0
    · rw [if_neg (by simpa using h0), h0, multiply_zero_right, Nat.zero_xor]
    · rw [if_pos h0]

theorem horner_lt (S : SSSA) (h : S.FieldContract) (x : Nat) (hx : x < S.fieldSize) :
    ∀ coeffs : List Nat, (∀ c ∈ coeffs, c < S.fieldSize) → S.horner x coeffs < S.fieldSize
  | [], _ => by
    have := fieldSize_ge_two S h
    simp only [SSSA.horner, List.foldr_nil]
    omega
  | c :: cs, hcs => by
    have hc := hcs c (List.mem_cons_self c cs)
    have ih := horner_lt S h x hx cs (fun e he => hcs e (List.mem_cons_of_mem c he))
    rw [horner_cons]
    split_ifs
    · exact Nat.xor_lt_two_pow (multiply_lt S h x _ hx ih) hc
    · exact hc

theorem power_lt (S : SSSA) (h : S.FieldContract) (x : Nat) (hx : x < S.fieldSize) :
    ∀ i, power S x i < S.fieldSize
  | 0 => by have := fieldSize_ge_two S h; simp only [power]; omega
  | i + 1 => multiply_lt S h x _ hx (power_lt S h x hx i)

theorem FieldModel.map_power {S : SSSA} {F : Type} [Field F] {φ : Nat → F}
    (hφ : FieldModel S φ) (h : S.FieldContract) (x : Nat) (hx : x < S.fieldSize) :
    ∀ i, φ (power S x i) = φ x ^ i
  | 0 => by simp [power, hφ.map_one]
  | i + 1 => by
    rw [power, hφ.map_mul _ _ hx (power_lt S h x hx i), hφ.map_power h x hx i, pow_succ, mul_comm]

theorem FieldModel.map_horner_cons {S : SSSA} {F : Type} [Field F] {φ : Nat → F}
    (hφ : FieldModel S φ) (h : S.FieldContract) (x c : Nat) (cs : List Nat)
    (hx : x < S.fieldSize) (hc : c < S.fieldSize) (hcs : ∀ e ∈ cs, e < S.fieldSize) :
    φ (S.horner x (c :: cs)) = φ x * φ (S.horner x cs) + φ c := by
  have hlt := horner_lt S h x hx cs hcs
  rw [horner_eq_hornerEveryStep S x (c :: cs)]
  have hstep : hornerEveryStep S x (c :: cs) =
      S.char2GF.multiply x (hornerEveryStep S x cs) ^^^ c := rfl
  rw [hstep, ← horner_eq_hornerEveryStep S x cs,
    hφ.map_xor _ _ (multiply_lt S h x _ hx hlt) hc, hφ.map_mul _ _ hx hlt]

theorem polynomialValueFrom_spec (S : SSSA) (h : S.FieldContract) {F : Type} [Field F]
    {φ : Nat → F} (hφ : FieldModel S φ) (x : Nat) (hx : x < S.fieldSize) :
    ∀ (coeffs : List Nat) (i : Nat), (∀ c ∈ coeffs, c < S.fieldSize) →
      polynomialValueFrom S x i coeffs < S.fieldSize ∧
        φ (polynomialValueFrom S x i coeffs) = φ x ^ i * φ (S.horner x coeffs)
  | [], i, _ => by
    have := fieldSize_ge_two S h
    refine ⟨by simp only [polynomialValueFrom]; omega, ?_⟩
    simp [polynomialValueFrom, SSSA.horner, hφ.map_zero]
  | c :: cs, i, hcs => by
    have hc := hcs c (List.mem_cons_self c cs)
    have hcs' : ∀ e ∈ cs, e < S.fieldSize := fun e he => hcs e (List.mem_cons_of_mem c he)
    obtain ⟨ih1, ih2⟩ := polynomialValueFrom_spec S h hφ x hx cs (i + 1) hcs'
    have hm := multiply_lt S h c (power S x i) hc (power_lt S h x hx i)
    refine ⟨Nat.xor_lt_two_pow hm ih1, ?_⟩
    rw [polynomialValueFrom, hφ.map_xor _ _ hm ih1, hφ.map_mul _ _ hc (power_lt S h x hx i),
      hφ.map_power h x hx, ih2, hφ.map_horner_cons h x c cs hx hc hcs']
    ring

/-- C16: for a field element `x` and a list `coeffs` of field elements, `horner` equals the
fold that multiplies at every step, which equals the XOR over `i` of `coeffs[i] * x^i`; for
the empty list the result is 0. -/
theorem horner_eq_polynomialValue (S : SSSA) (h : S.FieldContract) (x : Nat)
    (coeffs : List Nat) (hx : x < S.fieldSize) (hcoeffs : ∀ c ∈ coeffs, c < S.fieldSize) :
    S.horner x coeffs = hornerEveryStep S x coeffs ∧
      hornerEveryStep S x coeffs = polynomialValue S x coeffs ∧
      S.horner x [] = 0 := by
  refine ⟨horner_eq_hornerEveryStep S x coeffs, ?_, rfl⟩
  obtain ⟨F, inst, φ, hφ⟩ := exists_fieldModel S h
  obtain ⟨h1, h2⟩ := polynomialValueFrom_spec S h hφ x hx coeffs 0 hcoeffs
  rw [← horner_eq_hornerEveryStep S x coeffs]
  refine hφ.injOn _ _ (horner_lt S h x hx coeffs hcoeffs) h1 ?_
  rw [polynomialValue, h2, pow_zero, one_mul]

theorem horner_eq_polynomialValue_witness :
    sssa3.horner 3 [5, 0, 6] = hornerEveryStep sssa3 3 [5, 0, 6] ∧
      hornerEveryStep sssa3 3 [5, 0, 6] = polynomialValue sssa3 3 [5, 0, 6] ∧
      sssa3.horner 3 [] = 0 :=
  horner_eq_polynomialValue sssa3 sssa3_fieldContract 3 [5, 0, 6] (by decide) (by decide)

/-! ### Lagrange interpolation -/

theorem FieldModel.map_inverse {S : SSSA} {F : Type} [Field F] {φ : Nat → F}
    (hφ : FieldModel S φ) (h : S.FieldContract) (a : Nat) (ha : a < S.fieldSize)
    (ha0 : a ≠ 0) : φ (inverse S a) = (φ a)⁻¹ := by
  have hmul := congrArg φ (multiply_inverse S h a ha ha0)
  rw [hφ.map_mul _ _ ha (inverse_lt S h a), hφ.map_one] at hmul
  exact eq_inv_of_mul_eq_one_right hmul

theorem divide_lt (S : SSSA) (h : S.FieldContract) (a b : Nat) (ha : a < S.fieldSize) :
    divide S a b < S.fieldSize :=
  multiply_lt S h a _ ha (inverse_lt S h b)

theorem FieldModel.map_divide {S : SSSA} {F : Type} [Field F] {φ : Nat → F}
    (hφ : FieldModel S φ) (h : S.FieldContract) (a b : Nat) (ha : a < S.fieldSize)
    (hb : b < S.fieldSize) (hb0 : b ≠ 0) : φ (divide S a b) = φ a / φ b := by
  rw [divide, hφ.map_mul _ _ ha (inverse_lt S h b), hφ.map_inverse h b hb hb0, div_eq_mul_inv]

theorem basisProductFrom_spec (S : SSSA) (h : S.FieldContract) {F : Type} [Field F]
    {φ : Nat → F} (hφ : FieldModel S φ) (x : List Nat) (i : Nat) (hi : i < x.length)
    (hx : ∀ e ∈ x, e < S.fieldSize ∧ e ≠ 0) (hnd : x.Nodup) :
    ∀ (rest : List Nat) (j : Nat), x.drop j = rest →
      basisProductFrom S i (x.getD i 0) j rest < S.fieldSize ∧
        φ (basisProductFrom S i (x.getD i 0) j rest) =
          ∏ k ∈ Finset.Ico j x.length, lagrangeFactor φ x i k
  | [], j, hdrop => by
    have hn := fieldSize_ge_two S h
    have hj : x.length ≤ j := List.drop_eq_nil_iff.mp hdrop
    refine ⟨by simp only [basisProductFrom]; omega, ?_⟩
    rw [Finset.Ico_eq_empty (by omega), Finset.prod_empty, basisProductFrom, hφ.map_one]
  | xj :: rest, j, hdrop => by
    have hj : j < x.length := by
      by_contra hge
      rw [List.drop_eq_nil_iff.mpr (by omega)] at hdrop
      exact List.noConfusion hdrop
    rw [List.drop_eq_getElem_cons hj] at hdrop
    injection hdrop with hxj hrest
    obtain ⟨ih1, ih2⟩ := basisProductFrom_spec S h hφ x i hi hx hnd rest (j + 1) hrest
    rw [Finset.prod_eq_prod_Ico_succ_bot hj, basisProductFrom]
    by_cases hji : j = i
    · rw [if_pos hji, lagrangeFactor, if_pos hji, one_mul]
      exact ⟨ih1, ih2⟩
    · have hxi : x.getD i 0 = x[i] := List.getD_eq_getElem _ _ hi
      have hmem : xj ∈ x := hxj ▸ List.getElem_mem hj
      have hmemi : x[i] ∈ x := List.getElem_mem hi
      have hne : x[i] ≠ xj := by
        rw [← hxj]
        intro heq
        exact hji ((hnd.getElem_inj_iff).mp heq).symm
      have hxor : x[i] ^^^ xj < S.fieldSize := Nat.xor_lt_two_pow (hx _ hmemi).1 (hx _ hmem).1
      have hd := divide_lt S h xj (x[i] ^^^ xj) (hx _ hmem).1
      rw [if_neg hji, hxi]
      refine ⟨multiply_lt S h _ _ hd (hxi ▸ ih1), ?_⟩
      rw [hφ.map_mul _ _ hd (hxi ▸ ih1), hφ.map_divide h _ _ (hx _ hmem).1 hxor
        (Nat.xor_ne_zero.mpr hne), hφ.map_xor _ _ (hx _ hmemi).1 (hx _ hmem).1, ← hxi, ih2,
        lagrangeFactor, if_neg hji, List.getD_eq_getElem _ _ hj, hxj]

theorem lagrangeAtZero_spec (S : SSSA) (h : S.FieldContract) {F : Type} [Field F]
    {φ : Nat → F} (hφ : FieldModel S φ) (x y : List Nat)
    (hx : ∀ e ∈ x, e < S.fieldSize ∧ e ≠ 0) (hnd : x.Nodup) (hy : ∀ e ∈ y, e < S.fieldSize) :
    lagrangeAtZero S x y < S.fieldSize ∧
      φ (lagrangeAtZero S x y) = ∑ i ∈ Finset.range x.length, lagrangeSummand φ x y i := by
  have hn := fieldSize_ge_two S h
  have key : ∀ k, k ≤ x.length →
      (List.range k).foldl (fun sum i =>
          sum ^^^ S.char2GF.multiply (y.getD i 0) (basisProductFrom S i (x.getD i 0) 0 x)) 0 <
        S.fieldSize ∧
      φ ((List.range k).foldl (fun sum i =>
          sum ^^^ S.char2GF.multiply (y.getD i 0) (basisProductFrom S i (x.getD i 0) 0 x)) 0) =
        ∑ i ∈ Finset.range k, lagrangeSummand φ x y i := by
    intro k
    induction k with
    | zero =>
      intro _
      simp only [List.range_zero, List.foldl_nil, Finset.range_zero, Finset.sum_empty]
      exact ⟨by omega, hφ.map_zero⟩
    | succ k ih =>
      intro hk
      obtain ⟨h1, h2⟩ := ih (by omega)
      obtain ⟨h3, h4⟩ := basisProductFrom_spec S h hφ x k (by omega) hx hnd x 0 rfl
      have hyk : y.getD k 0 < S.fieldSize := by
        by_cases hlt : k < y.length
        · rw [List.getD_eq_getElem _ _ hlt]; exact hy _ (List.getElem_mem hlt)
        · rw [List.getD_eq_default _ _ (by omega)]; omega
      have hm := multiply_lt S h _ _ hyk h3
      rw [List.range_succ, List.foldl_append, List.foldl_cons, List.foldl_nil,
        Finset.sum_range_succ]
      refine ⟨Nat.xor_lt_two_pow h1 hm, ?_⟩
      rw [hφ.map_xor _ _ h1 hm, h2, hφ.map_mul _ _ hyk h3, h4, lagrangeSummand,
        Finset.range_eq_Ico]
  exact key x.length (le_refl _)

/-- C14: for pairwise distinct `x` in `1 .. fieldSize - 1` and field elements `y` (of the same
length; an entry that `y` lacks counts as 0 on both sides), `lagrange(x, y)` is the XOR over
`i` of `y[i] * prod_{j ≠ i} x[j] / (x[i] XOR x[j])`, with the product and the quotient of the
field. -/
theorem lagrange_eq_lagrangeAtZero (S : SSSA) (h : S.FieldContract) (x y : List Nat)
    (hnd : x.Nodup) (hx : ∀ e ∈ x, 1 ≤ e ∧ e ≤ S.fieldSize - 1)
    (hy : ∀ e ∈ y, e < S.fieldSize) :
    S.lagrange x y = lagrangeAtZero S x y := by
  have hn := fieldSize_ge_two S h
  obtain ⟨F, inst, φ, hφ⟩ := exists_fieldModel S h
  have hx' : ∀ e ∈ x, e < S.fieldSize ∧ e ≠ 0 := fun e he => by
    have := hx e he
    omega
  obtain ⟨h1, h2⟩ := lagrange_spec S h hφ x y hx' hnd hy
  obtain ⟨h3, h4⟩ := lagrangeAtZero_spec S h hφ x y hx' hnd hy
  exact hφ.injOn _ _ h1 h3 (h2.trans h4.symm)

theorem lagrange_eq_lagrangeAtZero_witness :
    sssa3.lagrange [2, 5, 3] [7, 0, 4] = lagrangeAtZero sssa3 [2, 5, 3] [7, 0, 4] :=
  lagrange_eq_lagrangeAtZero sssa3 sssa3_fieldContract [2, 5, 3] [7, 0, 4] (by decide)
    (by decide) (by decide)

/-! ### The degenerate case of `lagrange` -/

/-- The inner loop ends with the sentinel `-1` as soon as a zero stands at a position other
than `i`. -/
theorem lagrangeProduct_sentinel (S : SSSA) (i xi : Nat) :
    ∀ (rest : List Nat) (j : Nat) (p : Option Int),
      (∃ k, k < rest.length ∧ rest.getD k 1 = 0 ∧ j + k ≠ i) →
      S.lagrangeProduct i xi j rest p = some (-1)
  | [], _, _, hz => by
    obtain ⟨k, hk, _⟩ := hz
    simp at hk
  | xj :: rest, j, p, hz => by
    obtain ⟨k, hk, hzero, hne⟩ := hz
    rw [SSSA.lagrangeProduct]
    by_cases hij : i = j
    · rw [if_neg (by simpa using hij)]
      cases k with
      | zero => omega
      | succ k =>
        exact lagrangeProduct_sentinel S i xi rest (j + 1) p
          ⟨k, by simpa using hk, by simpa using hzero, by omega⟩
    · rw [if_pos hij]
      by_cases hx0 : xj = 0
      · rw [if_pos hx0]
      · rw [if_neg hx0]
        cases k with
        | zero => simp at hzero; exact absurd hzero hx0
        | succ k =>
          exact lagrangeProduct_sentinel S i xi rest (j + 1) _
            ⟨k, by simpa using hk, by simpa using hzero, by omega⟩

/-- With `x[i] = 0` an update leaves the exponent as it is. -/
theorem lagrangeStep_zero (S : SSSA) (p xj : Nat) (hp : p < S.fieldSize - 1)
    (hxj : xj < S.fieldSize) (hxj0 : xj ≠ 0) :
    S.lagrangeStep (some (p : Int)) 0 xj = some (p : Int) := by
  have h1 : S.char2GF.logsAt (0 ^^^ xj) = some (S.logs xj) := by
    simp only [CharacteristicTwoGaloisField.logsAt, Nat.zero_xor, SSSA.char2GF]
    rw [if_pos ⟨by omega, hxj⟩]
  have h3 : ¬((S.fieldSize : Int) - 1 = 0) := by omega
  simp only [SSSA.lagrangeStep, h1, if_neg h3]
  congr 1
  have e1 : ((p : Int) + (S.logs xj : Int) - (S.logs xj : Int) + (S.fieldSize : Int) - 1) =
      ((p + (S.fieldSize - 1) : Nat) : Int) := by omega
  have e2 : ((S.fieldSize : Int) - 1) = ((S.fieldSize - 1 : Nat) : Int) := by omega
  rw [e1, e2, Int.tmod_eq_emod (Int.ofNat_nonneg _) (Int.ofNat_nonneg _)]
  norm_cast
  rw [Nat.add_mod_right, Nat.mod_eq_of_lt hp]

theorem lagrangeProduct_zero (S : SSSA) (i p : Nat) (hp : p < S.fieldSize - 1) :
    ∀ (rest : List Nat) (j : Nat),
      (∀ k, k < rest.length → j + k ≠ i → rest.getD k 0 ≠ 0 ∧ rest.getD k 0 < S.fieldSize) →
      S.lagrangeProduct i 0 j rest (some (p : Int)) = some (p : Int)
  | [], _, _ => rfl
  | xj :: rest, j, hrest => by
    have ih := lagrangeProduct_zero S i p hp rest (j + 1) (fun k hk hne => by
      have := hrest (k + 1) (by simpa using hk) (by omega)
      simpa using this)
    rw [SSSA.lagrangeProduct]
    by_cases hij : i = j
    · rw [if_neg (by simpa using hij)]
      exact ih
    · have h0 := hrest 0 (by simp) (by omega)
      simp only [List.getD_cons_zero] at h0
      rw [if_pos hij, if_neg h0.1, lagrangeStep_zero S p xj hp h0.2 h0.1]
      exact ih

/-- C17: when exactly one x-coordinate, `x[j0]`, is 0 and the others are nonzero field
elements, every term `i ≠ j0` leaves the running sum unchanged and `lagrange(x, y)` is
`y[j0]`. -/
theorem lagrange_degenerate (S : SSSA) (h : S.FieldContract) (x y : List Nat) (j0 : Nat)
    (hj0 : j0 < x.length) (hzero : x.getD j0 0 = 0)
    (hothers : ∀ j, j < x.length → j ≠ j0 → x.getD j 0 ≠ 0 ∧ x.getD j 0 < S.fieldSize)
    (hlen : y.length = x.length) (hy : ∀ e ∈ y, e < S.fieldSize) :
    (∀ sum i, i < x.length → i ≠ j0 → S.lagrangeTerm x y sum i = sum) ∧
      S.lagrange x y = y.getD j0 0 := by
  have hn := fieldSize_ge_two S h
  have hterm : ∀ sum i, i < x.length → i ≠ j0 → S.lagrangeTerm x y sum i = sum := by
    intro sum i _ hi
    have hstop := lagrangeProduct_sentinel S i (x.getD i 0) x 0
      ((S.char2GF.logsAt (y.getD i 0)).map Int.ofNat)
      ⟨j0, hj0, by rw [List.getD_eq_getElem _ _ hj0, ← List.getD_eq_getElem x 0 hj0, hzero],
        by omega⟩
    unfold SSSA.lagrangeTerm
    by_cases hy0 : y.getD i 0 = 0
    · rw [if_neg (by simpa using hy0)]
    · rw [if_pos hy0]
      simp only [hstop, if_true]
  have hyj : y.getD j0 0 < S.fieldSize := by
    rw [List.getD_eq_getElem _ _ (by omega)]
    exact hy _ (List.getElem_mem _)
  have hself : ∀ sum, S.lagrangeTerm x y sum j0 = sum ^^^ y.getD j0 0 := by
    intro sum
    unfold SSSA.lagrangeTerm
    by_cases hy0 : y.getD j0 0 = 0
    · rw [if_neg (by simpa using hy0), hy0, Nat.xor_zero]
    · have hh := h
      obtain ⟨_, _, hlogs, _, hel, _, _, _⟩ := hh
      have hl := hlogs _ hyj (by omega)
      have hlog : (S.char2GF.logsAt (y.getD j0 0)).map Int.ofNat =
          some ((S.logs (y.getD j0 0) : Nat) : Int) := by
        simp only [CharacteristicTwoGaloisField.logsAt, SSSA.char2GF]
        rw [if_pos ⟨by omega, hyj⟩]
        rfl
      have hrun := lagrangeProduct_zero S j0 _ hl x 0 (fun k hk hne => by
        have := hothers k hk (by omega)
        exact this)
      rw [if_pos hy0]
      simp only [hlog, hzero, hrun]
      have hneg : ¬((some ((S.logs (y.getD j0 0) : Nat) : Int) : Option Int) = some (-1)) := by
        intro heq
        injection heq with heq
        omega
      have hread : S.char2GF.expsAt (some ((S.logs (y.getD j0 0) : Nat) : Int)) =
          some (S.exps (S.logs (y.getD j0 0))) := by
        simp only [CharacteristicTwoGaloisField.expsAt, SSSA.char2GF]
        rw [if_pos ⟨by omega, by omega⟩]
        simp
      rw [if_neg hneg, hread, Option.getD_some, hel _ hyj (by omega)]
  refine ⟨hterm, ?_⟩
  have key : ∀ k, k ≤ x.length →
      (List.range k).foldl (S.lagrangeTerm x y) 0 = if j0 < k then y.getD j0 0 else 0 := by
    intro k
    induction k with
    | zero => intro _; rfl
    | succ k ih =>
      intro hk
      rw [List.range_succ, List.foldl_append, List.foldl_cons, List.foldl_nil, ih (by omega)]
      by_cases hkj : k = j0
      · subst hkj
        rw [if_neg (by omega), if_pos (by omega), hself, Nat.zero_xor]
      · rw [hterm _ k (by omega) hkj]
        by_cases hlt : j0 < k
        · rw [if_pos hlt, if_pos (by omega)]
        · rw [if_neg hlt, if_neg (by omega)]
  rw [SSSA.lagrange, key x.length (le_refl _), if_pos hj0]

theorem lagrange_degenerate_witness :
    (∀ sum i, i < [3, 0, 6].length → i ≠ 1 → sssa3.lagrangeTerm [3, 0, 6] [2, 5, 7] sum i = sum) ∧
      sssa3.lagrange [3, 0, 6] [2, 5, 7] = [2, 5, 7].getD 1 0 :=
  lagrange_degenerate sssa3 sssa3_fieldContract [3, 0, 6] [2, 5, 7] 1 (by decide) (by decide)
    (by decide) (by decide) (by decide)

/-! ### Table lookups of `lagrange` -/

theorem lagrangeStep_inRange (S : SSSA)
    (hlogs : ∀ v, v < S.fieldSize → 0 < v → S.logs v ≤ S.fieldSize - 2)
    (hn : 2 ≤ S.fieldSize) (p : Option Int) (hp : IsExponent S p) (xi xj : Nat)
    (hxi : xi < S.fieldSize) (hxj : xj < S.fieldSize) (hxj0 : xj ≠ 0) (hne : xi ≠ xj) :
    (∀ e ∈ lagrangeStepEvents S p xi xj, e.InRange S) ∧
      IsExponent S (S.lagrangeStep p xi xj) := by
  obtain ⟨v, rfl, hv0, hv⟩ := hp
  have hx : xi ^^^ xj < S.fieldSize := Nat.xor_lt_two_pow hxi hxj
  have hx0 : xi ^^^ xj ≠ 0 := Nat.xor_ne_zero.mpr hne
  have la := hlogs xj hxj (by omega)
  have lb := hlogs (xi ^^^ xj) hx (by omega)
  have h1 : S.char2GF.logsAt (0 ^^^ xj) = some (S.logs xj) := by
    simp only [CharacteristicTwoGaloisField.logsAt, Nat.zero_xor, SSSA.char2GF]
    rw [if_pos ⟨by omega, hxj⟩]
  have h2 : S.char2GF.logsAt (xi ^^^ xj) = some (S.logs (xi ^^^ xj)) := by
    simp only [CharacteristicTwoGaloisField.logsAt, SSSA.char2GF]
    rw [if_pos ⟨by omega, hx⟩]
  have h3 : ¬((S.fieldSize : Int) - 1 = 0) := by omega
  have hbefore : (0 : Int) ≤ v + (S.logs xj : Int) - (S.logs (xi ^^^ xj) : Int) +
      (S.fieldSize : Int) - 1 := by omega
  have hstep : S.lagrangeStep (some v) xi xj =
      some (Int.tmod (v + (S.logs xj : Int) - (S.logs (xi ^^^ xj) : Int) +
        (S.fieldSize : Int) - 1) ((S.fieldSize : Int) - 1)) := by
    simp only [SSSA.lagrangeStep, h1, h2, if_neg h3]
  have hres : IsExponent S (S.lagrangeStep (some v) xi xj) := by
    refine ⟨_, hstep, ?_, ?_⟩
    · rw [Int.tmod_eq_emod hbefore (by omega)]
      exact Int.emod_nonneg _ h3
    · rw [Int.tmod_eq_emod hbefore (by omega)]
      have := Int.emod_lt_of_pos (v + (S.logs xj : Int) - (S.logs (xi ^^^ xj) : Int) +
        (S.fieldSize : Int) - 1) (show (0 : Int) < (S.fieldSize : Int) - 1 by omega)
      omega
  refine ⟨?_, hres⟩
  intro e he
  simp only [lagrangeStepEvents, h1, h2, List.mem_cons, List.mem_singleton,
    List.not_mem_nil, or_false] at he
  rcases he with rfl | rfl | rfl
  · simpa [LagrangeEvent.InRange] using hxj0
  · exact hx0
  · exact ⟨⟨_, rfl, hbefore⟩, hres⟩

theorem lagrangeProduct_inRange (S : SSSA)
    (hlogs : ∀ v, v < S.fieldSize → 0 < v → S.logs v ≤ S.fieldSize - 2)
    (hn : 2 ≤ S.fieldSize) (x : List Nat) (i : Nat) (hi : i < x.length)
    (hx : ∀ e ∈ x, e < S.fieldSize ∧ e ≠ 0) (hnd : x.Nodup) :
    ∀ (rest : List Nat) (j : Nat) (p : Option Int), x.drop j = rest → IsExponent S p →
      (∀ e ∈ lagrangeProductEvents S i (x.getD i 0) j rest p, e.InRange S) ∧
        IsExponent S (S.lagrangeProduct i (x.getD i 0) j rest p)
  | [], _, p, _, hp => ⟨fun e he => by simp [lagrangeProductEvents] at he, hp⟩
  | xj :: rest, j, p, hdrop, hp => by
    have hj : j < x.length := by
      by_contra hge
      rw [List.drop_eq_nil_iff.mpr (by omega)] at hdrop
      exact List.noConfusion hdrop
    rw [List.drop_eq_getElem_cons hj] at hdrop
    injection hdrop with hxj hrest
    rw [lagrangeProductEvents, SSSA.lagrangeProduct]
    by_cases hij : i = j
    · rw [if_neg (by simpa using hij), if_neg (by simpa using hij)]
      exact lagrangeProduct_inRange S hlogs hn x i hi hx hnd rest (j + 1) p hrest hp
    · have hxi : x.getD i 0 = x[i] := List.getD_eq_getElem _ _ hi
      have hmem : xj ∈ x := hxj ▸ List.getElem_mem hj
      have hmemi : x[i] ∈ x := List.getElem_mem hi
      have hne : x[i] ≠ xj := by
        rw [← hxj]
        intro heq
        exact hij ((hnd.getElem_inj_iff).mp heq)
      obtain ⟨hev, hq⟩ := lagrangeStep_inRange S hlogs hn p hp x[i] xj (hx _ hmemi).1
        (hx _ hmem).1 (hx _ hmem).2 hne
      obtain ⟨hev', hq'⟩ := lagrangeProduct_inRange S hlogs hn x i hi hx hnd rest (j + 1) _
        hrest hq
      rw [if_pos hij, if_pos hij, if_neg (hx _ hmem).2, if_neg (hx _ hmem).2, hxi]
      rw [hxi] at hev' hq'
      refine ⟨fun e he => ?_, hq'⟩
      rcases List.mem_append.mp he with he | he
      · exact hev e he
      · exact hev' e he

/-- C19: if `logs` maps every nonzero field element into `[0, fieldSize - 2]`, then for
pairwise distinct `x` in `1 .. fieldSize - 1` and `y` with entries below `fieldSize`,
`lagrange` never reads `logs[0]`, `product` is an integer in `[0, fieldSize - 2]` after every
assignment and update, the sum is not negative before `%`, and every index used to read
`exps` lies in `[0, fieldSize - 2]`. -/
theorem lagrange_lookups_in_range (S : SSSA) (x y : List Nat)
    (hlogs : ∀ v, v < S.fieldSize → 0 < v → S.logs v ≤ S.fieldSize - 2)
    (hnd : x.Nodup) (hx : ∀ e ∈ x, 1 ≤ e ∧ e ≤ S.fieldSize - 1)
    (hy : ∀ e ∈ y, e < S.fieldSize) :
    ∀ e ∈ lagrangeEvents S x y, e.InRange S := by
  intro e he
  rw [lagrangeEvents, List.mem_flatMap] at he
  obtain ⟨i, hi, he⟩ := he
  rw [List.mem_range] at hi
  have hn : 2 ≤ S.fieldSize := by
    have := hx _ (List.getElem_mem hi)
    omega
  have hx' : ∀ e ∈ x, e < S.fieldSize ∧ e ≠ 0 := fun e he => by
    have := hx e he
    omega
  unfold lagrangeTermEvents at he
  by_cases hy0 : y.getD i 0 = 0
  · rw [if_neg (by simpa using hy0)] at he
    simp at he
  · rw [if_pos hy0] at he
    have hyi : y.getD i 0 < S.fieldSize := by
      by_cases hlt : i < y.length
      · rw [List.getD_eq_getElem _ _ hlt]; exact hy _ (List.getElem_mem hlt)
      · rw [List.getD_eq_default _ _ (by omega)]; omega
    have hl := hlogs _ hyi (by omega)
    have hlog : (S.char2GF.logsAt (y.getD i 0)).map Int.ofNat =
        some ((S.logs (y.getD i 0) : Nat) : Int) := by
      simp only [CharacteristicTwoGaloisField.logsAt, SSSA.char2GF]
      rw [if_pos ⟨by omega, hyi⟩]
      rfl
    have hstart : IsExponent S (some ((S.logs (y.getD i 0) : Nat) : Int)) :=
      ⟨_, rfl, by omega, by omega⟩
    obtain ⟨hev, hq⟩ := lagrangeProduct_inRange S hlogs hn x i hi hx' hnd x 0 _ rfl hstart
    simp only [hlog] at he
    rcases List.mem_append.mp he with he | he
    · rcases List.mem_append.mp he with he | he
      · simp only [List.mem_cons, List.mem_singleton, List.not_mem_nil, or_false] at he
        rcases he with rfl | rfl
        · exact hy0
        · exact hstart
      · exact hev e he
    · split_ifs at he with hneg
      · simp at he
      · rw [List.mem_singleton] at he
        subst he
        exact hq

theorem lagrange_lookups_in_range_witness :
    LagrangeEvent.update (some 13) (some 6) ∈ lagrangeEvents sssa3 [2, 5, 3] [7, 0, 4] ∧
      LagrangeEvent.InRange sssa3 (.update (some 13) (some 6)) :=
  ⟨by decide,
    lagrange_lookups_in_range sssa3 [2, 5, 3] [7, 0, 4] (by decide) (by decide) (by decide)
      (by decide) _ (by decide)⟩

/-! ### Reconstruction from the first shares -/

theorem isHexChar_hexChar (d : Nat) : isHexChar (hexChar d) = true := by
  by_cases hd : d < 16
  · interval_cases d <;> decide
  · have : hexChar d = '0' := by
      unfold hexChar
      exact List.getD_eq_default _ _ (by simp [hexAlphabet]; omega)
    rw [this]
    decide

theorem all_isHexChar_toHex (n : Nat) : (toHex n).all isHexChar = true := by
  simp [toHex, List.all_eq_true, isHexChar_hexChar]

theorem all_isHexChar_bin2hex (bits : List Bool) : (bin2hex bits).all isHexChar = true := by
  simp [bin2hex, List.all_eq_true, isHexChar_hexChar]

theorem all_isHexChar_padLeft (str : List Char) (width : Nat)
    (h : str.all isHexChar = true) : (padLeft '0' str width).all isHexChar = true := by
  simp only [padLeft, List.all_append, List.all_replicate, h, Bool.and_true]
  split_ifs <;> rfl

theorem bin2hex_markPadding_length (bits : List Bool) :
    1 ≤ (bin2hex (markPadding bits)).length := by
  have h := groupsFromTail_ne_nil 4 (markPadding bits) (markPadding bits).length
    (by simp [markPadding])
  simp only [bin2hex, List.length_reverse, List.length_map]
  exact List.length_pos.mpr h

theorem toHex_of_le_nine (id : Nat) (h1 : 1 ≤ id) (h9 : id ≤ 9) : toHex id = [hexChar id] := by
  interval_cases id <;> rfl

theorem parseInt_padded_digit (z id : Nat) (h9 : id ≤ 9) :
    parseInt (List.replicate z '0' ++ [hexChar id]) = some id := by
  have hdec : isDecimalChar (hexChar id) = true := by interval_cases id <;> decide
  have hval : (hexChar id).toNat - '0'.toNat = id := by interval_cases id <;> decide
  have hall : (List.replicate z '0' ++ [hexChar id]).takeWhile isDecimalChar =
      List.replicate z '0' ++ [hexChar id] := by
    rw [List.takeWhile_eq_self_iff]
    intro c hc
    rcases List.mem_append.mp hc with hc | hc
    · rw [List.eq_of_mem_replicate hc]; decide
    · rw [List.mem_singleton.mp hc]; exact hdec
  have hfold : ∀ (z acc : Nat),
      (List.replicate z '0').foldl (fun acc c => 10 * acc + (c.toNat - '0'.toNat)) 0 = 0 := by
    intro z _
    induction z with
    | zero => rfl
    | succ z ih => rw [List.replicate_succ, List.foldl_cons]; exact ih
  unfold parseInt
  simp only [hall]
  rw [if_neg (by simp), List.foldl_append, hfold z 0]
  simp only [List.foldl_cons, List.foldl_nil, Nat.mul_zero, Nat.zero_add, hval]

/-- Reading back the share string built for an id up to 9: the id is the one written. -/
theorem deconstruct_expectedString (S : SSSA) (id : Nat) (bits : List Bool) (h1 : 1 ≤ id)
    (h9 : id ≤ 9) (hid : id ≤ S.fieldSize - 1) :
    S.deconstructPublicShareString
        (padLeft '0' (toHex id) S.idLen ++ bin2hex (markPadding bits)) =
      .ok (id, bin2hex (markPadding bits)) := by
  have hlen := padLeft_toHex_length S id hid
  have hdata := bin2hex_markPadding_length bits
  have hcomp : S.shareComponents (padLeft '0' (toHex id) S.idLen ++ bin2hex (markPadding bits)) =
      some (padLeft '0' (toHex id) S.idLen, bin2hex (markPadding bits)) := by
    unfold SSSA.shareComponents
    rw [if_pos ⟨by
      rw [List.all_append, all_isHexChar_padLeft _ _ (all_isHexChar_toHex id),
        all_isHexChar_bin2hex]; rfl, by rw [List.length_append, hlen]; omega⟩,
      List.take_left' hlen, List.drop_left' hlen]
  have hparse : parseInt (padLeft '0' (toHex id) S.idLen) = some id := by
    rw [padLeft, toHex_of_le_nine id h1 h9]
    exact parseInt_padded_digit _ id h9
  have hne : (bin2hex (markPadding bits)).isEmpty = false := by
    cases hb : bin2hex (markPadding bits) with
    | nil => rw [hb] at hdata; simp at hdata
    | cons a l => rfl
  unfold SSSA.deconstructPublicShareString
  simp only [hcomp, Option.some_bind, hparse, hne]
  rw [if_neg (by omega)]
  simp

theorem assignColumn_eq_pushRow (i : Nat) :
    ∀ (col : List Nat) (j : Nat) (y : List (List Nat)),
      (∀ t, j ≤ t → t < y.length → (y.getD t []).length = i) →
      (i = 0 ∨ j + col.length ≤ y.length) →
      assignColumn i j col y = pushRow j col y
  | [], _, _, _, _ => rfl
  | v :: col, j, y, hrows, hsize => by
    have hstep : assignAt y j i v = pushAt y j v := by
      unfold assignAt pushAt
      by_cases hj : j < y.length
      · rw [if_pos hj, if_pos hj]
        have hl := hrows j (le_refl j) hj
        congr 1
        unfold setAt
        rw [if_neg (by omega), hl, Nat.sub_self]
        simp
      · rw [if_neg hj, if_neg hj]
        have hi : i = 0 := by
          rcases hsize with h | h
          · exact h
          · simp only [List.length_cons] at h; omega
        subst hi
        rfl
    rw [assignColumn, pushRow, hstep]
    apply assignColumn_eq_pushRow i col (j + 1) (pushAt y j v)
    · intro t ht htl
      unfold pushAt at htl ⊢
      by_cases hj : j < y.length
      · rw [if_pos hj] at htl ⊢
        rw [List.length_set] at htl
        rw [List.getD_eq_getElem _ _ (by rw [List.length_set]; exact htl),
          List.getElem_set_ne (by omega), ← List.getD_eq_getElem _ [] htl]
        exact hrows t (by omega) htl
      · rw [if_neg hj] at htl
        simp only [List.length_append, List.length_singleton] at htl
        omega
    · rcases hsize with h | h
      · exact Or.inl h
      · right
        unfold pushAt
        simp only [List.length_cons] at h
        rw [if_pos (by omega), List.length_set]
        omega

theorem map_singleton_eq_transpose (m : Nat) (row : List Nat) (hrow : row.length = m) :
    row.map (fun v => [v]) = transpose m [row] := by
  apply List.ext_getElem
  · simp [transpose, hrow]
  · intro j h1 h2
    simp only [List.length_map] at h1
    simp [transpose, List.getElem?_eq_getElem h1]

theorem transpose_length (m : Nat) (rows : List (List Nat)) : (transpose m rows).length = m := by
  simp [transpose]

theorem transpose_getD_length (m : Nat) (rows : List (List Nat)) (t : Nat) (ht : t < m) :
    ((transpose m rows).getD t []).length = rows.length := by
  rw [List.getD_eq_getElem _ _ (by rw [transpose_length]; exact ht)]
  simp [transpose]

/-- The column that `publicShareToPoints` writes for a new share extends the transpose built
from the columns before it. -/
theorem assignColumn_transpose (r : Nat) (done : List (List Nat)) (col : List Nat)
    (hcol : col.length = r) :
    assignColumn done.length 0 col (if done = [] then [] else transpose r done) =
      transpose r (done ++ [col]) := by
  by_cases hd : done = []
  · subst hd
    rw [if_pos rfl, List.length_nil,
      assignColumn_eq_pushRow 0 col 0 [] (by intro t _ ht; simp at ht)
      (Or.inl rfl), pushRow_new col 0 [] rfl, List.nil_append, List.nil_append]
    exact map_singleton_eq_transpose r col hcol
  · rw [if_neg hd, assignColumn_eq_pushRow done.length col 0 (transpose r done)
      (by
        intro t _ ht
        rw [transpose_length] at ht
        exact transpose_getD_length r done t ht)
      (Or.inr (by rw [transpose_length]; omega))]
    have h := pushRow_old col 0 [] (transpose r done) rfl
      (by rw [transpose_length]; exact hcol.symm)
    rw [List.nil_append, List.nil_append] at h
    rw [h, transpose_snoc r done col hcol]

theorem expectedStrings_cons (S : SSSA) (i : Nat) (b : List Bool) (l : List (List Bool)) :
    expectedStrings S i (b :: l) =
      (padLeft '0' (toHex (i + 1)) S.idLen ++ bin2hex (markPadding b)) ::
        expectedStrings S (i + 1) l := by
  simp [expectedStrings, List.enumFrom_cons]

theorem expectedStrings_take (S : SSSA) :
    ∀ (l : List (List Bool)) (i k : Nat),
      (expectedStrings S i l).take k = expectedStrings S i (l.take k)
  | [], _, _ => by simp [expectedStrings]
  | _ :: _, _, 0 => by simp [expectedStrings]
  | b :: l, i, k + 1 => by
    rw [expectedStrings_cons, List.take_succ_cons, List.take_succ_cons, expectedStrings_cons,
      expectedStrings_take S l (i + 1) k]

/-- Reading the share strings of the columns `rest`, numbered after the columns `done` already
read, gives the transpose of all the columns, as long as the ids are at most 9. -/
theorem publicShareToPointsLoop_expected (S : SSSA) (hw : 1 ≤ S.coeffLength) (r : Nat)
    (hr : 1 ≤ r) :
    ∀ (rest done : List (List Nat)),
      (∀ col ∈ rest, col.length = r ∧ ∀ v ∈ col, v < S.fieldSize) →
      done.length + rest.length ≤ 9 → done.length + rest.length ≤ S.fieldSize - 1 →
      S.publicShareToPointsLoop
          (expectedStrings S done.length
            (rest.map (fun col => convertIntArrayToBits col S.coeffLength)))
          (List.range' 1 done.length) (if done = [] then [] else transpose r done) =
        .ok (if done ++ rest = [] then [] else transpose r (done ++ rest))
  | [], done, _, _, _ => by
    simp [expectedStrings, SSSA.publicShareToPointsLoop]
  | col :: rest, done, hrest, h9, hmax => by
    obtain ⟨hlen, hrange⟩ := hrest col (List.mem_cons_self col rest)
    simp only [List.length_cons] at h9 hmax
    have hne : col ≠ [] := by
      intro hc
      rw [hc] at hlen
      simp at hlen
      omega
    have hdec := decode_expectedString S hw (done.length + 1) (by omega) col hne hrange
    rw [List.drop_left' (padLeft_toHex_length S (done.length + 1) (by omega))] at hdec
    have hnew : ¬ (done.length + 1 ∈ List.range' 1 done.length) := by
      rw [List.mem_range'_1]
      omega
    have hx : List.range' 1 done.length ++ [done.length + 1] =
        List.range' 1 (done ++ [col]).length := by
      rw [List.length_append, List.length_singleton, List.range'_1_concat, Nat.add_comm 1]
    have hxl : (List.range' 1 done.length ++ [done.length + 1]).length - 1 = done.length := by
      simp
    rw [List.map_cons, expectedStrings_cons]
    unfold SSSA.publicShareToPointsLoop
    rw [deconstruct_expectedString S (done.length + 1) _ (by omega) (by omega) (by omega)]
    simp only []
    rw [if_neg hnew, hxl, hdec, assignColumn_transpose r done col hlen, hx]
    have ih := publicShareToPointsLoop_expected S hw r hr rest (done ++ [col])
      (fun c hc => hrest c (List.mem_cons_of_mem col hc))
      (by simp only [List.length_append, List.length_singleton]; omega)
      (by simp only [List.length_append, List.length_singleton]; omega)
    rw [if_neg (by simp)] at ih
    simp only [List.length_append, List.length_singleton, List.append_assoc,
      List.singleton_append] at ih ⊢
    exact ih

theorem splitSecret_lt (S : SSSA) (U : Base64Helpers) (secret : List Char) (padLength : Nat) :
    ∀ c ∈ S.splitSecret U secret padLength, c < S.fieldSize := by
  unfold SSSA.splitSecret splitBitsToIntArray
  exact groupsFromTail_lt S.coeffLength _ _

theorem generateCoefficients_lt (S : SSSA) (source : Nat → Nat) (chunk threshold : Nat)
    (hchunk : chunk < S.fieldSize) :
    ∀ c ∈ generateCoefficients source chunk threshold S.coeffLength, c < S.fieldSize := by
  intro c hc
  unfold generateCoefficients at hc
  rcases List.mem_cons.mp hc with hc | hc
  · rw [hc]; exact hchunk
  · obtain ⟨k, _, rfl⟩ := List.mem_map.mp hc
    exact Nat.mod_lt _ (Nat.two_pow_pos _)

theorem getPointsFromChunks_getD (S : SSSA) (random : Nat → Nat → Nat) (chunks : List Nat)
    (numShares threshold j p : Nat) (hj : j < chunks.length) (hp : p < numShares) :
    ((S.getPointsFromChunks random chunks numShares threshold).getD j []).getD p 0 =
      S.horner (p + 1) (generateCoefficients (random j) (chunks.getD j 0) threshold
        S.coeffLength) := by
  have hrow : (S.getPointsFromChunks random chunks numShares threshold).getD j [] =
      (List.range' 1 numShares).map (fun i => S.horner i
        (generateCoefficients (random j) (chunks.getD j 0) threshold S.coeffLength)) := by
    unfold SSSA.getPointsFromChunks SSSA.getPointsOnPolynomialFor
    simp [List.getD_eq_getElem?_getD, List.getElem?_eq_getElem hj, List.enum,
      List.getElem?_enumFrom]
  rw [hrow]
  simp [List.getD_eq_getElem?_getD, List.getElem?_eq_getElem, hp, Nat.add_comm]

theorem getPointsFromChunks_lt (S : SSSA) (h : S.FieldContract) (random : Nat → Nat → Nat)
    (chunks : List Nat) (numShares threshold : Nat)
    (hchunks : ∀ c ∈ chunks, c < S.fieldSize) (hn : numShares ≤ S.fieldSize - 1) :
    ∀ row ∈ S.getPointsFromChunks random chunks numShares threshold,
      ∀ v ∈ row, v < S.fieldSize := by
  intro row hrow v hv
  unfold SSSA.getPointsFromChunks at hrow
  obtain ⟨q, hq, rfl⟩ := List.mem_map.mp hrow
  unfold SSSA.getPointsOnPolynomialFor at hv
  obtain ⟨i, hi, rfl⟩ := List.mem_map.mp hv
  rw [List.mem_range'_1] at hi
  have hpos := fieldSize_pos S
  have hmem : q.2 ∈ chunks := by
    obtain ⟨a, b⟩ := q
    have hb := (List.mem_enumFrom hq).2.2
    rw [hb]
    exact List.getElem_mem _
  exact horner_lt S h i (by omega) _
    (generateCoefficients_lt S (random q.1) q.2 threshold (hchunks q.2 hmem))

theorem sliceAfterFirstOne_split (width : Nat) (hw : 1 ≤ width) (bits : List Bool)
    (padLength : Nat) :
    sliceAfterFirstOne
        (convertIntArrayToBits (splitBitsToIntArray (markPadding bits) width padLength) width) =
      bits := by
  unfold splitBitsToIntArray markPadding
  obtain ⟨k, hk⟩ := convertIntArrayToBits_groupsFromTail width hw
    (List.replicate padLength false ++ true :: bits).length
    (List.replicate padLength false ++ true :: bits) (le_refl _)
  simp only [hk]
  rw [← List.append_assoc, ← List.replicate_add, sliceAfterFirstOne_marker]

theorem transpose_take (n k : Nat) (rows : List (List Nat)) (hk : k ≤ n) :
    (transpose n rows).take k = transpose k rows := by
  unfold transpose
  rw [← List.map_take, List.take_range, min_eq_left hk]

theorem getChunksFromPoints_transpose (S : SSSA) (r : Nat) (hr : 1 ≤ r)
    (cols : List (List Nat)) :
    S.getChunksFromPoints (transpose r cols) =
      .ok ((transpose r cols).map (fun row => S.lagrange (List.range' 1 cols.length) row)) := by
  have hfirst := transpose_getD_length r cols 0 (by omega)
  have hlen := transpose_length r cols
  cases hT : transpose r cols with
  | nil => rw [hT] at hlen; simp at hlen; omega
  | cons first rest =>
    rw [hT] at hfirst
    simp only [List.getD_cons_zero] at hfirst
    unfold SSSA.getChunksFromPoints
    simp only [hfirst]
    rw [List.range'_eq_map_range]
    simp [Nat.add_comm]

/-- The chunks read back from the first `k` columns of the points of all chunks. -/
theorem lagrange_transpose_points (S : SSSA) (h : S.FieldContract) (random : Nat → Nat → Nat)
    (chunks : List Nat) (n t k : Nat) (hchunks : ∀ c ∈ chunks, c < S.fieldSize)
    (ht : 1 ≤ t) (htk : t ≤ k) (hkn : k ≤ n) (hn : n ≤ S.fieldSize - 1) :
    (transpose chunks.length (transpose k (S.getPointsFromChunks random chunks n t))).map
        (fun row => S.lagrange (List.range' 1 k) row) = chunks := by
  have hrows := getPointsFromChunks_rows S random chunks n t
  apply List.ext_getElem
  · simp [transpose]
  · intro j h1 h2
    have hjl : j < (transpose chunks.length
        (transpose k (S.getPointsFromChunks random chunks n t))).length := by
      rw [transpose_length]; exact h2
    have hrow : (transpose chunks.length
        (transpose k (S.getPointsFromChunks random chunks n t))).getD j [] =
        (List.range' 1 k).map (fun i => S.horner i
          (generateCoefficients (random j) (chunks.getD j 0) t S.coeffLength)) := by
      have hrange : List.range' 1 k = (List.range k).map (fun p => 1 + p) :=
        List.range'_eq_map_range 1 k
      rw [hrange, List.getD_eq_getElem _ _ hjl]
      simp only [transpose, List.getElem_map, List.getElem_range, List.map_map]
      apply List.map_congr_left
      intro p hp
      rw [List.mem_range] at hp
      have hget := getPointsFromChunks_getD S random chunks n t j p h2 (by omega)
      have hAj : j < (S.getPointsFromChunks random chunks n t).length := by
        rw [hrows.1]; exact h2
      have hentry : ((S.getPointsFromChunks random chunks n t).map
          (fun row => row.getD p 0)).getD j 0 =
          ((S.getPointsFromChunks random chunks n t).getD j []).getD p 0 := by
        rw [List.getD_eq_getElem
            ((S.getPointsFromChunks random chunks n t).map (fun row => row.getD p 0)) 0
            (by rw [List.length_map]; exact hAj),
          List.getElem_map, List.getD_eq_getElem (S.getPointsFromChunks random chunks n t) [] hAj]
      simp only [Function.comp_apply]
      rw [hentry, hget, Nat.add_comm]
    rw [List.getElem_map, ← List.getD_eq_getElem _ [] hjl, hrow,
      lagrange_horner S h _ k
        (generateCoefficients_lt S (random j) (chunks.getD j 0) t
          (by
            rw [List.getD_eq_getElem _ _ h2]
            exact hchunks _ (List.getElem_mem _)))
        (by simp [generateCoefficients]; omega) (by omega)]
    simp [generateCoefficients, List.getElem?_eq_getElem h2]

/-- C18: for a secret that the base64 helpers carry to bits and back, arguments that
`verifyInput` accepts, any random source, and any `k` with `threshold ≤ k ≤ numShares` and
`k ≤ 9`, `generateShares` returns a list of strings, and `combine` on its first `k` strings, in
the order returned, returns the secret. -/
theorem combine_first_shares (S : SSSA) (h : S.FieldContract) (U : Base64Helpers)
    (random : Nat → Nat → Nat) (s : List Char) (n t p : Int) (k : Nat)
    (hvalid : S.verifyInput U (.str s) (.num n) (.num t) (.num p) = .ok ())
    (hsecret : U.bitsToBase64 (U.base64ToBits s) = s)
    (htk : t ≤ (k : Int)) (hkn : (k : Int) ≤ n) (hk9 : k ≤ 9) :
    ∃ shares : List (List Char),
      S.generateShares U random (.str s) (.num n) (.num t) (.num p) = .ok shares ∧
      S.combine U (shares.take k) = .ok s := by
  obtain ⟨s0, n0, t0, p0, e1, e2, e3, e4, hs, h1, h2, h3, h4, h5, h6⟩ :=
    verifyInput_accepts S U _ _ _ _ hvalid
  cases e1
  cases e2
  cases e3
  cases e4
  have hpos := fieldSize_pos S
  have hgen := generateShares_of_valid S U random s n t p hs h1 h2 h3 h4 h5 h6
  rw [generateSharesFrom_eq S U random s n.toNat t.toNat _ (by omega) (by omega)] at hgen
  refine ⟨_, hgen, ?_⟩
  rw [expectedStrings_take, ← List.map_take, transpose_take n.toNat k _ (by omega)]
  generalize hpad : (if p = 0 then (128 : Int) else p).toNat = pad
  have hne := splitSecret_ne_nil S U s pad
  have hr : 1 ≤ (S.splitSecret U s pad).length := List.length_pos.mpr hne
  have hrows := getPointsFromChunks_rows S random (S.splitSecret U s pad) n.toNat t.toNat
  have hlt := getPointsFromChunks_lt S h random (S.splitSecret U s pad) n.toNat t.toNat
    (splitSecret_lt S U s pad) (by omega)
  have hcols : ∀ col ∈ transpose k
      (S.getPointsFromChunks random (S.splitSecret U s pad) n.toNat t.toNat),
      col.length = (S.splitSecret U s pad).length ∧ ∀ v ∈ col, v < S.fieldSize := by
    intro col hcol
    simp only [transpose, List.mem_map, List.mem_range] at hcol
    obtain ⟨j, hj, rfl⟩ := hcol
    refine ⟨by rw [List.length_map, hrows.1], ?_⟩
    intro v hv
    obtain ⟨row, hrow, rfl⟩ := List.mem_map.mp hv
    rw [List.getD_eq_getElem _ _ (by rw [hrows.2 row hrow]; omega)]
    exact hlt row hrow _ (List.getElem_mem _)
  have hklen : (transpose k
      (S.getPointsFromChunks random (S.splitSecret U s pad) n.toNat t.toNat)).length = k :=
    transpose_length k _
  have hloop := publicShareToPointsLoop_expected S h.1 (S.splitSecret U s pad).length hr
    (transpose k (S.getPointsFromChunks random (S.splitSecret U s pad) n.toNat t.toNat)) []
    hcols (by rw [hklen, List.length_nil]; omega) (by rw [hklen, List.length_nil]; omega)
  have hnecols : transpose k
      (S.getPointsFromChunks random (S.splitSecret U s pad) n.toNat t.toNat) ≠ [] := by
    intro hnil
    rw [hnil, List.length_nil] at hklen
    omega
  simp only [List.length_nil, List.range'_zero, List.nil_append, if_true] at hloop
  rw [if_neg hnecols] at hloop
  unfold SSSA.combine SSSA.publicShareToPoints
  rw [hloop]
  simp only []
  rw [getChunksFromPoints_transpose S _ hr, hklen,
    lagrange_transpose_points S h random (S.splitSecret U s pad) n.toNat t.toNat k
      (splitSecret_lt S U s pad) (by omega) (by omega) (by omega) (by omega)]
  simp only []
  unfold SSSA.combineSecret SSSA.splitSecret
  simp only []
  rw [sliceAfterFirstOne_split S.coeffLength h.1, hsecret]

set_option maxRecDepth 100000 in
theorem combine_first_shares_witness :
    ∃ shares : List (List Char),
      sssa3.generateShares stdBase64 sampleRandom (.str ['Q', 'Q', '=', '=']) (.num 3) (.num 2)
        (.num 1) = .ok shares ∧
      sssa3.combine stdBase64 (shares.take 2) = .ok ['Q', 'Q', '=', '='] :=
  combine_first_shares sssa3 sssa3_fieldContract stdBase64 sampleRandom ['Q', 'Q', '=', '=']
    3 2 1 2 (by decide) (by decide) (by decide) (by decide) (by decide)

/-! ### Rejection of invalid shares -/

theorem publicShareToPointsLoop_error (S : SSSA) (share : List Char) (e : Error)
    (hshare : S.deconstructPublicShareString share = .error e) (l2 : List (List Char)) :
    ∀ (l1 : List (List Char)) (x : List Nat) (y : List (List Nat)),
      ∃ e0, S.publicShareToPointsLoop (l1 ++ share :: l2) x y = .error e0
  | [], x, y => by
    rw [List.nil_append]
    unfold SSSA.publicShareToPointsLoop
    rw [hshare]
    exact ⟨e, rfl⟩
  | s :: l1, x, y => by
    rw [List.cons_append]
    unfold SSSA.publicShareToPointsLoop
    cases S.deconstructPublicShareString s with
    | error e1 => exact ⟨e1, rfl⟩
    | ok sh =>
      simp only []
      split_ifs
      · exact publicShareToPointsLoop_error S share e hshare l2 l1 _ _
      · exact publicShareToPointsLoop_error S share e hshare l2 l1 _ _

theorem combine_error (S : SSSA) (U : Base64Helpers) (share : List Char) (e : Error)
    (hshare : S.deconstructPublicShareString share = .error e) (l1 l2 : List (List Char)) :
    ∃ e0, S.combine U (l1 ++ share :: l2) = .error e0 := by
  obtain ⟨e0, he0⟩ := publicShareToPointsLoop_error S share e hshare l2 l1 [] []
  unfold SSSA.combine SSSA.publicShareToPoints
  rw [he0]
  exact ⟨e0, rfl⟩

theorem deconstruct_of_no_components (S : SSSA) (share : List Char)
    (hnone : S.shareComponents share = none) :
    S.deconstructPublicShareString share = .error .invalidShareId := by
  unfold SSSA.deconstructPublicShareString
  rw [hnone]
  rfl

set_option maxRecDepth 100000 in
/-- C11: with `coeffLength = 5` the ids are at most `0x1f = 31` and take two hex digits.  The
share string `203` has the id segment `20`, the hex form of 32, which is outside
`[1, fieldSize - 1]`; `deconstructPublicShareString` reads the segment in base ten and returns
the id 20, and `combine` on the list holding this string returns a string instead of throwing.
For every engine, a string whose data part is empty or whose id segment is not `idLen` hex
digits is rejected with the share-id error, and `combine` throws on every list that contains
it. -/
theorem deconstruct_accepts_hex_id_out_of_range :
    sssa5.fieldSize - 1 = 31 ∧ sssa5.idLen = 2 ∧ toHex 32 = ['2', '0'] ∧
    sssa5.deconstructPublicShareString ['2', '0', '3'] = .ok (20, ['3']) ∧
    sssa5.combine stdBase64 [['2', '0', '3']] = .ok [] ∧
    (∀ (S : SSSA) (U : Base64Helpers) (share : List Char),
      (share.length ≤ S.idLen ∨ share.all isHexChar = false) →
        S.deconstructPublicShareString share = .error .invalidShareId ∧
        ∀ l1 l2 : List (List Char), ∃ e, S.combine U (l1 ++ share :: l2) = .error e) := by
  refine ⟨by decide, by decide, by decide, by decide, by decide, ?_⟩
  intro S U share hbad
  have hnone : S.shareComponents share = none := by
    unfold SSSA.shareComponents
    rw [if_neg]
    rintro ⟨h1, h2⟩
    rcases hbad with hbad | hbad
    · omega
    · rw [h1] at hbad
      contradiction
  have hdec := deconstruct_of_no_components S share hnone
  exact ⟨hdec, combine_error S U share _ hdec⟩

end Shamir
